import Mathlib

/-!
Verification of the BOL template-extraction engine
(`template_extractor.py`, `template_creator.py`).

The Python source is shallowly embedded: every definition below is a direct
functional translation of the corresponding Python function, with

* Python `float` coordinate/score arithmetic modelled by exact rationals `ℚ`
  (the source only adds, halves, squares and compares coordinates);
* Python strings modelled by `List Char` restricted to the ASCII fragment
  (`re` character classes `\w`, `\s`, `[A-Za-z]`, `[0-9]` are translated by
  their ASCII definitions; `str.upper`/`strip` likewise);
* Python's stable `sorted`/`list.sort` modelled by `List.insertionSort`
  (a stable sort; a stable sort with respect to a total preorder key is
  uniquely determined, so any stable sort is a faithful model);
* fallible code modelled with `Except`/`Option`.
-/

set_option allowUnsafeReducibility true

attribute [semireducible] Rat.add Rat.mul Rat.sub Rat.inv

namespace BOLExtract

/-- Python ASCII `\s` character class (also the class used by `str.strip`). -/
def isSpaceChar (c : Char) : Bool :=
  c = ' ' || c = '\t' || c = '\n' || c = '\x0d' || c = '\x0b' || c = '\x0c'

/-- Python ASCII `\w` character class: letters, digits and underscore. -/
def isWordChar (c : Char) : Bool :=
  c.isAlpha || c.isDigit || c = '_'

/-- One maximal whitespace run becomes a single `' '`; embedding of
Python `re.sub(r'\s+', ' ', s)`.  The boolean records whether the previous
character was whitespace (i.e. whether we are inside a run whose single
space was already emitted). -/
def collapseWsGo : Bool → List Char → List Char
  | _, [] => []
  | prevWs, c :: cs =>
    if isSpaceChar c then
      if prevWs then collapseWsGo true cs
      else ' ' :: collapseWsGo true cs
    else c :: collapseWsGo false cs

/-- Embedding of `re.sub(r'\s+', ' ', s)`. -/
def collapseWs (l : List Char) : List Char := collapseWsGo false l

/-- Characters kept by `re.sub(r'[^\w\s\-\.\,\(\)\/]', '', s)`:
the complement class deletes everything that is not `\w`, `\s` or one of
`- . , ( ) /`. -/
def keptByFilter (c : Char) : Bool :=
  isWordChar c || isSpaceChar c ||
    c = '-' || c = '.' || c = ',' || c = '(' || c = ')' || c = '/'

/-- Embedding of Python `str.strip()` (remove leading and trailing
whitespace). -/
def pyStrip (l : List Char) : List Char :=
  ((l.dropWhile isSpaceChar).reverse.dropWhile isSpaceChar).reverse

/-- Embedding of `TextNormalizer.normalize_text`: empty guard, uppercase,
collapse whitespace runs to one space, delete characters outside the
`[^\w\s\-\.\,\(\)\/]` allow-set, strip. -/
def normalize_text (s : List Char) : List Char :=
  if s = [] then []
  else pyStrip ((collapseWs (s.map Char.toUpper)).filter keptByFilter)

/-- String-level wrapper for `normalize_text`. -/
def normalizeTextS (s : String) : String := ⟨normalize_text s.data⟩

/-- Allow-set exactly as the specification states it: letters, digits,
space, and `- . , ( ) /` — written from the spec's words, for comparison
with the code's behaviour (which also keeps `_`, since Python `\w`
contains the underscore). -/
def specAllowSet (c : Char) : Bool :=
  c.isAlpha || c.isDigit || c = ' ' ||
    c = '-' || c = '.' || c = ',' || c = '(' || c = ')' || c = '/'

section NormalizeLemmas

theorem collapseWsGo_mem_space (b : Bool) (l : List Char) (c : Char)
    (hc : c ∈ collapseWsGo b l) :
    (c ∈ l ∧ isSpaceChar c = false) ∨ c = ' ' := by
  induction l generalizing b with
  | nil => simp [collapseWsGo] at hc
  | cons d ds ih =>
    simp only [collapseWsGo] at hc
    by_cases hd : isSpaceChar d
    · simp only [hd, if_true] at hc
      cases b with
      | true =>
        simp only [if_true] at hc
        rcases ih _ hc with ⟨h, hns⟩ | h
        · exact Or.inl ⟨List.mem_cons_of_mem _ h, hns⟩
        · exact Or.inr h
      | false =>
        simp only [Bool.false_eq_true, if_false] at hc
        rcases List.mem_cons.mp hc with h | h
        · exact Or.inr h
        · rcases ih _ h with ⟨h2, hns⟩ | h2
          · exact Or.inl ⟨List.mem_cons_of_mem _ h2, hns⟩
          · exact Or.inr h2
    · simp only [hd, if_false] at hc
      rcases List.mem_cons.mp hc with h | h
      · subst h
        exact Or.inl ⟨List.mem_cons_self _ _, Bool.not_eq_true _ ▸ by
          simpa using hd⟩
      · rcases ih _ h with ⟨h2, hns⟩ | h2
        · exact Or.inl ⟨List.mem_cons_of_mem _ h2, hns⟩
        · exact Or.inr h2

theorem pyStrip_subset (l : List Char) (c : Char) (hc : c ∈ pyStrip l) :
    c ∈ l := by
  unfold pyStrip at hc
  have h1 := List.mem_reverse.mp hc
  have h2 := @List.dropWhile_sublist Char ((l.dropWhile isSpaceChar).reverse)
    isSpaceChar
  have h3 : c ∈ (l.dropWhile isSpaceChar).reverse := h2.mem h1
  have h4 := List.mem_reverse.mp h3
  exact (@List.dropWhile_sublist Char l isSpaceChar).mem h4

theorem charOfNat_toNat (m : Nat) (h : m < 0xd800) : (Char.ofNat m).toNat = m := by
  have hv : m.isValidChar := Or.inl (by omega)
  simp only [Char.ofNat, hv, dite_true, dif_pos]
  show (UInt32.ofNat' m _).toNat = m
  simp [UInt32.ofNat', UInt32.toNat]

theorem toUpper_isLower_false (d : Char) : d.toUpper.isLower = false := by
  unfold Char.toUpper Char.isLower
  by_cases h : d.toNat ≥ 97 ∧ d.toNat ≤ 122
  · rw [if_pos h]
    have hval : (Char.ofNat (d.toNat - 32)).toNat = d.toNat - 32 :=
      charOfNat_toNat _ (by omega)
    have hn : ¬ ((97 : UInt32) ≤ (Char.ofNat (d.toNat - 32)).val) := by
      show ¬ (97 ≤ (Char.ofNat (d.toNat - 32)).toNat)
      omega
    simp [hn]
  · rw [if_neg h]
    unfold Char.toNat at h
    have h1 : d.val.toNat < 97 ∨ 122 < d.val.toNat := by omega
    rcases h1 with h1 | h1
    · have hn : ¬ ((97 : UInt32) ≤ d.val) := by
        show ¬ (97 ≤ d.val.toNat)
        omega
      simp [hn]
    · have hn : ¬ (d.val ≤ (122 : UInt32)) := by
        show ¬ (d.val.toNat ≤ 122)
        omega
      simp [hn]

theorem mem_map_toUpper_not_lower (s : List Char) (c : Char)
    (hc : c ∈ s.map Char.toUpper) : ¬ c.isLower := by
  rcases List.mem_map.mp hc with ⟨d, _, rfl⟩
  simp [toUpper_isLower_false d]

/-- Every character of `normalize_text s` is an (upper-case) letter, a
digit, an underscore, a space, or one of `- . , ( ) /`; and the result
neither starts nor ends with whitespace.  This is the spec's allow-set
amended by the underscore (Python `\w` keeps `_`). -/
theorem normalize_text_chars (s : List Char) (c : Char)
    (hc : c ∈ normalize_text s) :
    ((c.isAlpha ∧ ¬ c.isLower) ∨ c.isDigit ∨ c = '_' ∨ c = ' ' ∨
      c = '-' ∨ c = '.' ∨ c = ',' ∨ c = '(' ∨ c = ')' ∨ c = '/') := by
  unfold normalize_text at hc
  by_cases hs : s = []
  · simp [hs] at hc
  · simp only [hs, if_false] at hc
    have h1 := pyStrip_subset _ _ hc
    have h2 := List.mem_filter.mp h1
    have hkept := h2.2
    have h3 := collapseWsGo_mem_space false _ _ h2.1
    unfold keptByFilter isWordChar at hkept
    rcases h3 with ⟨h3, hns⟩ | h3
    · have hnl := mem_map_toUpper_not_lower s c h3
      rw [hns] at hkept
      simp only [Bool.or_false, Bool.or_eq_true, decide_eq_true_eq] at hkept
      tauto
    · subst h3
      exact Or.inr (Or.inr (Or.inr (Or.inl rfl)))

theorem head_dropWhile_not (l : List Char) (c : Char) (p : Char → Bool)
    (h : (l.dropWhile p).head? = some c) : p c = false := by
  induction l with
  | nil => simp [List.dropWhile] at h
  | cons d ds ih =>
    rw [List.dropWhile] at h
    cases hd : p d with
    | true =>
      rw [hd] at h
      exact ih h
    | false =>
      rw [hd] at h
      simp at h
      rw [← h]
      exact hd

theorem pyStrip_head (l : List Char) (c : Char)
    (h : (pyStrip l).head? = some c) : isSpaceChar c = false := by
  unfold pyStrip at h
  set m := l.dropWhile isSpaceChar with hm
  have hsuf : m.reverse.dropWhile isSpaceChar <:+ m.reverse :=
    List.dropWhile_suffix _
  have hpre : (m.reverse.dropWhile isSpaceChar).reverse <+: m := by
    have := (@List.reverse_suffix Char
      ((m.reverse.dropWhile isSpaceChar).reverse) m).mp
    apply this
    simpa using hsuf
  rcases hpre with ⟨t, ht⟩
  rcases hx : (m.reverse.dropWhile isSpaceChar).reverse with _ | ⟨a, as⟩
  · rw [hx] at h; simp at h
  · rw [hx] at h
    simp at h
    have hmh : m.head? = some a := by
      rw [← ht, hx]
      simp
    rw [h] at hmh
    exact head_dropWhile_not l c isSpaceChar hmh

theorem pyStrip_last (l : List Char) (c : Char)
    (h : (pyStrip l).getLast? = some c) : isSpaceChar c = false := by
  unfold pyStrip at h
  rw [List.getLast?_reverse] at h
  exact head_dropWhile_not _ _ _ h

/-- Claim C4 (amended).  `normalize_text` uppercases, collapses whitespace
runs to one space, deletes characters outside its allow-set and trims: every
character of the output is an upper-case letter, digit, underscore, space or
one of `- . , ( ) /` (the spec's allow-set amended by the underscore, which
Python `\w` retains), and the output neither begins nor ends with
whitespace. -/
theorem C4_normalize_text_allowset (s : List Char) :
    (∀ c ∈ normalize_text s,
      (c.isAlpha ∧ ¬ c.isLower) ∨ c.isDigit ∨ c = '_' ∨ c = ' ' ∨
        c = '-' ∨ c = '.' ∨ c = ',' ∨ c = '(' ∨ c = ')' ∨ c = '/') ∧
    (∀ c, (normalize_text s).head? = some c → isSpaceChar c = false) ∧
    (∀ c, (normalize_text s).getLast? = some c → isSpaceChar c = false) := by
  refine ⟨fun c hc => normalize_text_chars s c hc, fun c hc => ?_, fun c hc => ?_⟩
  · unfold normalize_text at hc
    by_cases hs : s = []
    · simp [hs] at hc
    · rw [if_neg hs] at hc
      exact pyStrip_head _ _ hc
  · unfold normalize_text at hc
    by_cases hs : s = []
    · simp [hs] at hc
    · rw [if_neg hs] at hc
      exact pyStrip_last _ _ hc

/-- Witness for C4 at a concrete input: `"a_ b!"` normalizes to `"A_ B"`
and each output character satisfies the amended allow-set. -/
theorem C4_normalize_text_allowset_witness :
    ('A' ∈ normalize_text ("a_ b!".data) ∧
      (('A' : Char).isAlpha ∧ ¬ ('A' : Char).isLower) ∨ ('A' : Char).isDigit ∨
        ('A' : Char) = '_' ∨ ('A' : Char) = ' ' ∨ ('A' : Char) = '-' ∨
        ('A' : Char) = '.' ∨ ('A' : Char) = ',' ∨ ('A' : Char) = '(' ∨
        ('A' : Char) = ')' ∨ ('A' : Char) = '/') := by
  have h := (C4_normalize_text_allowset ("a_ b!".data)).1 'A' (by decide)
  tauto

/-- Counterexample to C4 as stated: the underscore survives
`normalize_text` (Python `\w` contains `_`) but lies outside the spec's
stated allow-set of letters, digits, space and `- . , ( ) /`. -/
theorem C4_counterexample :
    normalizeTextS "_" = "_" ∧ specAllowSet '_' = false := by
  constructor
  · rfl
  · rfl

end NormalizeLemmas

/-! ## Data model

Template records are loosely-typed JSON dictionaries; optional dictionary
entries are modelled with `Option` and `dict.get(key, default)` with
`Option.getD`. -/

/-- One cell of a table grid (`table_cells` entries produced by
`_generate_table_cells`). -/
structure TableCell where
  cell_id : ℕ
  row : ℕ
  col : ℕ
  coordinates : ℚ × ℚ × ℚ × ℚ
deriving DecidableEq, Repr

/-- One template box ("zone").  Fields mirror the JSON box record; only the
fields read by the extractor are modelled. -/
structure Box where
  label : Option String
  coordinates : Option (List ℚ)
  extraction_order : Option ℤ
  box_type : Option String
  table_cells : List TableCell
deriving DecidableEq

/-- Embedding of the `TextElement` dataclass (the mutable
`box_assignment` field is omitted: it only mirrors the bucket the element
is appended to). -/
structure TextElement where
  text : String
  x0 : ℚ
  y0 : ℚ
  x1 : ℚ
  y1 : ℚ
  center_x : ℚ
  center_y : ℚ
deriving DecidableEq

/-- Embedding of `box.get('label', 'Unknown')`. -/
def boxLabel (b : Box) : String := b.label.getD "Unknown"

/-- Containment test of the inner loop of `_assign_text_to_boxes`: the box
must have a well-formed 4-element coordinate list (`if not coords or
len(coords) != 4: continue`) and the element's center must lie inside it,
boundaries inclusive. -/
def boxContainsCenter (b : Box) (e : TextElement) : Bool :=
  match b.coordinates with
  | some [x0, y0, x1, y1] =>
    decide (x0 ≤ e.center_x) && decide (e.center_x ≤ x1) &&
      decide (y0 ≤ e.center_y) && decide (e.center_y ≤ y1)
  | _ => false

/-- Inner loop of `_assign_text_to_boxes`: scan the boxes in list order and
return the label of the first box containing the element's center (`break`),
or `none` when no box matches. -/
def findBoxLabel : List Box → TextElement → Option String
  | [], _ => none
  | b :: rest, e =>
    if boxContainsCenter b e then some (boxLabel b) else findBoxLabel rest e

/-- One step of the outer loop of `_assign_text_to_boxes`: append the
element to the bucket of its assigned label, or to the unboxed list. -/
def assignStep (boxes : List Box)
    (acc : (String → List TextElement) × List TextElement) (e : TextElement) :
    (String → List TextElement) × List TextElement :=
  match findBoxLabel boxes e with
  | some l => (fun x => if x = l then acc.1 x ++ [e] else acc.1 x, acc.2)
  | none => (acc.1, acc.2 ++ [e])

/-- Embedding of `_assign_text_to_boxes` before the final `_UNBOXED_`
merge: the per-label buckets (empty by initialization) and the unboxed
element list. -/
def assignTextToBoxes (boxes : List Box) (elements : List TextElement) :
    (String → List TextElement) × List TextElement :=
  elements.foldl (assignStep boxes) (fun _ => [], [])

/-- Embedding of the returned `box_assignments` dictionary: when unboxed
elements exist they are stored under the `_UNBOXED_` key (overwriting any
box bucket of that name, as the Python assignment would). -/
def boxAssignments (boxes : List Box) (elements : List TextElement) :
    String → List TextElement :=
  let p := assignTextToBoxes boxes elements
  if p.2 = [] then p.1
  else fun l => if l = "_UNBOXED_" then p.2 else p.1 l

section AssignLemmas

theorem assign_foldl (boxes : List Box) (elements : List TextElement) :
    ∀ acc : (String → List TextElement) × List TextElement,
      (∀ l, (elements.foldl (assignStep boxes) acc).1 l =
        acc.1 l ++ elements.filter
          (fun e => decide (findBoxLabel boxes e = some l))) ∧
      (elements.foldl (assignStep boxes) acc).2 =
        acc.2 ++ elements.filter
          (fun e => decide (findBoxLabel boxes e = none)) := by
  induction elements with
  | nil => intro acc; simp
  | cons e es ih =>
    intro acc
    rw [List.foldl_cons]
    constructor
    · intro l
      rw [(ih (assignStep boxes acc e)).1 l]
      unfold assignStep
      cases hfb : findBoxLabel boxes e with
      | none => simp [hfb]
      | some l2 =>
        by_cases hl : l = l2
        · subst hl
          simp [hfb]
        · have : ¬ (some l2 = some l) := by
            intro hcon
            exact hl (Option.some.inj hcon).symm
          simp [hfb, hl, this]
    · rw [(ih (assignStep boxes acc e)).2]
      unfold assignStep
      cases hfb : findBoxLabel boxes e with
      | none => simp [hfb]
      | some l2 => simp [hfb]

theorem mem_bucket_iff (boxes : List Box) (elements : List TextElement)
    (e : TextElement) (l : String) :
    e ∈ (assignTextToBoxes boxes elements).1 l ↔
      e ∈ elements ∧ findBoxLabel boxes e = some l := by
  unfold assignTextToBoxes
  rw [(assign_foldl boxes elements _).1 l]
  simp [List.mem_filter]

theorem mem_unboxed_iff (boxes : List Box) (elements : List TextElement)
    (e : TextElement) :
    e ∈ (assignTextToBoxes boxes elements).2 ↔
      e ∈ elements ∧ findBoxLabel boxes e = none := by
  unfold assignTextToBoxes
  rw [(assign_foldl boxes elements _).2]
  simp [List.mem_filter]

end AssignLemmas

/-- Concrete zone A = [0,0,10,10] of the claim's example. -/
def zoneA : Box := ⟨some "A", some [0, 0, 10, 10], none, none, []⟩

/-- Concrete zone B = [5,5,15,15] of the claim's example. -/
def zoneB : Box := ⟨some "B", some [5, 5, 15, 15], none, none, []⟩

/-- Concrete token centered at (7,7) of the claim's example. -/
def tok77 : TextElement := ⟨"t", 6, 6, 8, 8, 7, 7⟩

/-- Claim C1.  Zone assignment places each token in the first zone, in
declared order, whose rectangle contains the token's center
(boundary-inclusive); a token lands in at most one bucket (and never both
in a bucket and in the unboxed list); for zones A=[0,0,10,10] and
B=[5,5,15,15] in order A,B, a token centered at (7,7) is assigned to A. -/
theorem C1_zone_assignment :
    (∀ (boxes : List Box) (e : TextElement) (l : String),
      findBoxLabel boxes e = some l ↔
        ∃ pre b post, boxes = pre ++ b :: post ∧
          boxContainsCenter b e = true ∧ l = boxLabel b ∧
          ∀ bp ∈ pre, boxContainsCenter bp e = false) ∧
    (∀ (boxes : List Box) (elements : List TextElement)
        (e : TextElement) (l1 l2 : String),
      e ∈ (assignTextToBoxes boxes elements).1 l1 →
      e ∈ (assignTextToBoxes boxes elements).1 l2 → l1 = l2) ∧
    (∀ (boxes : List Box) (elements : List TextElement)
        (e : TextElement) (l : String),
      e ∈ (assignTextToBoxes boxes elements).1 l →
      e ∉ (assignTextToBoxes boxes elements).2) ∧
    findBoxLabel [zoneA, zoneB] tok77 = some "A" := by
  refine ⟨?_, ?_, ?_, by decide⟩
  · intro boxes e l
    induction boxes with
    | nil =>
      simp only [findBoxLabel]
      constructor
      · intro h; exact absurd h (by simp)
      · rintro ⟨pre, b, post, habs, -⟩
        exact absurd habs (by simp)
    | cons b rest ih =>
      simp only [findBoxLabel]
      by_cases hb : boxContainsCenter b e
      · rw [if_pos hb]
        constructor
        · intro h
          refine ⟨[], b, rest, by simp, hb, (Option.some.inj h).symm, by simp⟩
        · rintro ⟨pre, b2, post, hsplit, hc2, hl2, hpre⟩
          cases pre with
          | nil =>
            simp at hsplit
            rw [hl2, hsplit.1]
          | cons p ps =>
            simp at hsplit
            have hfalse := hpre p (by simp)
            rw [hsplit.1] at hb
            simp [hfalse] at hb
      · rw [if_neg hb]
        rw [ih]
        constructor
        · rintro ⟨pre, b2, post, hsplit, hc2, hl2, hpre⟩
          refine ⟨b :: pre, b2, post, by simp [hsplit], hc2, hl2, ?_⟩
          intro bp hbp
          rcases List.mem_cons.mp hbp with h | h
          · subst h
            exact Bool.not_eq_true _ ▸ (by simpa using hb)
          · exact hpre bp h
        · rintro ⟨pre, b2, post, hsplit, hc2, hl2, hpre⟩
          cases pre with
          | nil =>
            simp at hsplit
            rw [← hsplit.1] at hc2
            exact absurd hc2 (by simpa using hb)
          | cons p ps =>
            simp at hsplit
            exact ⟨ps, b2, post, hsplit.2, hc2, hl2,
              fun bp hbp => hpre bp (List.mem_cons_of_mem _ hbp)⟩
  · intro boxes elements e l1 l2 h1 h2
    have m1 := (mem_bucket_iff boxes elements e l1).mp h1
    have m2 := (mem_bucket_iff boxes elements e l2).mp h2
    have := m1.2.symm.trans m2.2
    exact Option.some.inj this
  · intro boxes elements e l h1 h2
    have m1 := (mem_bucket_iff boxes elements e l).mp h1
    have m2 := (mem_unboxed_iff boxes elements e).mp h2
    rw [m1.2] at m2
    exact absurd m2.2 (by simp)

/-- Witness for C1: instantiating the first-match characterization at the
concrete A/B zones of the claim recovers the assignment of the (7,7) token
to zone A. -/
theorem C1_zone_assignment_witness :
    findBoxLabel [zoneA, zoneB] tok77 = some "A" :=
  (C1_zone_assignment.1 [zoneA, zoneB] tok77 "A").mpr
    ⟨[], zoneA, [zoneB], rfl, by decide, by decide, by simp⟩

/-! ## Line grouping and layout extraction -/

/-- A positioned word, modelling the 5-tuples `[x0, y0, x1, y1, text]`
passed around by the extractor. -/
structure Word where
  x0 : ℚ
  y0 : ℚ
  x1 : ℚ
  y1 : ℚ
  text : String
deriving DecidableEq

/-- Conversion used throughout the extractor:
`words.append([element.x0, element.y0, element.x1, element.y1, element.text])`. -/
def toWord (e : TextElement) : Word := ⟨e.x0, e.y0, e.x1, e.y1, e.text⟩

/-- Vertical center of a word, `(y0 + y1) / 2`. -/
def wordCenterY (w : Word) : ℚ := (w.y0 + w.y1) / 2

/-- Accumulating line of `_group_words_into_lines`: running average center
and the member words in insertion order. -/
structure LineAcc where
  center_y : ℚ
  words : List Word

/-- One iteration of `_group_words_into_lines`: place the word in the first
existing line whose (running-average) center is within the 8-unit tolerance
— updating that line's center to the mean of its members' centers — or
append a fresh line. -/
def addWordToLines : List LineAcc → Word → List LineAcc
  | [], w => [⟨wordCenterY w, [w]⟩]
  | ln :: rest, w =>
    if |wordCenterY w - ln.center_y| ≤ 8 then
      let ws := ln.words ++ [w]
      let centers := ws.map wordCenterY
      ⟨centers.sum / centers.length, ws⟩ :: rest
    else ln :: addWordToLines rest w

/-- A finished line: its (final averaged) center and its joined text. -/
structure GroupedLine where
  center_y : ℚ
  text : String
deriving DecidableEq

/-- Text of a line: words sorted by `x0` (stable), joined with single
spaces, stripped. -/
def lineText (ws : List Word) : String :=
  ⟨pyStrip (String.intercalate " "
    ((List.insertionSort (fun u v : Word => u.x0 ≤ v.x0) ws).map
      (fun w => w.text))).data⟩

/-- Embedding of `_group_words_into_lines`: accumulate lines with the
8-unit tolerance, sort lines by center (stable), order words left-to-right
inside each line, join their texts, and drop empty lines. -/
def group_words_into_lines (words : List Word) : List GroupedLine :=
  let lines := List.insertionSort
    (fun a b : LineAcc => a.center_y ≤ b.center_y)
    (words.foldl addWordToLines [])
  (lines.map (fun ln => GroupedLine.mk ln.center_y (lineText ln.words))).filter
    (fun g => g.text ≠ "")

/-- Gap-sensitive flattening shared by `_extract_with_layout_detection`
(threshold 25) and `_extract_paragraph_from_words` (threshold 20): a blank
line is inserted whenever the vertical-center gap to the previous line
exceeds the threshold. -/
def gapLines (thr : ℚ) : Option ℚ → List GroupedLine → List String
  | _, [] => []
  | none, g :: gs => g.text :: gapLines thr (some g.center_y) gs
  | some prev, g :: gs =>
    if g.center_y - prev > thr then
      "" :: g.text :: gapLines thr (some g.center_y) gs
    else g.text :: gapLines thr (some g.center_y) gs

/-- Embedding of `_extract_with_layout_detection` (general boxes, unboxed
blocks): line grouping then paragraph breaks at vertical gaps over 25. -/
def extract_with_layout_detection (words : List Word) : String :=
  if words = [] then ""
  else String.intercalate "\n" (gapLines 25 none (group_words_into_lines words))

/-- Embedding of `_extract_paragraph_from_words` (paragraph boxes):
identical, with paragraph-break threshold 20. -/
def extract_paragraph_from_words (words : List Word) : String :=
  if words = [] then ""
  else String.intercalate "\n" (gapLines 20 none (group_words_into_lines words))

/-! ## Table grid generation (`template_creator._generate_table_cells`) -/

/-- A detected line segment `[c0, c1, c2, c3]` as stored in
`detected_lines`. -/
structure Seg where
  c0 : ℚ
  c1 : ℚ
  c2 : ℚ
  c3 : ℚ
deriving DecidableEq

/-- Detected line segments for a table box. -/
structure DetectedLines where
  horizontal : List Seg
  vertical : List Seg
deriving DecidableEq

/-- Distinct horizontal positions: midpoints `(line[1]+line[3])/2`
collected into a set and sorted ascending. -/
def hPositions (dl : DetectedLines) : List ℚ :=
  List.insertionSort (fun a b : ℚ => a ≤ b)
    ((dl.horizontal.map (fun l => (l.c1 + l.c3) / 2)).dedup)

/-- Distinct x-positions of vertical segments covering a row band
(±5-unit tolerance), sorted ascending. -/
def bandVPositions (dl : DetectedLines) (top bottom : ℚ) : List ℚ :=
  List.insertionSort (fun a b : ℚ => a ≤ b)
    (((dl.vertical.filter (fun l =>
        decide (min l.c1 l.c3 ≤ top + 5) &&
          decide (max l.c1 l.c3 ≥ bottom - 5))).map
      (fun l => (l.c0 + l.c2) / 2)).dedup)

/-- Cells of one row band with at least two vertical positions: one cell
between each consecutive pair. -/
def rowCellsFromVs (top bottom : ℚ) (i cid : ℕ) (vs : List ℚ) :
    List TableCell :=
  (List.zip vs vs.tail).enum.map
    (fun p => ⟨cid + p.1, i, p.1, (p.2.1, top, p.2.2, bottom)⟩)

/-- Row-major generation loop of `_generate_table_cells`: `i` is the band
index, `cid` the next sequential cell id. -/
def genRows (x1 x2 : ℚ) (dl : DetectedLines) :
    List (ℚ × ℚ) → ℕ → ℕ → List TableCell
  | [], _, _ => []
  | (top, bottom) :: rest, i, cid =>
    let vs := bandVPositions dl top bottom
    if vs.length < 2 then
      ⟨cid, i, 0, (x1, top, x2, bottom)⟩ :: genRows x1 x2 dl rest (i + 1) (cid + 1)
    else
      rowCellsFromVs top bottom i cid vs ++
        genRows x1 x2 dl rest (i + 1) (cid + (vs.length - 1))

/-- Embedding of `_generate_table_cells`: if fewer than two distinct
horizontal positions remain the grid is empty, otherwise cells are emitted
row-major between consecutive horizontal positions. -/
def generate_table_cells (boxCoords : ℚ × ℚ × ℚ × ℚ) (dl : DetectedLines) :
    List TableCell :=
  let hs := hPositions dl
  if hs.length < 2 then []
  else genRows boxCoords.1 boxCoords.2.2.1 dl (List.zip hs hs.tail) 0 0

/-! ## Table extraction (`_extract_table_text_from_elements`) -/

/-- Mutable per-cell record of `cell_text_map`. -/
structure CellInfo where
  text : String
  row : ℕ
  col : ℕ
  elements : List TextElement
deriving DecidableEq

/-- Insert-or-replace on an association list, preserving key insertion
order (Python dict assignment). -/
def aupdate : List (ℕ × CellInfo) → ℕ → CellInfo → List (ℕ × CellInfo)
  | [], k, v => [(k, v)]
  | (k2, v2) :: rest, k, v =>
    if k2 = k then (k, v) :: rest else (k2, v2) :: aupdate rest k v

/-- Lookup on the association list (Python dict indexing). -/
def alookup : List (ℕ × CellInfo) → ℕ → Option CellInfo
  | [], _ => none
  | (k2, v2) :: rest, k => if k2 = k then some v2 else alookup rest k

/-- In-place modification of the entry at a key (Python mutation of
`cell_text_map[cid]`); missing keys are left untouched (unreachable in the
source, since every id was initialized). -/
def amodify : List (ℕ × CellInfo) → ℕ → (CellInfo → CellInfo) →
    List (ℕ × CellInfo)
  | [], _, _ => []
  | (k2, v2) :: rest, k, f =>
    if k2 = k then (k2, f v2) :: rest else (k2, v2) :: amodify rest k f

/-- Primary containment test: the element's center inside the cell
rectangle expanded by the 2-unit tolerance, boundaries inclusive. -/
def cellWithin (c : TableCell) (e : TextElement) : Bool :=
  decide (c.coordinates.1 - 2 ≤ e.center_x) &&
    decide (e.center_x ≤ c.coordinates.2.2.1 + 2) &&
    decide (c.coordinates.2.1 - 2 ≤ e.center_y) &&
    decide (e.center_y ≤ c.coordinates.2.2.2 + 2)

/-- Primary pass inner loop: first cell (in `ordered_cells` order) whose
expanded rectangle contains the element's center. -/
def firstCellWithin : List TableCell → TextElement → Option ℕ
  | [], _ => none
  | c :: rest, e =>
    if cellWithin c e then some c.cell_id else firstCellWithin rest e

/-- Squared distance from the element's center to the cell's center.  The
source compares `sqrt` distances; `sqrt` is strictly monotone on
non-negative reals, so comparing squared distances is exact. -/
def dist2 (c : TableCell) (e : TextElement) : ℚ :=
  (e.center_x - (c.coordinates.1 + c.coordinates.2.2.1) / 2) ^ 2 +
    (e.center_y - (c.coordinates.2.1 + c.coordinates.2.2.2) / 2) ^ 2

/-- One step of the fallback minimum search: `min_distance` starts at
infinity (modelled by the `none` state, which any first candidate beats)
and is replaced only on strict improvement, so the first minimizer in cell
order wins. -/
def closestStep (e : TextElement) (acc : Option (ℚ × ℕ)) (c : TableCell) :
    Option (ℚ × ℕ) :=
  match acc with
  | none => some (dist2 c e, c.cell_id)
  | some (m, cid) =>
    if dist2 c e < m then some (dist2 c e, c.cell_id) else some (m, cid)

/-- Fallback pass: id of the cell with minimal (squared) distance to the
element; `none` exactly when there are no cells. -/
def closestCellId (cells : List TableCell) (e : TextElement) : Option ℕ :=
  (cells.foldl (closestStep e) none).map (fun p => p.2)

/-- Overall per-element cell assignment: primary containment pass, then
nearest-cell fallback with no distance cap. -/
def assignedCellId (cells : List TableCell) (e : TextElement) : Option ℕ :=
  match firstCellWithin cells e with
  | some cid => some cid
  | none => closestCellId cells e

/-- Primary assignment phase over all elements: append each contained
element to its first matching cell; collect the others in order. -/
def primaryPhase (oc : List TableCell) (elements : List TextElement)
    (m0 : List (ℕ × CellInfo)) : List (ℕ × CellInfo) × List TextElement :=
  elements.foldl
    (fun acc e =>
      match firstCellWithin oc e with
      | some cid =>
        (amodify acc.1 cid (fun info =>
          { info with elements := info.elements ++ [e] }), acc.2)
      | none => (acc.1, acc.2 ++ [e]))
    (m0, [])

/-- Fallback phase: append every unassigned element to its closest cell
(no distance threshold). -/
def fallbackPhase (oc : List TableCell) (unassigned : List TextElement)
    (m : List (ℕ × CellInfo)) : List (ℕ × CellInfo) :=
  unassigned.foldl
    (fun acc e =>
      match closestCellId oc e with
      | some cid =>
        amodify acc cid (fun info =>
          { info with elements := info.elements ++ [e] })
      | none => acc)
    m

/-- Per-cell text: the cell's element words grouped into lines (8-unit
tolerance, left-to-right inside a line) and joined with newlines. -/
def cellText (elems : List TextElement) : String :=
  String.intercalate "\n"
    ((group_words_into_lines (elems.map toWord)).map (fun g => g.text))

/-- Replace every occurrence of the character `c` by the string `r`. -/
def replaceChar (c : Char) (r : List Char) : List Char → List Char
  | [] => []
  | d :: ds => if d = c then r ++ replaceChar c r ds else d :: replaceChar c r ds

/-- Markdown cell escaping:
`cell_info['text'].replace("\n", " ").replace("|", "\\|").strip()`. -/
def mdEscape (s : String) : String :=
  ⟨pyStrip (replaceChar '|' ['\\', '|'] (replaceChar '\n' [' '] s.data))⟩

/-- Render one markdown row. -/
def mkRow (cells : List String) : String :=
  "| " ++ String.intercalate " | " cells ++ " |"

/-- Render the header separator row. -/
def mkSep (maxCol : ℕ) : String :=
  "| " ++ String.intercalate " | " (List.replicate (maxCol + 1) "---") ++ " |"

/-- Markdown assembly loop over the numerically sorted cell ids, carrying
the emitted lines, the cells of the row being built and the current row
index (initially 0).  A separator row is appended after completing a row
while `current_row == 0` and `max_row > 0`. -/
def mdLoop (m : List (ℕ × CellInfo)) (maxRow maxCol : ℕ) :
    List ℕ → List String → List String → ℕ → List String
  | [], mdLines, rowCells, _ =>
    if rowCells = [] then mdLines else mdLines ++ [mkRow rowCells]
  | cid :: rest, mdLines, rowCells, currentRow =>
    match alookup m cid with
    | none => mdLoop m maxRow maxCol rest mdLines rowCells currentRow
    | some info =>
      let cellTxt := mdEscape info.text
      if info.row > currentRow then
        let mdLines2 :=
          if rowCells = [] then mdLines
          else
            mdLines ++ [mkRow rowCells] ++
              (if currentRow = 0 ∧ maxRow > 0 then [mkSep maxCol] else [])
        mdLoop m maxRow maxCol rest mdLines2 [cellTxt] info.row
      else mdLoop m maxRow maxCol rest mdLines (rowCells ++ [cellTxt]) currentRow

/-- Embedding of `_extract_table_text_from_elements`. -/
def extract_table_text_from_elements (elements : List TextElement)
    (box : Box) : String :=
  let cells := box.table_cells
  if cells = [] then extract_with_layout_detection (elements.map toWord)
  else
    let oc := List.insertionSort
      (fun a b : TableCell => a.cell_id ≤ b.cell_id) cells
    let maxRow := (cells.map (fun c => c.row)).foldl max 0
    let maxCol := (cells.map (fun c => c.col)).foldl max 0
    let m0 := oc.foldl
      (fun m c => aupdate m c.cell_id ⟨"", c.row, c.col, []⟩) []
    let pr := primaryPhase oc elements m0
    let m2 := fallbackPhase oc pr.2 pr.1
    let m3 := m2.map (fun kv =>
      (kv.1,
        if kv.2.elements = [] then kv.2
        else { kv.2 with text := cellText kv.2.elements }))
    if m3 = [] then ""
    else
      String.intercalate "\n"
        (mdLoop m3 maxRow maxCol
          (List.insertionSort (fun a b : ℕ => a ≤ b) (m3.map Prod.fst))
          [] [] 0)

/-! ## Claim C5: insufficient grid data -/

/-- Claim C5.  When fewer than two distinct horizontal positions remain
after deduplication the generated grid is empty; in particular a single
detected horizontal line yields an empty grid; and a table box whose cell
list is empty falls back to the unstructured general-layout extraction. -/
theorem C5_insufficient_grid :
    (∀ (coords : ℚ × ℚ × ℚ × ℚ) (dl : DetectedLines),
      (hPositions dl).length < 2 → generate_table_cells coords dl = []) ∧
    (∀ (coords : ℚ × ℚ × ℚ × ℚ) (h : Seg) (vl : List Seg),
      generate_table_cells coords ⟨[h], vl⟩ = []) ∧
    (∀ (elements : List TextElement) (box : Box), box.table_cells = [] →
      extract_table_text_from_elements elements box =
        extract_with_layout_detection (elements.map toWord)) := by
  refine ⟨fun coords dl hlt => ?_, fun coords h vl => ?_, fun elements box hc => ?_⟩
  · unfold generate_table_cells
    simp [hlt]
  · unfold generate_table_cells
    have hone : (hPositions ⟨[h], vl⟩).length = 1 := by
      unfold hPositions
      simp
    simp [hone]
  · unfold extract_table_text_from_elements
    simp [hc]

/-- Witness for C5: one horizontal segment produces an empty grid, and a
box with no stored cells is extracted with the general-layout logic. -/
theorem C5_insufficient_grid_witness :
    ((hPositions ⟨[⟨0, 5, 20, 5⟩], []⟩).length < 2 ∧
      generate_table_cells (0, 0, 20, 20) ⟨[⟨0, 5, 20, 5⟩], []⟩ = []) ∧
    (zoneA.table_cells = [] ∧
      extract_table_text_from_elements [tok77] zoneA =
        extract_with_layout_detection ([tok77].map toWord)) := by
  constructor
  · constructor
    · decide
    · exact C5_insufficient_grid.1 (0, 0, 20, 20) ⟨[⟨0, 5, 20, 5⟩], []⟩ (by decide)
  · exact ⟨rfl, C5_insufficient_grid.2.2 [tok77] zoneA rfl⟩

/-! ## Claim C2: top-level error handling of `extract_bol_text` -/

/-- Template artifact record (loosely-typed JSON dictionary). -/
structure PageData where
  page_raw_text : String
  boxes : List Box
deriving DecidableEq

/-- Loaded template data; optional entries model `dict.get`. -/
structure TemplateData where
  template_name : Option String
  template_raw_text : Option String
  include_unboxed_content : Option Bool
  pages : Option (List (String × PageData))
  boxes : Option (List Box)
deriving DecidableEq

/-- Embedding of the `TemplateMatch` dataclass. -/
structure TemplateMatch where
  template_name : String
  confidence : ℚ
  template_data : TemplateData

/-- Numeric rendering of the confidence in the failure message; the
Python `f"{x:.2f}"` formatting is abstracted by `toString`, which no claim
inspects. -/
def formatConf (q : ℚ) : String := toString q

/-- Variable part of the no-template failure string
(`best_match.template_name if best_match else 'None'`, likewise for the
confidence). -/
def noTemplateMsgTail (best : Option TemplateMatch) : String :=
  " No suitable template found (best match: " ++
    (match best with
      | some m => m.template_name
      | none => "None") ++
    " with confidence " ++
    formatConf (match best with
      | some m => m.confidence
      | none => 0) ++ ")"

/-- The descriptive failure string built when no template meets the
threshold. -/
def noTemplateMsg (best : Option TemplateMatch) : String :=
  "ERROR:" ++ noTemplateMsgTail best

/-- Threshold test `not best_match or best_match.confidence < threshold`. -/
def belowThreshold (best : Option TemplateMatch) (th : ℚ) : Bool :=
  match best with
  | none => true
  | some m => decide (m.confidence < th)

/-- Embedding of `_extract_with_template`: its whole body runs inside
`try/except`, so any fault of the body (modelled as `Except.error`) is
converted to an `ERROR: Template extraction failed: ...` string. -/
def extractWithTemplate (body : Except String String) : String :=
  match body with
  | .ok s => s
  | .error e => "ERROR:" ++ " Template extraction failed: " ++ e

/-- Embedding of `extract_bol_text`: the template search itself may fault
(`findBest = .error`), in which case the top-level `except` produces
`ERROR: Failed to process BOL: ...`; a missing or below-threshold best
match produces the descriptive no-template message; otherwise the
(internally fault-catching) template extraction runs. -/
def extract_bol_text (findBest : Except String (Option TemplateMatch))
    (threshold : ℚ) (body : Except String String) : String :=
  match findBest with
  | .error e => "ERROR:" ++ " Failed to process BOL: " ++ e
  | .ok best =>
    if belowThreshold best threshold then noTemplateMsg best
    else extractWithTemplate body

/-- Batch processing: each document is processed independently by
`extract_bol_text`. -/
def processBatch
    (inputs : List (Except String (Option TemplateMatch) × ℚ ×
      Except String String)) : List String :=
  inputs.map (fun t => extract_bol_text t.1 t.2.1 t.2.2)

/-- Claim C2.  `extract_bol_text` always returns a string: every result is
either an `ERROR:`-prefixed failure description or the successful
extraction text; a best confidence below the threshold yields the
descriptive failure string and performs no extraction (the result does not
depend on the extraction body); faults anywhere are converted to `ERROR:`
strings; and batch processing maps documents independently, so one
document's failure never aborts the others. -/
theorem C2_extract_bol_text_errors :
    (∀ (fb : Except String (Option TemplateMatch)) (th : ℚ)
        (b : Except String String),
      (∃ t, extract_bol_text fb th b = "ERROR:" ++ t) ∨
        (∃ best s, fb = .ok best ∧ b = .ok s ∧
          belowThreshold best th = false ∧ extract_bol_text fb th b = s)) ∧
    (∀ (best : Option TemplateMatch) (th : ℚ) (b1 b2 : Except String String),
      belowThreshold best th = true →
        extract_bol_text (.ok best) th b1 = noTemplateMsg best ∧
        extract_bol_text (.ok best) th b1 = extract_bol_text (.ok best) th b2 ∧
        (∃ t, noTemplateMsg best = "ERROR:" ++ t)) ∧
    (∀ (best : Option TemplateMatch) (th : ℚ) (e : String),
      belowThreshold best th = false →
        extract_bol_text (.ok best) th (.error e) =
          "ERROR:" ++ " Template extraction failed: " ++ e) ∧
    (∀ (e : String) (th : ℚ) (b : Except String String),
      extract_bol_text (.error e) th b =
        "ERROR:" ++ " Failed to process BOL: " ++ e) ∧
    (∀ inputs, (processBatch inputs).length = inputs.length ∧
      ∀ (i : ℕ), (processBatch inputs)[i]? =
        (inputs[i]?).map (fun t => extract_bol_text t.1 t.2.1 t.2.2)) := by
  refine ⟨?_, ?_, ?_, ?_, ?_⟩
  · intro fb th b
    match fb with
    | .error e =>
      refine Or.inl ⟨" Failed to process BOL: " ++ e, ?_⟩
      show ("ERROR:" ++ " Failed to process BOL: ") ++ e = _
      rw [String.append_assoc]
    | .ok best =>
      cases hlow : belowThreshold best th with
      | true =>
        refine Or.inl ⟨noTemplateMsgTail best, ?_⟩
        simp [extract_bol_text, hlow, noTemplateMsg]
      | false =>
        match b with
        | .ok s =>
          exact Or.inr ⟨best, s, rfl, rfl, hlow, by
            simp [extract_bol_text, hlow, extractWithTemplate]⟩
        | .error e =>
          refine Or.inl ⟨" Template extraction failed: " ++ e, ?_⟩
          have : extract_bol_text (.ok best) th (.error e) =
              ("ERROR:" ++ " Template extraction failed: ") ++ e := by
            simp [extract_bol_text, hlow, extractWithTemplate]
          rw [this, String.append_assoc]
  · intro best th b1 b2 hlow
    exact ⟨by simp [extract_bol_text, hlow],
      by simp [extract_bol_text, hlow],
      ⟨noTemplateMsgTail best, rfl⟩⟩
  · intro best th e hlow
    simp [extract_bol_text, hlow, extractWithTemplate]
  · intro e th b
    simp [extract_bol_text]
  · intro inputs
    refine ⟨by simp [processBatch], fun i => ?_⟩
    simp [processBatch]

/-! ## Text post-processing pipeline (`_post_process_text`)

Each Python `re.sub` pass is embedded as a character scanner with the same
leftmost, non-overlapping, greedy-with-backtracking semantics as the
concrete pattern; word boundaries are tracked through the previous
original character. -/

/-- The `[A-Za-z]` class. -/
def isLetter (c : Char) : Bool := c.isAlpha

/-- Word boundary before the current position (`\b` with a word character
on the right): the previous character must be absent or a non-word
character. -/
def boundaryBefore : Option Char → Bool
  | none => true
  | some p => !isWordChar p

/-- Word boundary after a match ending in a word character: the next
character must be absent or a non-word character. -/
def boundaryAfter : List Char → Bool
  | [] => true
  | d :: _ => !isWordChar d

/-- Greedy parsing of the `(?:\s+[A-Za-z])*` tail of the spaced-word
pattern: each iteration consumes a whitespace run and a single letter.
Returns the consumed chunks and the remainder; the fuel is an upper bound
on the number of iterations (each consumes at least one character). -/
def takeExtras : ℕ → List Char → List (List Char) × List Char
  | 0, t => ([], t)
  | fuel + 1, t =>
    let p := t.span isSpaceChar
    if p.1 = [] then ([], t)
    else
      match p.2 with
      | d :: u2 =>
        if isLetter d then
          let q := takeExtras fuel u2
          ((p.1 ++ [d]) :: q.1, q.2)
        else ([], t)
      | [] => ([], t)

/-- Match of `\b([A-Za-z])\s+([A-Za-z])\s+([A-Za-z]+(?:\s+[A-Za-z])*)\b`
at the current position: single letter, whitespace, single letter,
whitespace, a letter run, then greedily as many whitespace-plus-letter
groups as possible; if the trailing word boundary fails after the last
group, exactly one group is dropped (its predecessor always ends before
whitespace), and with no groups a failing boundary kills the match
(shortening the letter run only produces letter-letter non-boundaries).
Returns the consumed text and the remainder. -/
def matchSpacedAt (prev : Option Char) (l : List Char) :
    Option (List Char × List Char) :=
  if boundaryBefore prev then
    match l with
    | c1 :: t1 =>
      if isLetter c1 then
        let s1 := t1.span isSpaceChar
        if s1.1 = [] then none
        else
          match s1.2 with
          | c2 :: t3 =>
            if isLetter c2 then
              let s2 := t3.span isSpaceChar
              if s2.1 = [] then none
              else
                let s3 := s2.2.span isLetter
                if s3.1 = [] then none
                else
                  let ex := takeExtras s3.2.length s3.2
                  match ex.1 with
                  | [] =>
                    if boundaryAfter s3.2 then
                      some (c1 :: s1.1 ++ c2 :: s2.1 ++ s3.1, s3.2)
                    else none
                  | chunks =>
                    if boundaryAfter ex.2 then
                      some (c1 :: s1.1 ++ c2 :: s2.1 ++ s3.1 ++ chunks.flatten,
                        ex.2)
                    else
                      match chunks.getLast? with
                      | some lc =>
                        some (c1 :: s1.1 ++ c2 :: s2.1 ++ s3.1 ++
                          chunks.dropLast.flatten, lc ++ ex.2)
                      | none => none
            else none
          | [] => none
      else none
    | [] => none
  else none

/-- Scanner of `_fix_spaced_words`: at each position try the pattern; on a
match emit the match with all whitespace removed (`re.sub(r'\s+', '', g0)`)
and resume after it (the boundary context is the last original character
of the match); otherwise copy one character. -/
def fixSpacedGo : ℕ → Option Char → List Char → List Char
  | 0, _, l => l
  | fuel + 1, prev, l =>
    match l with
    | [] => []
    | c :: cs =>
      match matchSpacedAt prev (c :: cs) with
      | some (matched, rest) =>
        matched.filter (fun d => !isSpaceChar d) ++
          fixSpacedGo fuel matched.getLast? rest
      | none => c :: fixSpacedGo fuel (some c) cs

/-- Embedding of `_fix_spaced_words` (the fuel bounds the number of
one-character steps and is sufficient since every step consumes at least
one character). -/
def fix_spaced_words (l : List Char) : List Char := fixSpacedGo l.length none l

/-- Does the spaced-word pattern match anywhere in `l` (given the previous
character)?  `fix_spaced_words` changes nothing iff this is false. -/
def hasSpacedMatch : Option Char → List Char → Bool
  | _, [] => false
  | prev, c :: cs =>
    (matchSpacedAt prev (c :: cs)).isSome || hasSpacedMatch (some c) cs

/-- Embedding of `re.sub(r' {2,}', ' ', text)`: every maximal run of
spaces becomes a single space (length-1 runs are unchanged by both). -/
def collapseSpacesGo : Bool → List Char → List Char
  | _, [] => []
  | inRun, c :: cs =>
    if c = ' ' then
      if inRun then collapseSpacesGo true cs
      else ' ' :: collapseSpacesGo true cs
    else c :: collapseSpacesGo false cs

/-- Embedding of `re.sub(r'\n{3,}', '\n\n', text)`: emit at most two
newlines per maximal newline run (`n` counts the newlines of the current
run seen so far). -/
def collapseNlGo : ℕ → List Char → List Char
  | _, [] => []
  | n, c :: cs =>
    if c = '\n' then
      if n ≥ 2 then collapseNlGo (n + 1) cs
      else '\n' :: collapseNlGo (n + 1) cs
    else c :: collapseNlGo 0 cs

/-- Reverse-direction scanner for `re.sub(r' +\n', '\n', text)`: on the
reversed text, drop the spaces directly following a newline. -/
def dropSpacesAfterNlRev : Bool → List Char → List Char
  | _, [] => []
  | afterNl, c :: cs =>
    if c = '\n' then '\n' :: dropSpacesAfterNlRev true cs
    else if afterNl && c = ' ' then dropSpacesAfterNlRev true cs
    else c :: dropSpacesAfterNlRev false cs

/-- Embedding of `_normalize_whitespace`: collapse space runs, cap newline
runs at two, strip trailing spaces before newlines, strip the ends. -/
def normalize_whitespace (l : List Char) : List Char :=
  pyStrip ((dropSpacesAfterNlRev false
    (collapseNlGo 0 (collapseSpacesGo false l)).reverse).reverse)

/-- The `[,;:]` class of the punctuation-spacing pass. -/
def isPunct1 (c : Char) : Bool := c = ',' || c = ';' || c = ':'

/-- The `[,;:.]` class of the space-before-punctuation pass. -/
def isPunct2 (c : Char) : Bool := c = ',' || c = ';' || c = ':' || c = '.'

/-- Embedding of `re.sub(r'([,;:])([A-Za-z])', r'\1 \2', text)`: insert a
space between such a punctuation mark and a directly following letter. -/
def fixPunct1 : List Char → List Char
  | [] => []
  | c :: cs =>
    if isPunct1 c then
      match cs with
      | d :: _ =>
        if isLetter d then c :: ' ' :: fixPunct1 cs else c :: fixPunct1 cs
      | [] => [c]
    else c :: fixPunct1 cs

/-- Reverse-direction scanner for `re.sub(r'\s+([,;:.])', r'\1', text)`:
on the reversed text, drop the whitespace directly following one of
`, ; : .`. -/
def dropWsAfterPunctRev : Bool → List Char → List Char
  | _, [] => []
  | afterP, c :: cs =>
    if isPunct2 c then c :: dropWsAfterPunctRev true cs
    else if afterP && isSpaceChar c then dropWsAfterPunctRev true cs
    else c :: dropWsAfterPunctRev false cs

/-- Embedding of `_fix_punctuation`. -/
def fix_punctuation (l : List Char) : List Char :=
  (dropWsAfterPunctRev false (fixPunct1 l).reverse).reverse

/-- Embedding of `re.sub(r'\b0(?=[A-Za-z])', 'O', text)`. -/
def ocr1 : Option Char → List Char → List Char
  | _, [] => []
  | prev, c :: cs =>
    if c = '0' && boundaryBefore prev &&
        (match cs with | d :: _ => isLetter d | [] => false) then
      'O' :: ocr1 (some '0') cs
    else c :: ocr1 (some c) cs

/-- Embedding of `re.sub(r'(?<=[A-Za-z])0\b', 'O', text)`. -/
def ocr2 : Option Char → List Char → List Char
  | _, [] => []
  | prev, c :: cs =>
    if c = '0' && (match prev with | some p => isLetter p | none => false) &&
        boundaryAfter cs then
      'O' :: ocr2 (some '0') cs
    else c :: ocr2 (some c) cs

/-- Embedding of `re.sub(r'\bl(?=[0-9])', '1', text)`. -/
def ocr3 : Option Char → List Char → List Char
  | _, [] => []
  | prev, c :: cs =>
    if c = 'l' && boundaryBefore prev &&
        (match cs with | d :: _ => d.isDigit | [] => false) then
      '1' :: ocr3 (some 'l') cs
    else c :: ocr3 (some c) cs

/-- Embedding of `re.sub(r'\brn\b', 'm', text)`. -/
def ocr4 : Option Char → List Char → List Char
  | _, [] => []
  | _, [c] => [c]
  | prev, c :: d :: rest =>
    if c = 'r' && d = 'n' && boundaryBefore prev && boundaryAfter rest then
      'm' :: ocr4 (some 'n') rest
    else c :: ocr4 (some c) (d :: rest)

/-- Embedding of `re.sub(r'\bvv\b', 'w', text)`. -/
def ocr5 : Option Char → List Char → List Char
  | _, [] => []
  | _, [c] => [c]
  | prev, c :: d :: rest =>
    if c = 'v' && d = 'v' && boundaryBefore prev && boundaryAfter rest then
      'w' :: ocr5 (some 'v') rest
    else c :: ocr5 (some c) (d :: rest)

/-- Embedding of `re.sub(r'(?<=[a-z])I(?=[a-z])', 'l', text)`. -/
def ocr6 : Option Char → List Char → List Char
  | _, [] => []
  | prev, c :: cs =>
    if c = 'I' && (match prev with | some p => p.isLower | none => false) &&
        (match cs with | d :: _ => d.isLower | [] => false) then
      'l' :: ocr6 (some 'I') cs
    else c :: ocr6 (some c) cs

/-- Embedding of `_fix_ocr_errors`: the six substitutions applied in the
source's dictionary (insertion) order. -/
def fix_ocr_errors (l : List Char) : List Char :=
  ocr6 none (ocr5 none (ocr4 none (ocr3 none (ocr2 none (ocr1 none l)))))

/-- Embedding of `_post_process_text`: spaced-letter collapse, whitespace
normalization, punctuation spacing, OCR corrections, in source order. -/
def post_process_text (l : List Char) : List Char :=
  if l = [] then l
  else fix_ocr_errors (fix_punctuation (normalize_whitespace
    (fix_spaced_words l)))

/-- String-level wrapper for `_post_process_text`. -/
def postProcessS (s : String) : String := ⟨post_process_text s.data⟩

/-- String-level wrapper for `_fix_spaced_words`. -/
def fixSpacedWordsS (s : String) : String := ⟨fix_spaced_words s.data⟩

theorem fixSpacedGo_no_match (l : List Char) :
    ∀ (prev : Option Char), hasSpacedMatch prev l = false →
      ∀ fuel, fixSpacedGo fuel prev l = l := by
  induction l with
  | nil =>
    intro prev _ fuel
    cases fuel <;> rfl
  | cons c cs ih =>
    intro prev h fuel
    cases fuel with
    | zero => rfl
    | succ fuel =>
      unfold hasSpacedMatch at h
      rw [Bool.or_eq_false_iff] at h
      simp only [fixSpacedGo]
      cases hm : matchSpacedAt prev (c :: cs) with
      | some p =>
        rw [hm] at h
        simp at h
      | none =>
        show c :: fixSpacedGo fuel (some c) cs = c :: cs
        rw [ih (some c) h.2 fuel]

/-- Claim C9 (amended).  The spaced-letter pass collapses exactly the
matches of the source pattern
`\b([A-Za-z])\s+([A-Za-z])\s+([A-Za-z]+(?:\s+[A-Za-z])*)\b` — two single
letters and then a letter *word* (not necessarily single) separated by
arbitrary whitespace runs, optionally followed by further single letters —
so `'B O L'` becomes `'BOL'`, but also `'A B CD'` becomes `'ABCD'`; text
in which the pattern does not occur is left unchanged. -/
theorem C9_fix_spaced_words :
    fixSpacedWordsS "B O L" = "BOL" ∧
    fixSpacedWordsS "A B CD" = "ABCD" ∧
    (∀ (l : List Char) (prev : Option Char), hasSpacedMatch prev l = false →
      ∀ fuel, fixSpacedGo fuel prev l = l) ∧
    (∀ l : List Char, hasSpacedMatch none l = false →
      fix_spaced_words l = l) := by
  refine ⟨by decide, by decide, fun l prev h fuel => fixSpacedGo_no_match l prev h fuel, ?_⟩
  intro l h
  exact fixSpacedGo_no_match l none h l.length

/-- Witness for C9: `"AB CD"` contains no occurrence of the pattern and is
left unchanged by the pass. -/
theorem C9_fix_spaced_words_witness :
    hasSpacedMatch none ("AB CD".data) = false ∧
      fix_spaced_words ("AB CD".data) = "AB CD".data :=
  ⟨by decide, C9_fix_spaced_words.2.2.2 ("AB CD".data) (by decide)⟩

/-- Counterexample to C9 as stated: `'A B CD'` contains no run of three or
more single letters (only `A` and `B` are single letters, `CD` is a
two-letter word), so by the claim it should be left unchanged; the pass
collapses it to `'ABCD'` because the third group of the source pattern is
`[A-Za-z]+`, a whole word. -/
theorem C9_counterexample :
    fixSpacedWordsS "A B CD" = "ABCD" ∧ "ABCD" ≠ "A B CD" := by
  constructor
  · decide
  · decide

/-- Claim C8 (amended).  The post-processing pipeline is *not* idempotent:
removing trailing spaces before newlines (step 2c) can create a run of
three or more newlines that only the *next* application's newline-capping
(step 2b, which runs earlier in the pass) collapses, so a second
application can change the output further. -/
theorem C8_not_idempotent :
    postProcessS "x \n\n \n\nx" = "x\n\n\n\nx" ∧
    postProcessS "x\n\n\n\nx" = "x\n\nx" ∧
    postProcessS (postProcessS "x \n\n \n\nx") ≠ postProcessS "x \n\n \n\nx" := by
  refine ⟨by decide, by decide, ?_⟩
  decide

/-- Counterexample to C8 as stated: applying the pipeline a second time to
its own output of `"a \n\n \n\na"` produces a further change (the first
application leaves four consecutive newlines, the second collapses them to
two). -/
theorem C8_counterexample :
    postProcessS (postProcessS "a \n\n \n\na") ≠ postProcessS "a \n\n \n\na" := by
  decide

/-! ## Association-list and phase lemmas for the table-cell assignment -/

section TableAssignLemmas

theorem alookup_aupdate (m : List (ℕ × CellInfo)) (k : ℕ) (v : CellInfo)
    (k' : ℕ) :
    alookup (aupdate m k v) k' = if k' = k then some v else alookup m k' := by
  induction m with
  | nil =>
    by_cases h : k' = k
    · subst h; simp [aupdate, alookup]
    · simp [aupdate, alookup, h, show ¬ k = k' from fun hc => h hc.symm]
  | cons kv rest ih =>
    obtain ⟨k2, v2⟩ := kv
    by_cases h2 : k2 = k
    · subst h2
      by_cases h : k' = k2
      · subst h; simp [aupdate, alookup]
      · simp [aupdate, alookup, h, show ¬ k2 = k' from fun hc => h hc.symm]
    · by_cases h : k' = k2
      · subst h
        simp [aupdate, alookup, h2]
      · simp [aupdate, alookup, h2, h,
          show ¬ k2 = k' from fun hc => h hc.symm, ih]

theorem alookup_amodify (m : List (ℕ × CellInfo)) (k : ℕ) (f : CellInfo → CellInfo)
    (k' : ℕ) :
    alookup (amodify m k f) k' =
      if k' = k then (alookup m k).map f else alookup m k' := by
  induction m with
  | nil =>
    by_cases h : k' = k
    · subst h; simp [amodify, alookup]
    · simp [amodify, alookup, h]
  | cons kv rest ih =>
    obtain ⟨k2, v2⟩ := kv
    by_cases h2 : k2 = k
    · subst h2
      by_cases h : k' = k2
      · subst h; simp [amodify, alookup]
      · simp [amodify, alookup, h, show ¬ k2 = k' from fun hc => h hc.symm]
    · by_cases h : k' = k2
      · subst h
        simp [amodify, alookup, h2,
          show ¬ k' = k from fun hc => h2 (hc ▸ rfl)]
      · simp [amodify, alookup, h2, h,
          show ¬ k2 = k' from fun hc => h hc.symm, ih]

/-- The initialization fold of `cell_text_map`. -/
def initFold (oc : List TableCell) (m : List (ℕ × CellInfo)) :
    List (ℕ × CellInfo) :=
  oc.foldl (fun m c => aupdate m c.cell_id ⟨"", c.row, c.col, []⟩) m

theorem initFold_frame (oc : List TableCell) :
    ∀ (m : List (ℕ × CellInfo)) (cid : ℕ),
      cid ∉ oc.map (fun c => c.cell_id) →
      alookup (initFold oc m) cid = alookup m cid := by
  induction oc with
  | nil => intro m cid _; rfl
  | cons c rest ih =>
    intro m cid hnm
    simp only [List.map_cons, List.mem_cons] at hnm
    push_neg at hnm
    unfold initFold at ih ⊢
    rw [List.foldl_cons, ih _ cid hnm.2, alookup_aupdate, if_neg hnm.1]

theorem initFold_cons (c : TableCell) (oc : List TableCell)
    (m : List (ℕ × CellInfo)) :
    initFold (c :: oc) m =
      initFold oc (aupdate m c.cell_id ⟨"", c.row, c.col, []⟩) := rfl

theorem alookup_initFold (oc : List TableCell)
    (hnd : (oc.map (fun c => c.cell_id)).Nodup) :
    ∀ (m : List (ℕ × CellInfo)) (c : TableCell), c ∈ oc →
      alookup (initFold oc m) c.cell_id = some ⟨"", c.row, c.col, []⟩ := by
  induction oc with
  | nil => intro m c hc; simp at hc
  | cons c0 rest ih =>
    intro m c hc
    simp only [List.map_cons, List.nodup_cons] at hnd
    rw [initFold_cons]
    rcases List.mem_cons.mp hc with h | h
    · subst h
      have hni : c.cell_id ∉ rest.map (fun x => x.cell_id) := hnd.1
      rw [initFold_frame rest _ _ hni, alookup_aupdate, if_pos rfl]
    · exact ih hnd.2 _ c h

theorem initFold_lookup_mem (oc : List TableCell) :
    ∀ (m : List (ℕ × CellInfo)) (cid : ℕ),
      cid ∉ oc.map (fun c => c.cell_id) → alookup m cid = none →
      alookup (initFold oc m) cid = none := by
  intro m cid hnm hm
  rw [initFold_frame oc m cid hnm]
  exact hm

/-- One step of the primary assignment phase. -/
def primaryStep (oc : List TableCell)
    (acc : List (ℕ × CellInfo) × List TextElement) (e : TextElement) :
    List (ℕ × CellInfo) × List TextElement :=
  match firstCellWithin oc e with
  | some cid =>
    (amodify acc.1 cid (fun info =>
      { info with elements := info.elements ++ [e] }), acc.2)
  | none => (acc.1, acc.2 ++ [e])

theorem primaryPhase_eq_foldl (oc : List TableCell)
    (elements : List TextElement) (m : List (ℕ × CellInfo)) :
    primaryPhase oc elements m = elements.foldl (primaryStep oc) (m, []) := by
  rfl

theorem primary_foldl_fst (oc : List TableCell) (elements : List TextElement) :
    ∀ (m : List (ℕ × CellInfo)) (u : List TextElement) (cid : ℕ),
      alookup (elements.foldl (primaryStep oc) (m, u)).1 cid =
        (alookup m cid).map (fun info =>
          { info with elements := info.elements ++
              elements.filter (fun e =>
                decide (firstCellWithin oc e = some cid)) }) := by
  induction elements with
  | nil =>
    intro m u cid
    cases h : alookup m cid <;> simp [h]
  | cons e es ih =>
    intro m u cid
    rw [List.foldl_cons]
    cases hfc : firstCellWithin oc e with
    | some cid2 =>
      have hstep : primaryStep oc (m, u) e =
          (amodify m cid2
            (fun info => { info with elements := info.elements ++ [e] }), u) := by
        unfold primaryStep
        rw [hfc]
      rw [hstep, ih, alookup_amodify]
      by_cases hc : cid = cid2
      · subst hc
        rw [if_pos rfl, Option.map_map]
        cases hl : alookup m cid with
        | none => simp
        | some info =>
          simp [Function.comp, List.filter_cons, hfc, List.append_assoc]
      · rw [if_neg hc]
        congr 1
        funext info
        have hne : (decide (firstCellWithin oc e = some cid)) = false := by
          rw [hfc]
          simp only [decide_eq_false_iff_not]
          intro hcon
          exact hc (Option.some.inj hcon).symm
        simp [List.filter_cons, hne]
    | none =>
      have hstep : primaryStep oc (m, u) e = (m, u ++ [e]) := by
        unfold primaryStep
        rw [hfc]
      rw [hstep, ih]
      congr 1
      funext info
      simp [List.filter_cons, hfc]

theorem primary_foldl_snd (oc : List TableCell) (elements : List TextElement) :
    ∀ (m : List (ℕ × CellInfo)) (u : List TextElement),
      (elements.foldl (primaryStep oc) (m, u)).2 =
        u ++ elements.filter (fun e => (firstCellWithin oc e).isNone) := by
  induction elements with
  | nil => intro m u; simp
  | cons e es ih =>
    intro m u
    rw [List.foldl_cons]
    cases hfc : firstCellWithin oc e with
    | some cid2 =>
      have hstep : primaryStep oc (m, u) e =
          (amodify m cid2
            (fun info => { info with elements := info.elements ++ [e] }), u) := by
        unfold primaryStep
        rw [hfc]
      rw [hstep, ih]
      simp [List.filter_cons, hfc]
    | none =>
      have hstep : primaryStep oc (m, u) e = (m, u ++ [e]) := by
        unfold primaryStep
        rw [hfc]
      rw [hstep, ih]
      simp [List.filter_cons, hfc]

/-- One step of the fallback phase. -/
def fallbackStep (oc : List TableCell) (acc : List (ℕ × CellInfo))
    (e : TextElement) : List (ℕ × CellInfo) :=
  match closestCellId oc e with
  | some cid =>
    amodify acc cid (fun info => { info with elements := info.elements ++ [e] })
  | none => acc

theorem fallbackPhase_eq_foldl (oc : List TableCell)
    (un : List TextElement) (m : List (ℕ × CellInfo)) :
    fallbackPhase oc un m = un.foldl (fallbackStep oc) m := by
  rfl

theorem fallback_foldl (oc : List TableCell) (un : List TextElement) :
    ∀ (m : List (ℕ × CellInfo)) (cid : ℕ),
      alookup (un.foldl (fallbackStep oc) m) cid =
        (alookup m cid).map (fun info =>
          { info with elements := info.elements ++
              un.filter (fun e => decide (closestCellId oc e = some cid)) }) := by
  induction un with
  | nil =>
    intro m cid
    cases h : alookup m cid <;> simp [h]
  | cons e es ih =>
    intro m cid
    rw [List.foldl_cons]
    cases hfc : closestCellId oc e with
    | some cid2 =>
      have hstep : fallbackStep oc m e =
          amodify m cid2
            (fun info => { info with elements := info.elements ++ [e] }) := by
        unfold fallbackStep
        rw [hfc]
      rw [hstep, ih, alookup_amodify]
      by_cases hc : cid = cid2
      · subst hc
        rw [if_pos rfl, Option.map_map]
        cases hl : alookup m cid with
        | none => simp
        | some info =>
          simp [Function.comp, List.filter_cons, hfc, List.append_assoc]
      · rw [if_neg hc]
        congr 1
        funext info
        have hne : (decide (closestCellId oc e = some cid)) = false := by
          rw [hfc]
          simp only [decide_eq_false_iff_not]
          intro hcon
          exact hc (Option.some.inj hcon).symm
        simp [List.filter_cons, hne]
    | none =>
      have hstep : fallbackStep oc m e = m := by
        unfold fallbackStep
        rw [hfc]
      rw [hstep, ih]
      congr 1
      funext info
      simp [List.filter_cons, hfc]

theorem closestStep_some (e : TextElement) (c : TableCell) (d0 : ℚ) (c0 : ℕ) :
    closestStep e (some (d0, c0)) c =
      if dist2 c e < d0 then some (dist2 c e, c.cell_id) else some (d0, c0) := rfl

theorem closestStep_none (e : TextElement) (c : TableCell) :
    closestStep e none c = some (dist2 c e, c.cell_id) := rfl

theorem closest_foldl_some (e : TextElement) :
    ∀ (cells : List TableCell) (d0 : ℚ) (c0 : ℕ),
      ∃ d1 c1,
        cells.foldl (closestStep e) (some (d0, c0)) = some (d1, c1) ∧
        d1 ≤ d0 ∧ (∀ c ∈ cells, d1 ≤ dist2 c e) ∧
        ((d1 = d0 ∧ c1 = c0) ∨ ∃ c ∈ cells, c1 = c.cell_id ∧ d1 = dist2 c e) := by
  intro cells
  induction cells with
  | nil =>
    intro d0 c0
    exact ⟨d0, c0, rfl, le_refl _, by simp, Or.inl ⟨rfl, rfl⟩⟩
  | cons c cs ih =>
    intro d0 c0
    rw [List.foldl_cons, closestStep_some]
    by_cases hlt : dist2 c e < d0
    · rw [if_pos hlt]
      obtain ⟨d1, c1, heq, hle, hall, hcase⟩ := ih (dist2 c e) c.cell_id
      refine ⟨d1, c1, heq, (lt_of_le_of_lt hle hlt).le, ?_, ?_⟩
      · intro cp hcp
        rcases List.mem_cons.mp hcp with h | h
        · subst h; exact hle
        · exact hall cp h
      · rcases hcase with ⟨hd, hcc⟩ | ⟨cw, hcw, hcc, hdd⟩
        · exact Or.inr ⟨c, List.mem_cons_self _ _, hcc, hd⟩
        · exact Or.inr ⟨cw, List.mem_cons_of_mem _ hcw, hcc, hdd⟩
    · rw [if_neg hlt]
      push_neg at hlt
      obtain ⟨d1, c1, heq, hle, hall, hcase⟩ := ih d0 c0
      refine ⟨d1, c1, heq, hle, ?_, ?_⟩
      · intro cp hcp
        rcases List.mem_cons.mp hcp with h | h
        · subst h; exact le_trans hle hlt
        · exact hall cp h
      · rcases hcase with ⟨hd, hcc⟩ | ⟨cw, hcw, hcc, hdd⟩
        · exact Or.inl ⟨hd, hcc⟩
        · exact Or.inr ⟨cw, List.mem_cons_of_mem _ hcw, hcc, hdd⟩

theorem closestCellId_spec (cells : List TableCell) (e : TextElement)
    (hne : cells ≠ []) :
    ∃ c ∈ cells, closestCellId cells e = some c.cell_id ∧
      ∀ cp ∈ cells, dist2 c e ≤ dist2 cp e := by
  match cells, hne with
  | c :: cs, _ =>
    unfold closestCellId
    rw [List.foldl_cons, closestStep_none]
    obtain ⟨d1, c1, heq, hle, hall, hcase⟩ :=
      closest_foldl_some e cs (dist2 c e) c.cell_id
    rw [heq]
    rcases hcase with ⟨hd, hcc⟩ | ⟨cw, hcw, hcc, hdd⟩
    · refine ⟨c, List.mem_cons_self _ _, by simp [hcc], ?_⟩
      intro cp hcp
      rcases List.mem_cons.mp hcp with h | h
      · subst h; exact le_refl _
      · rw [← hd] at hle ⊢
        exact hall cp h
    · refine ⟨cw, List.mem_cons_of_mem _ hcw, by simp [hcc], ?_⟩
      intro cp hcp
      rw [← hdd]
      rcases List.mem_cons.mp hcp with h | h
      · subst h; exact hle
      · exact hall cp h

theorem closestCellId_mem (cells : List TableCell) (e : TextElement)
    (cid : ℕ) (h : closestCellId cells e = some cid) :
    ∃ c ∈ cells, cid = c.cell_id := by
  match cells with
  | [] => simp [closestCellId] at h
  | c :: cs =>
    unfold closestCellId at h
    rw [List.foldl_cons, closestStep_none] at h
    obtain ⟨d1, c1, heq, _, _, hcase⟩ :=
      closest_foldl_some e cs (dist2 c e) c.cell_id
    rw [heq] at h
    simp at h
    rcases hcase with ⟨_, hcc⟩ | ⟨cw, hcw, hcc, _⟩
    · exact ⟨c, List.mem_cons_self _ _, by rw [← h, hcc]⟩
    · exact ⟨cw, List.mem_cons_of_mem _ hcw, by rw [← h, hcc]⟩

theorem firstCellWithin_iff (cells : List TableCell) (e : TextElement)
    (cid : ℕ) :
    firstCellWithin cells e = some cid ↔
      ∃ pre c post, cells = pre ++ c :: post ∧ cellWithin c e = true ∧
        cid = c.cell_id ∧ ∀ cp ∈ pre, cellWithin cp e = false := by
  induction cells with
  | nil =>
    simp only [firstCellWithin]
    constructor
    · intro h; exact absurd h (by simp)
    · rintro ⟨pre, c, post, habs, -⟩
      exact absurd habs (by simp)
  | cons c rest ih =>
    simp only [firstCellWithin]
    by_cases hb : cellWithin c e
    · rw [if_pos hb]
      constructor
      · intro h
        exact ⟨[], c, rest, by simp, hb, (Option.some.inj h).symm, by simp⟩
      · rintro ⟨pre, c2, post, hsplit, hc2, hl2, hpre⟩
        cases pre with
        | nil =>
          simp at hsplit
          rw [hl2, hsplit.1]
        | cons p ps =>
          simp at hsplit
          have hfalse := hpre p (by simp)
          rw [hsplit.1] at hb
          simp [hfalse] at hb
    · rw [if_neg hb]
      rw [ih]
      constructor
      · rintro ⟨pre, c2, post, hsplit, hc2, hl2, hpre⟩
        refine ⟨c :: pre, c2, post, by simp [hsplit], hc2, hl2, ?_⟩
        intro cp hcp
        rcases List.mem_cons.mp hcp with h | h
        · subst h
          simpa using hb
        · exact hpre cp h
      · rintro ⟨pre, c2, post, hsplit, hc2, hl2, hpre⟩
        cases pre with
        | nil =>
          simp at hsplit
          rw [← hsplit.1] at hc2
          exact absurd hc2 (by simpa using hb)
        | cons p ps =>
          simp at hsplit
          exact ⟨ps, c2, post, hsplit.2, hc2, hl2,
            fun cp hcp => hpre cp (List.mem_cons_of_mem _ hcp)⟩

theorem firstCellWithin_mem (cells : List TableCell) (e : TextElement)
    (cid : ℕ) (h : firstCellWithin cells e = some cid) :
    ∃ c ∈ cells, cid = c.cell_id := by
  obtain ⟨pre, c, post, hsplit, _, hcid, _⟩ :=
    (firstCellWithin_iff cells e cid).mp h
  exact ⟨c, by rw [hsplit]; simp, hcid⟩

theorem initFold_values (oc : List TableCell) :
    ∀ (m : List (ℕ × CellInfo)) (cid : ℕ) (info : CellInfo),
      alookup (initFold oc m) cid = some info →
      info.elements = [] ∨ alookup m cid = some info := by
  induction oc with
  | nil => intro m cid info h; exact Or.inr h
  | cons c rest ih =>
    intro m cid info h
    rw [initFold_cons] at h
    rcases ih _ cid info h with h2 | h2
    · exact Or.inl h2
    · rw [alookup_aupdate] at h2
      by_cases hc : cid = c.cell_id
      · rw [if_pos hc] at h2
        exact Or.inl (by rw [← Option.some.inj h2])
      · rw [if_neg hc] at h2
        exact Or.inr h2

/-- The `ordered_cells` list: the stored cells sorted by `cell_id`. -/
def ocOf (cells : List TableCell) : List TableCell :=
  List.insertionSort (fun a b : TableCell => a.cell_id ≤ b.cell_id) cells

/-- The fully populated `cell_text_map` after initialization, primary pass
and fallback pass (the element-assignment portion of
`_extract_table_text_from_elements`). -/
def tableCellMap (cells : List TableCell) (elements : List TextElement) :
    List (ℕ × CellInfo) :=
  let oc := ocOf cells
  let m0 := initFold oc []
  let pr := primaryPhase oc elements m0
  fallbackPhase oc pr.2 pr.1

/-- Elements captured by the primary pass for a given cell id, in element
order. -/
def primAssigned (oc : List TableCell) (elements : List TextElement)
    (cid : ℕ) : List TextElement :=
  elements.filter (fun e => decide (firstCellWithin oc e = some cid))

/-- Elements captured by the fallback pass for a given cell id, in element
order. -/
def fbAssigned (oc : List TableCell) (elements : List TextElement)
    (cid : ℕ) : List TextElement :=
  (elements.filter (fun e => (firstCellWithin oc e).isNone)).filter
    (fun e => decide (closestCellId oc e = some cid))

theorem alookup_tableCellMap (cells : List TableCell)
    (elements : List TextElement) (cid : ℕ) :
    alookup (tableCellMap cells elements) cid =
      (alookup (initFold (ocOf cells) []) cid).map (fun info =>
        { info with elements :=
            (info.elements ++ primAssigned (ocOf cells) elements cid) ++
              fbAssigned (ocOf cells) elements cid }) := by
  unfold tableCellMap primAssigned fbAssigned
  rw [fallbackPhase_eq_foldl, fallback_foldl]
  rw [primaryPhase_eq_foldl, primary_foldl_fst, primary_foldl_snd]
  rw [Option.map_map]
  cases h : alookup (initFold (ocOf cells) []) cid with
  | none => simp
  | some info => rfl

/-- Claim C6.  In table-cell assignment a token whose center lies within
some cell rectangle expanded by the 2-unit tolerance goes to the first
such cell (in `ordered_cells` order); every token missed by the primary
pass goes to a cell at minimal distance, with no distance cap, so a cell
is always found when at least one cell exists; and (for grids with
distinct cell ids) a token occurs in exactly the bucket of its assigned
cell, hence in at most one cell. -/
theorem C6_table_cell_assignment :
    (∀ (cells : List TableCell) (e : TextElement) (cid : ℕ),
      firstCellWithin cells e = some cid ↔
        ∃ pre c post, cells = pre ++ c :: post ∧ cellWithin c e = true ∧
          cid = c.cell_id ∧ ∀ cp ∈ pre, cellWithin cp e = false) ∧
    (∀ (cells : List TableCell) (e : TextElement), cells ≠ [] →
      ∃ c ∈ cells, closestCellId cells e = some c.cell_id ∧
        ∀ cp ∈ cells, dist2 c e ≤ dist2 cp e) ∧
    (∀ (cells : List TableCell) (e : TextElement), cells ≠ [] →
      ∃ cid, assignedCellId cells e = some cid) ∧
    (∀ (cells : List TableCell) (elements : List TextElement),
      (cells.map (fun c => c.cell_id)).Nodup →
      ∀ (e : TextElement) (cid : ℕ),
        (∃ info, alookup (tableCellMap cells elements) cid = some info ∧
          e ∈ info.elements) ↔
        (e ∈ elements ∧ assignedCellId (ocOf cells) e = some cid)) := by
  refine ⟨firstCellWithin_iff, fun cells e h => closestCellId_spec cells e h,
    ?_, ?_⟩
  · intro cells e hne
    unfold assignedCellId
    cases hfc : firstCellWithin cells e with
    | some cid => exact ⟨cid, rfl⟩
    | none =>
      obtain ⟨c, _, hcc, _⟩ := closestCellId_spec cells e hne
      exact ⟨c.cell_id, hcc⟩
  · intro cells elements hnd e cid
    have hp : List.Perm (ocOf cells) cells :=
      List.perm_insertionSort _ _
    have hocnd : ((ocOf cells).map (fun c => c.cell_id)).Nodup :=
      ((hp.map _).nodup_iff).mpr hnd
    constructor
    · rintro ⟨info, hli, hei⟩
      rw [alookup_tableCellMap] at hli
      cases h0 : alookup (initFold (ocOf cells) []) cid with
      | none => rw [h0] at hli; simp at hli
      | some info0 =>
        rw [h0] at hli
        have hli2 := Option.some.inj hli
        have h0e : info0.elements = [] := by
          rcases initFold_values (ocOf cells) [] cid info0 h0 with h | h
          · exact h
          · simp [alookup] at h
        rw [← hli2] at hei
        simp only [h0e, List.nil_append] at hei
        rcases List.mem_append.mp hei with hmem | hmem
        · have hmf := List.mem_filter.mp hmem
          refine ⟨hmf.1, ?_⟩
          unfold assignedCellId
          have hfc := of_decide_eq_true hmf.2
          rw [hfc]
        · have hin := List.mem_filter.mp hmem
          have hin2 := List.mem_filter.mp hin.1
          refine ⟨hin2.1, ?_⟩
          unfold assignedCellId
          have hnone : firstCellWithin (ocOf cells) e = none :=
            Option.isNone_iff_eq_none.mp hin2.2
          rw [hnone]
          exact of_decide_eq_true hin.2
    · rintro ⟨hel, hass⟩
      have hcid : ∃ c ∈ ocOf cells, cid = c.cell_id := by
        unfold assignedCellId at hass
        cases hfc : firstCellWithin (ocOf cells) e with
        | some cid2 =>
          rw [hfc] at hass
          rw [← Option.some.inj hass]
          exact firstCellWithin_mem _ _ _ hfc
        | none =>
          rw [hfc] at hass
          exact closestCellId_mem _ _ _ hass
      obtain ⟨c, hc, hcideq⟩ := hcid
      have hinit : alookup (initFold (ocOf cells) []) c.cell_id =
          some ⟨"", c.row, c.col, []⟩ :=
        alookup_initFold (ocOf cells) hocnd [] c hc
      rw [alookup_tableCellMap, hcideq, hinit]
      refine ⟨_, rfl, ?_⟩
      show e ∈ ([] ++ primAssigned (ocOf cells) elements c.cell_id) ++
        fbAssigned (ocOf cells) elements c.cell_id
      rw [List.nil_append, ← hcideq]
      unfold primAssigned fbAssigned
      unfold assignedCellId at hass
      cases hfc : firstCellWithin (ocOf cells) e with
      | some cid2 =>
        rw [hfc] at hass
        have hass2 : cid2 = cid := Option.some.inj hass
        apply List.mem_append_left
        refine List.mem_filter.mpr ⟨hel, ?_⟩
        simp [hfc, hass2]
      | none =>
        rw [hfc] at hass
        have hass2 : closestCellId (ocOf cells) e = some cid := hass
        apply List.mem_append_right
        refine List.mem_filter.mpr ⟨?_, by simp [hass2]⟩
        refine List.mem_filter.mpr ⟨hel, ?_⟩
        rw [hfc]
        rfl

/-- Concrete grid for the C6 witness. -/
def wcellA : TableCell := ⟨0, 0, 0, (0, 0, 10, 10)⟩

/-- Second concrete cell for the C6 witness. -/
def wcellB : TableCell := ⟨1, 0, 1, (10, 0, 20, 10)⟩

/-- Concrete token outside both witness cells. -/
def tokOut : TextElement := ⟨"t", 99, 99, 101, 101, 100, 100⟩

/-- Witness for C6: the far-away token is missed by the primary pass and
falls back to the nearest cell, and it occurs in exactly that cell's
bucket of the populated map. -/
theorem C6_table_cell_assignment_witness :
    ([wcellA, wcellB].map (fun c => c.cell_id)).Nodup ∧
    assignedCellId (ocOf [wcellA, wcellB]) tokOut = some 1 ∧
    (∃ info, alookup (tableCellMap [wcellA, wcellB] [tokOut]) 1 = some info ∧
      tokOut ∈ info.elements) := by
  refine ⟨by decide, by decide, ?_⟩
  have hmem : tokOut ∈ [tokOut] := List.mem_singleton.mpr rfl
  exact (C6_table_cell_assignment.2.2.2 [wcellA, wcellB] [tokOut]
    (by decide) tokOut 1).mpr ⟨hmem, by decide⟩

end TableAssignLemmas

/-! ## Markdown rendering of the populated grid (claim C7) -/

section RenderLemmas

/-- Elements ending up in the cell with the given id: primary pass first,
then fallback pass, each in element order. -/
def assignedElems (oc : List TableCell) (elements : List TextElement)
    (cid : ℕ) : List TextElement :=
  primAssigned oc elements cid ++ fbAssigned oc elements cid

/-- Final record of one cell after both passes and the text-rendering
step. -/
def finalInfo (oc : List TableCell) (elements : List TextElement)
    (c : TableCell) : CellInfo :=
  let elems := assignedElems oc elements c.cell_id
  if elems = [] then ⟨"", c.row, c.col, []⟩
  else ⟨cellText elems, c.row, c.col, elems⟩

/-- The populated map after the per-cell text rendering step (the `m3` of
`_extract_table_text_from_elements`). -/
def renderedCellMap (cells : List TableCell) (elements : List TextElement) :
    List (ℕ × CellInfo) :=
  (tableCellMap cells elements).map (fun kv =>
    (kv.1,
      if kv.2.elements = [] then kv.2
      else { kv.2 with text := cellText kv.2.elements }))

/-- The markdown loop specialized to the value sequence it actually visits
(one lookup per sorted key). -/
def mdLoopInfos (maxRow maxCol : ℕ) :
    List CellInfo → List String → List String → ℕ → List String
  | [], mdLines, rowCells, _ =>
    if rowCells = [] then mdLines else mdLines ++ [mkRow rowCells]
  | info :: rest, mdLines, rowCells, currentRow =>
    let cellTxt := mdEscape info.text
    if info.row > currentRow then
      let mdLines2 :=
        if rowCells = [] then mdLines
        else
          mdLines ++ [mkRow rowCells] ++
            (if currentRow = 0 ∧ maxRow > 0 then [mkSep maxCol] else [])
      mdLoopInfos maxRow maxCol rest mdLines2 [cellTxt] info.row
    else mdLoopInfos maxRow maxCol rest mdLines (rowCells ++ [cellTxt]) currentRow

/-- Group a cell sequence into maximal runs of equal row index. -/
def chunkRows : List CellInfo → List (ℕ × List CellInfo)
  | [] => []
  | i :: is =>
    match chunkRows is with
    | [] => [(i.row, [i])]
    | (r, grp) :: rest =>
      if i.row = r then (i.row, i :: grp) :: rest
      else (i.row, [i]) :: (r, grp) :: rest

/-- Escaped cell texts of each row group. -/
def groupsOf (infos : List CellInfo) : List (ℕ × List String) :=
  (chunkRows infos).map (fun rg =>
    (rg.1, rg.2.map (fun i => mdEscape i.text)))

/-- Declarative markdown rendering: one delimiter row per row group, with
the separator row after the first group exactly when the loop would emit
it (another group follows, the first group is row 0, and `max_row` is
positive). -/
def renderRows (mr mc : ℕ) : List (ℕ × List String) → List String
  | [] => []
  | (r0, g0) :: rest =>
    mkRow g0 ::
      ((if rest ≠ [] ∧ r0 = 0 ∧ mr > 0 then [mkSep mc] else []) ++
        rest.map (fun rg => mkRow rg.2))

theorem alookup_eq_none (m : List (ℕ × CellInfo)) (k : ℕ)
    (h : k ∉ m.map Prod.fst) : alookup m k = none := by
  induction m with
  | nil => rfl
  | cons kv rest ih =>
    simp only [List.map_cons, List.mem_cons] at h
    push_neg at h
    simp only [alookup]
    rw [if_neg (by intro hc; exact h.1 hc.symm), ih h.2]

theorem alookup_self (m : List (ℕ × CellInfo))
    (hnd : (m.map Prod.fst).Nodup) :
    ∀ p ∈ m, alookup m p.1 = some p.2 := by
  induction m with
  | nil => intro p hp; simp at hp
  | cons kv rest ih =>
    intro p hp
    simp only [List.map_cons, List.nodup_cons] at hnd
    rcases List.mem_cons.mp hp with h | h
    · subst h
      simp [alookup]
    · have hne : p.1 ≠ kv.1 := by
        intro hc
        exact hnd.1 (hc ▸ List.mem_map_of_mem Prod.fst h)
      simp only [alookup]
      rw [if_neg (fun hc => hne hc.symm)]
      exact ih hnd.2 p h

theorem assoc_ext (m1 : List (ℕ × CellInfo)) :
    ∀ (m2 : List (ℕ × CellInfo)),
      m1.map Prod.fst = m2.map Prod.fst →
      (m1.map Prod.fst).Nodup →
      (∀ k, alookup m1 k = alookup m2 k) → m1 = m2 := by
  induction m1 with
  | nil =>
    intro m2 hk _ _
    cases m2 with
    | nil => rfl
    | cons kv rest => simp at hk
  | cons kv1 r1 ih =>
    intro m2 hk hnd hl
    cases m2 with
    | nil => simp at hk
    | cons kv2 r2 =>
      obtain ⟨k1, v1⟩ := kv1
      obtain ⟨k2, v2⟩ := kv2
      simp only [List.map_cons, List.cons.injEq] at hk
      simp only [List.map_cons, List.nodup_cons] at hnd
      have hkeq : k1 = k2 := hk.1
      subst hkeq
      have hv : v1 = v2 := by
        have := hl k1
        simp [alookup] at this
        exact this
      subst hv
      have htail : r1 = r2 := by
        apply ih r2 hk.2 hnd.2
        intro k
        by_cases hck : k = k1
        · subst hck
          rw [alookup_eq_none r1 k hnd.1,
            alookup_eq_none r2 k (hk.2 ▸ hnd.1)]
        · have := hl k
          simp only [alookup] at this
          rw [if_neg (fun hc => hck hc.symm)] at this
          rw [if_neg (fun hc => hck hc.symm)] at this
          exact this
      rw [htail]

theorem alookup_map_value (m : List (ℕ × CellInfo)) (g : CellInfo → CellInfo)
    (k : ℕ) :
    alookup (m.map (fun kv => (kv.1, g kv.2))) k = (alookup m k).map g := by
  induction m with
  | nil => rfl
  | cons kv rest ih =>
    simp only [List.map_cons, alookup]
    by_cases h : kv.1 = k
    · rw [if_pos h, if_pos h]
      rfl
    · rw [if_neg h, if_neg h, ih]

theorem alookup_ocmap (oc : List TableCell) (f : TableCell → CellInfo)
    (hnd : (oc.map (fun c => c.cell_id)).Nodup) (c : TableCell) (hc : c ∈ oc) :
    alookup (oc.map (fun x => (x.cell_id, f x))) c.cell_id = some (f c) := by
  induction oc with
  | nil => simp at hc
  | cons c0 rest ih =>
    simp only [List.map_cons, List.nodup_cons] at hnd
    rcases List.mem_cons.mp hc with h | h
    · subst h
      simp [alookup]
    · have hne : c.cell_id ≠ c0.cell_id := by
        intro hcon
        exact hnd.1 (hcon ▸ List.mem_map_of_mem _ h)
      simp only [List.map_cons, alookup]
      rw [if_neg (fun hc2 => hne hc2.symm)]
      exact ih hnd.2 h

theorem keys_amodify (m : List (ℕ × CellInfo)) (k : ℕ) (f : CellInfo → CellInfo) :
    (amodify m k f).map Prod.fst = m.map Prod.fst := by
  induction m with
  | nil => rfl
  | cons kv rest ih =>
    simp only [amodify]
    by_cases h : kv.1 = k
    · rw [if_pos h]
      simp
    · rw [if_neg h]
      simp [ih]

theorem keys_primary (oc : List TableCell) (elements : List TextElement) :
    ∀ (m : List (ℕ × CellInfo)) (u : List TextElement),
      ((elements.foldl (primaryStep oc) (m, u)).1).map Prod.fst =
        m.map Prod.fst := by
  induction elements with
  | nil => intro m u; rfl
  | cons e es ih =>
    intro m u
    rw [List.foldl_cons]
    cases hfc : firstCellWithin oc e with
    | some cid =>
      have hstep : primaryStep oc (m, u) e =
          (amodify m cid
            (fun info => { info with elements := info.elements ++ [e] }), u) := by
        unfold primaryStep
        rw [hfc]
      rw [hstep, ih, keys_amodify]
    | none =>
      have hstep : primaryStep oc (m, u) e = (m, u ++ [e]) := by
        unfold primaryStep
        rw [hfc]
      rw [hstep, ih]

theorem keys_fallback (oc : List TableCell) (un : List TextElement) :
    ∀ (m : List (ℕ × CellInfo)),
      (un.foldl (fallbackStep oc) m).map Prod.fst = m.map Prod.fst := by
  induction un with
  | nil => intro m; rfl
  | cons e es ih =>
    intro m
    rw [List.foldl_cons]
    cases hfc : closestCellId oc e with
    | some cid =>
      have hstep : fallbackStep oc m e =
          amodify m cid
            (fun info => { info with elements := info.elements ++ [e] }) := by
        unfold fallbackStep
        rw [hfc]
      rw [hstep, ih, keys_amodify]
    | none =>
      have hstep : fallbackStep oc m e = m := by
        unfold fallbackStep
        rw [hfc]
      rw [hstep, ih]

theorem keys_aupdate_new (m : List (ℕ × CellInfo)) (k : ℕ) (v : CellInfo)
    (h : k ∉ m.map Prod.fst) :
    (aupdate m k v).map Prod.fst = m.map Prod.fst ++ [k] := by
  induction m with
  | nil => rfl
  | cons kv rest ih =>
    simp only [List.map_cons, List.mem_cons] at h
    push_neg at h
    simp only [aupdate]
    rw [if_neg (fun hc => h.1 hc.symm)]
    simp [ih h.2]

theorem keys_initFold (oc : List TableCell)
    (hnd : (oc.map (fun c => c.cell_id)).Nodup) :
    ∀ (m : List (ℕ × CellInfo)),
      (∀ c ∈ oc, c.cell_id ∉ m.map Prod.fst) →
      (initFold oc m).map Prod.fst =
        m.map Prod.fst ++ oc.map (fun c => c.cell_id) := by
  induction oc with
  | nil => intro m _; simp [initFold]
  | cons c rest ih =>
    intro m hdis
    simp only [List.map_cons, List.nodup_cons] at hnd
    rw [initFold_cons]
    rw [ih hnd.2]
    · rw [keys_aupdate_new m c.cell_id _ (hdis c (List.mem_cons_self _ _))]
      simp
    · intro c2 hc2
      rw [keys_aupdate_new m c.cell_id _ (hdis c (List.mem_cons_self _ _))]
      simp only [List.mem_append, List.mem_singleton]
      push_neg
      constructor
      · exact hdis c2 (List.mem_cons_of_mem _ hc2)
      · intro hcon
        exact hnd.1 (hcon ▸ List.mem_map_of_mem _ hc2)

theorem keys_renderedCellMap (cells : List TableCell)
    (elements : List TextElement)
    (hnd : ((ocOf cells).map (fun c => c.cell_id)).Nodup) :
    (renderedCellMap cells elements).map Prod.fst =
      (ocOf cells).map (fun c => c.cell_id) := by
  unfold renderedCellMap tableCellMap
  rw [List.map_map]
  have hcomp : (Prod.fst ∘ fun kv : ℕ × CellInfo =>
      (kv.1, if kv.2.elements = [] then kv.2
        else { kv.2 with text := cellText kv.2.elements })) = Prod.fst := by
    funext kv
    rfl
  rw [hcomp]
  rw [fallbackPhase_eq_foldl, keys_fallback]
  rw [primaryPhase_eq_foldl, keys_primary]
  have := keys_initFold (ocOf cells) hnd [] (by intro c _; simp)
  simpa using this

theorem mdLoop_eq_infos (mr mc : ℕ) (m : List (ℕ × CellInfo)) :
    ∀ (msub : List (ℕ × CellInfo)) (md rc : List String) (cr : ℕ),
      (∀ p ∈ msub, alookup m p.1 = some p.2) →
      mdLoop m mr mc (msub.map Prod.fst) md rc cr =
        mdLoopInfos mr mc (msub.map Prod.snd) md rc cr := by
  intro msub
  induction msub with
  | nil => intro md rc cr _; rfl
  | cons kv rest ih =>
    intro md rc cr hl
    have hlk := hl kv (List.mem_cons_self _ _)
    simp only [List.map_cons, mdLoop, mdLoopInfos, hlk]
    by_cases hr : kv.2.row > cr
    · rw [if_pos hr, if_pos hr]
      exact ih _ _ _ (fun p hp => hl p (List.mem_cons_of_mem _ hp))
    · rw [if_neg hr, if_neg hr]
      exact ih _ _ _ (fun p hp => hl p (List.mem_cons_of_mem _ hp))

theorem chunkRows_cons (is : List CellInfo) :
    ∀ i : CellInfo,
      chunkRows (i :: is) =
        (i.row, i :: is.takeWhile (fun j => j.row == i.row)) ::
          chunkRows (is.dropWhile (fun j => j.row == i.row)) := by
  induction is with
  | nil => intro i; simp [chunkRows]
  | cons j js ih =>
    intro i
    by_cases hr : i.row = j.row
    · have hjb : ((j.row == i.row) : Bool) = true := by simp [hr]
      have htw : (j :: js).takeWhile (fun x => x.row == i.row) =
          j :: js.takeWhile (fun x => x.row == j.row) := by
        rw [List.takeWhile_cons, hjb]
        simp [hr]
      have hdw : (j :: js).dropWhile (fun x => x.row == i.row) =
          js.dropWhile (fun x => x.row == j.row) := by
        rw [List.dropWhile_cons, hjb]
        simp [hr]
      rw [htw, hdw]
      show (match chunkRows (j :: js) with
        | [] => [(i.row, [i])]
        | (r, grp) :: rest =>
          if i.row = r then (i.row, i :: grp) :: rest
          else (i.row, [i]) :: (r, grp) :: rest) = _
      rw [ih j]
      simp [hr]
    · have hjb : ((j.row == i.row) : Bool) = false := by
        simp only [beq_eq_false_iff_ne, ne_eq]
        intro hc
        exact hr hc.symm
      have htw : (j :: js).takeWhile (fun x => x.row == i.row) = [] := by
        rw [List.takeWhile_cons, hjb]
        simp
      have hdw : (j :: js).dropWhile (fun x => x.row == i.row) = j :: js := by
        rw [List.dropWhile_cons, hjb]
        simp
      rw [htw, hdw]
      show (match chunkRows (j :: js) with
        | [] => [(i.row, [i])]
        | (r, grp) :: rest =>
          if i.row = r then (i.row, i :: grp) :: rest
          else (i.row, [i]) :: (r, grp) :: rest) = _
      rw [ih j]
      have : ¬ i.row = j.row := hr
      simp [this]

theorem chunkRows_facts (infos : List CellInfo)
    (hp : List.Pairwise (fun a b : CellInfo => a.row ≤ b.row) infos) :
    List.Pairwise (· < ·) ((chunkRows infos).map Prod.fst) ∧
    (∀ g ∈ chunkRows infos, ∀ x ∈ g.2, x.row = g.1) ∧
    (∀ g ∈ chunkRows infos, ∀ x ∈ g.2, x ∈ infos) ∧
    (∀ g ∈ chunkRows infos, g.2 ≠ []) ∧
    (∀ i is, infos = i :: is →
      ((chunkRows infos).map Prod.fst).head? = some i.row) := by
  match infos, hp with
  | [], hp =>
    exact ⟨by simp [chunkRows], by simp [chunkRows], by simp [chunkRows],
      by simp [chunkRows], by intro i is h; exact absurd h (by simp)⟩
  | i :: is, hp =>
    have hhead := List.pairwise_cons.mp hp
    rw [chunkRows_cons is i]
    have htwrow : ∀ x ∈ is.takeWhile (fun j => j.row == i.row), x.row = i.row := by
      intro x hx
      have := List.mem_takeWhile_imp hx
      simpa using this
    have htwmem : ∀ x ∈ is.takeWhile (fun j => j.row == i.row), x ∈ is :=
      fun x hx => (List.takeWhile_sublist _).mem hx
    have hdwsub : ∀ x ∈ is.dropWhile (fun j => j.row == i.row), x ∈ is :=
      fun x hx => (List.dropWhile_sublist _).mem hx
    have hdwpair : List.Pairwise (fun a b : CellInfo => a.row ≤ b.row)
        (is.dropWhile (fun j => j.row == i.row)) :=
      hhead.2.sublist (List.dropWhile_sublist _)
    obtain ⟨jh1, jh2, jh3, jh4, jh5⟩ := chunkRows_facts
      (is.dropWhile (fun j => j.row == i.row)) hdwpair
    have hgt : ∀ r ∈ ((chunkRows (is.dropWhile (fun j => j.row == i.row))).map
        Prod.fst), i.row < r := by
      intro r hr
      rcases List.mem_map.mp hr with ⟨g, hg, hgr⟩
      have hne := jh4 g hg
      rcases hx : g.2 with _ | ⟨x, xs⟩
      · exact absurd hx hne
      · have hxmem : x ∈ g.2 := by rw [hx]; simp
        have hxrow := jh2 g hg x hxmem
        have hxinf : x ∈ is.dropWhile (fun j => j.row == i.row) := jh3 g hg x hxmem
        have hxle : i.row ≤ x.row := hhead.1 x (hdwsub x hxinf)
        have hxne : ¬ (x.row = i.row) := by
          rcases hd : is.dropWhile (fun j => j.row == i.row) with _ | ⟨d, ds⟩
          · rw [hd] at hxinf; simp at hxinf
          · have hdrow : ¬ ((d.row == i.row) = true) := by
              have := List.head?_dropWhile_not (fun j => j.row == i.row) is
              rw [hd] at this
              simpa using this
            rw [hd] at hxinf
            rcases List.mem_cons.mp hxinf with hxd | hxd
            · subst hxd
              simpa using hdrow
            · have hdpair := hdwpair
              rw [hd] at hdpair
              have hdle := (List.pairwise_cons.mp hdpair).1 x hxd
              have hdge : i.row ≤ d.row := hhead.1 d (by
                rw [hd] at hdwsub
                exact hdwsub d (by simp))
              simp only [beq_iff_eq] at hdrow
              intro hcon
              omega
        rw [← hgr, ← jh2 g hg x hxmem]
        omega
    refine ⟨?_, ?_, ?_, ?_, ?_⟩
    · simp only [List.map_cons]
      rw [List.pairwise_cons]
      exact ⟨hgt, jh1⟩
    · intro g hg x hx
      rcases List.mem_cons.mp hg with h | h
      · subst h
        rcases List.mem_cons.mp hx with h2 | h2
        · subst h2; rfl
        · exact htwrow x h2
      · exact jh2 g h x hx
    · intro g hg x hx
      rcases List.mem_cons.mp hg with h | h
      · subst h
        rcases List.mem_cons.mp hx with h2 | h2
        · subst h2; simp
        · exact List.mem_cons_of_mem _ (htwmem x h2)
      · exact List.mem_cons_of_mem _ (hdwsub x (jh3 g h x hx))
    · intro g hg
      rcases List.mem_cons.mp hg with h | h
      · subst h; simp
      · exact jh4 g h
    · intro i2 is2 heq
      simp only [List.cons.injEq] at heq
      rw [heq.1]
      simp
termination_by infos.length
decreasing_by
  have := (@List.dropWhile_sublist CellInfo is (fun j => j.row == i.row)).length_le
  simp only [List.length_cons]
  omega

theorem renderRows_no_sep (mr mc : ℕ) (r0 : ℕ) (g : List String)
    (rest : List (ℕ × List String)) (h : r0 ≠ 0) :
    renderRows mr mc ((r0, g) :: rest) =
      ((r0, g) :: rest).map (fun rg => mkRow rg.2) := by
  show mkRow g ::
      ((if rest ≠ [] ∧ r0 = 0 ∧ mr > 0 then [mkSep mc] else []) ++
        rest.map (fun rg => mkRow rg.2)) = _
  rw [if_neg (by simp [h])]
  simp

theorem mdLoopInfos_render (mr mc : ℕ) :
    ∀ (infos : List CellInfo) (md rowCells : List String) (cr : ℕ),
      rowCells ≠ [] →
      (∀ i ∈ infos, cr ≤ i.row) →
      List.Pairwise (fun a b : CellInfo => a.row ≤ b.row) infos →
      mdLoopInfos mr mc infos md rowCells cr =
        md ++ renderRows mr mc
          ((cr, rowCells ++ (infos.takeWhile (fun j => j.row == cr)).map
              (fun i => mdEscape i.text)) ::
            groupsOf (infos.dropWhile (fun j => j.row == cr))) := by
  intro infos
  induction infos with
  | nil =>
    intro md rowCells cr hrc _ _
    simp only [mdLoopInfos, List.takeWhile_nil, List.dropWhile_nil]
    rw [if_neg hrc]
    simp [renderRows, groupsOf, chunkRows]
  | cons i is ih =>
    intro md rowCells cr hrc hge hpw
    have hle : cr ≤ i.row := hge i (List.mem_cons_self _ _)
    have hpw2 := List.pairwise_cons.mp hpw
    by_cases hi : i.row = cr
    · have hngt : ¬ (i.row > cr) := by omega
      simp only [mdLoopInfos]
      rw [if_neg hngt]
      rw [ih md (rowCells ++ [mdEscape i.text]) cr (by simp)
        (fun j hj => hge j (List.mem_cons_of_mem _ hj)) hpw2.2]
      rw [List.takeWhile_cons, List.dropWhile_cons]
      simp only [hi, beq_self_eq_true, if_true]
      simp [List.append_assoc]
    · have hgt : i.row > cr := by omega
      simp only [mdLoopInfos]
      rw [if_pos hgt, if_neg hrc]
      rw [ih _ [mdEscape i.text] i.row (by simp)
        (fun j hj => hpw2.1 j hj) hpw2.2]
      rw [List.takeWhile_cons, List.dropWhile_cons]
      have hibeq : ((i.row == cr) : Bool) = false := by
        simp
        exact hi
      simp only [hibeq, Bool.false_eq_true, if_false, List.map_nil,
        List.append_nil]
      have hgroups : groupsOf (i :: is) =
          (i.row, mdEscape i.text ::
            (is.takeWhile (fun j => j.row == i.row)).map
              (fun x => mdEscape x.text)) ::
            groupsOf (is.dropWhile (fun j => j.row == i.row)) := by
        unfold groupsOf
        rw [chunkRows_cons is i]
        simp
      rw [hgroups]
      rw [renderRows_no_sep mr mc i.row _ _ (by omega)]
      have hsingleton : [mdEscape i.text] ++
          (is.takeWhile (fun j => j.row == i.row)).map
            (fun x => mdEscape x.text) =
          mdEscape i.text ::
            (is.takeWhile (fun j => j.row == i.row)).map
              (fun x => mdEscape x.text) := rfl
      rw [hsingleton]
      show (md ++ [mkRow rowCells] ++
          (if cr = 0 ∧ mr > 0 then [mkSep mc] else [])) ++ _ =
        md ++ renderRows mr mc ((cr, rowCells) :: _)
      unfold renderRows
      by_cases hc : cr = 0 ∧ mr > 0
      · simp [hc, List.append_assoc]
      · simp [hc, List.append_assoc]



theorem finalInfo_row (oc : List TableCell) (elements : List TextElement)
    (c : TableCell) : (finalInfo oc elements c).row = c.row := by
  unfold finalInfo
  by_cases h : assignedElems oc elements c.cell_id = [] <;> simp [h]

theorem renderedCellMap_eq (cells : List TableCell)
    (elements : List TextElement)
    (hnd : (cells.map (fun c => c.cell_id)).Nodup) :
    renderedCellMap cells elements =
      (ocOf cells).map (fun c =>
        (c.cell_id, finalInfo (ocOf cells) elements c)) := by
  have hp : (ocOf cells).Perm cells := List.perm_insertionSort _ _
  have hocnd : ((ocOf cells).map (fun c => c.cell_id)).Nodup :=
    ((hp.map _).nodup_iff).mpr hnd
  have hkeysL : (renderedCellMap cells elements).map Prod.fst =
      (ocOf cells).map (fun c => c.cell_id) :=
    keys_renderedCellMap cells elements hocnd
  have hkeysR : ((ocOf cells).map (fun c =>
      (c.cell_id, finalInfo (ocOf cells) elements c))).map Prod.fst =
      (ocOf cells).map (fun c => c.cell_id) := by
    rw [List.map_map]
    rfl
  apply assoc_ext
  · rw [hkeysL, hkeysR]
  · rw [hkeysL]
    exact hocnd
  · intro k
    have hlhs : alookup (renderedCellMap cells elements) k =
        (alookup (tableCellMap cells elements) k).map (fun info =>
          if info.elements = [] then info
          else { info with text := cellText info.elements }) :=
      alookup_map_value (tableCellMap cells elements) (fun info =>
        if info.elements = [] then info
        else { info with text := cellText info.elements }) k
    rw [hlhs, alookup_tableCellMap]
    by_cases hk : k ∈ (ocOf cells).map (fun c => c.cell_id)
    · obtain ⟨c, hc, hck⟩ := List.mem_map.mp hk
      rw [← hck]
      rw [alookup_initFold (ocOf cells) hocnd [] c hc]
      rw [alookup_ocmap (ocOf cells) _ hocnd c hc]
      refine congrArg some ?_
      unfold finalInfo assignedElems
      by_cases he : primAssigned (ocOf cells) elements c.cell_id ++
          fbAssigned (ocOf cells) elements c.cell_id = [] <;>
        simp [he, List.nil_append]
    · have hnone1 : alookup (initFold (ocOf cells) []) k = none := by
        apply alookup_eq_none
        rw [keys_initFold (ocOf cells) hocnd [] (by intro c _; simp)]
        simpa using hk
      have hnone2 : alookup ((ocOf cells).map (fun c =>
          (c.cell_id, finalInfo (ocOf cells) elements c))) k = none := by
        apply alookup_eq_none
        rw [hkeysR]
        exact hk
      rw [hnone1, hnone2]
      rfl

theorem foldl_max_init (l : List ℕ) : ∀ a : ℕ, a ≤ l.foldl max a := by
  induction l with
  | nil => intro a; exact le_refl a
  | cons y ys ih =>
    intro a
    rw [List.foldl_cons]
    exact le_trans (Nat.le_max_left a y) (ih (max a y))

theorem foldl_max_ge (l : List ℕ) :
    ∀ (a x : ℕ), x ∈ l → x ≤ l.foldl max a := by
  induction l with
  | nil => intro a x hx; simp at hx
  | cons y ys ih =>
    intro a x hx
    rw [List.foldl_cons]
    rcases List.mem_cons.mp hx with h | h
    · subst h
      exact le_trans (Nat.le_max_right a x) (foldl_max_init ys _)
    · exact ih _ x h

instance cellIdLeTotal : IsTotal TableCell (fun a b => a.cell_id ≤ b.cell_id) :=
  ⟨fun a b => Nat.le_total a.cell_id b.cell_id⟩

instance cellIdLeTrans : IsTrans TableCell (fun a b => a.cell_id ≤ b.cell_id) :=
  ⟨fun _ _ _ => Nat.le_trans⟩

end RenderLemmas

/-! ## Claim C7: markdown table rendering -/

/-- Claim C7.  For a nonempty grid with distinct cell ids whose id-sorted
order has nondecreasing row indices starting at row 0, the markdown
output of `_extract_table_text_from_elements` is exactly the rendering of
the row groups of the populated cell map: one `| .. | .. |` line per row
group (cells in cell-id order, each text newline-flattened,
pipe-escaped and stripped), with the `---` separator line inserted after
the first emitted row exactly when a further row group follows (the first
group having row 0 and `max_row` positive, which the separator condition
then implies); row groups appear in strictly increasing row order; and
each cell's rendered text is its elements' grouped lines joined with
newlines. -/
theorem C7_render_table (box : Box) (elements : List TextElement)
    (hcne : box.table_cells ≠ [])
    (hnd : (box.table_cells.map (fun c => c.cell_id)).Nodup)
    (hrows : List.Pairwise (fun a b : TableCell => a.row ≤ b.row)
      (ocOf box.table_cells))
    (hhead0 : (ocOf box.table_cells).head?.map (fun c => c.row) = some 0) :
    (extract_table_text_from_elements elements box =
      String.intercalate "\n"
        (renderRows ((box.table_cells.map (fun c => c.row)).foldl max 0)
          ((box.table_cells.map (fun c => c.col)).foldl max 0)
          (groupsOf ((ocOf box.table_cells).map
            (finalInfo (ocOf box.table_cells) elements))))) ∧
    List.Pairwise (· < ·)
      ((chunkRows ((ocOf box.table_cells).map
        (finalInfo (ocOf box.table_cells) elements))).map Prod.fst) ∧
    (∀ g0 gs,
      groupsOf ((ocOf box.table_cells).map
        (finalInfo (ocOf box.table_cells) elements)) = g0 :: gs →
      ((gs ≠ [] ∧ g0.1 = 0 ∧
          (box.table_cells.map (fun c => c.row)).foldl max 0 > 0) ↔
        gs ≠ [])) ∧
    (∀ elems : List TextElement, cellText elems =
      String.intercalate "\n"
        ((group_words_into_lines (elems.map toWord)).map
          (fun g => g.text))) := by
  have hp : (ocOf box.table_cells).Perm box.table_cells :=
    List.perm_insertionSort _ _
  have hocnd : ((ocOf box.table_cells).map (fun c => c.cell_id)).Nodup :=
    ((hp.map _).nodup_iff).mpr hnd
  have hocne : ocOf box.table_cells ≠ [] := by
    intro hcon
    apply hcne
    have hlen := hp.length_eq
    rw [hcon] at hlen
    exact List.length_eq_zero.mp hlen.symm
  obtain ⟨c0, rest0, hx⟩ : ∃ c0 rest0,
      ocOf box.table_cells = c0 :: rest0 := by
    rcases hoc : ocOf box.table_cells with _ | ⟨a, b⟩
    · exact absurd hoc hocne
    · exact ⟨a, b, rfl⟩
  have hc0row : c0.row = 0 := by
    rw [hx] at hhead0
    simpa using hhead0
  have hinfosrows : List.Pairwise (fun a b : CellInfo => a.row ≤ b.row)
      ((ocOf box.table_cells).map
        (finalInfo (ocOf box.table_cells) elements)) := by
    rw [List.pairwise_map]
    refine List.Pairwise.imp ?_ hrows
    intro a b hab
    rw [finalInfo_row, finalInfo_row]
    exact hab
  obtain ⟨hchunk1, hchunk2, hchunk3, hchunk4, hchunk5⟩ :=
    chunkRows_facts ((ocOf box.table_cells).map
      (finalInfo (ocOf box.table_cells) elements)) hinfosrows
  refine ⟨?_, hchunk1, ?_, fun elems => rfl⟩
  · -- the rendering equality
    have hM := renderedCellMap_eq box.table_cells elements hnd
    have hMkeys : (renderedCellMap box.table_cells elements).map Prod.fst =
        (ocOf box.table_cells).map (fun c => c.cell_id) :=
      keys_renderedCellMap box.table_cells elements hocnd
    have hMne : renderedCellMap box.table_cells elements ≠ [] := by
      intro hcon
      rw [hcon, hx] at hMkeys
      simp at hMkeys
    have hsorted : List.Pairwise (fun a b : ℕ => a ≤ b)
        ((renderedCellMap box.table_cells elements).map Prod.fst) := by
      rw [hMkeys, List.pairwise_map]
      exact List.sorted_insertionSort
        (fun a b : TableCell => a.cell_id ≤ b.cell_id) box.table_cells
    have hsorteq : List.insertionSort (fun a b : ℕ => a ≤ b)
        ((renderedCellMap box.table_cells elements).map Prod.fst) =
        (renderedCellMap box.table_cells elements).map Prod.fst :=
      List.Sorted.insertionSort_eq hsorted
    have hstep1 : extract_table_text_from_elements elements box =
        (if box.table_cells = [] then
          extract_with_layout_detection (elements.map toWord)
        else if renderedCellMap box.table_cells elements = [] then ""
        else String.intercalate "\n"
          (mdLoop (renderedCellMap box.table_cells elements)
            ((box.table_cells.map (fun c => c.row)).foldl max 0)
            ((box.table_cells.map (fun c => c.col)).foldl max 0)
            (List.insertionSort (fun a b : ℕ => a ≤ b)
              ((renderedCellMap box.table_cells elements).map Prod.fst))
            [] [] 0)) := rfl
    rw [hstep1, if_neg hcne, if_neg hMne, hsorteq]
    rw [mdLoop_eq_infos ((box.table_cells.map (fun c => c.row)).foldl max 0)
      ((box.table_cells.map (fun c => c.col)).foldl max 0)
      (renderedCellMap box.table_cells elements)
      (renderedCellMap box.table_cells elements) [] [] 0
      (alookup_self _ (by rw [hMkeys]; exact hocnd))]
    have hMsnd : (renderedCellMap box.table_cells elements).map Prod.snd =
        (ocOf box.table_cells).map
          (finalInfo (ocOf box.table_cells) elements) := by
      rw [hM, List.map_map]
      rfl
    rw [hMsnd]
    congr 1
    rw [hx, List.map_cons]
    have hi0row : (finalInfo (c0 :: rest0) elements c0).row = 0 := by
      rw [finalInfo_row]
      exact hc0row
    have hpwtail : List.Pairwise (fun a b : CellInfo => a.row ≤ b.row)
        (rest0.map (finalInfo (c0 :: rest0) elements)) := by
      have h := hinfosrows
      rw [hx, List.map_cons] at h
      exact (List.pairwise_cons.mp h).2
    simp only [mdLoopInfos]
    rw [if_neg (by rw [hi0row]; omega)]
    rw [List.nil_append]
    rw [mdLoopInfos_render ((box.table_cells.map (fun c => c.row)).foldl max 0)
      ((box.table_cells.map (fun c => c.col)).foldl max 0)
      (rest0.map (finalInfo (c0 :: rest0) elements))
      [] [mdEscape (finalInfo (c0 :: rest0) elements c0).text] 0
      (by simp) (fun i _ => Nat.zero_le _) hpwtail]
    rw [List.nil_append]
    have hgroups : groupsOf (finalInfo (c0 :: rest0) elements c0 ::
        rest0.map (finalInfo (c0 :: rest0) elements)) =
        (0, mdEscape (finalInfo (c0 :: rest0) elements c0).text ::
          ((rest0.map (finalInfo (c0 :: rest0) elements)).takeWhile
            (fun j => j.row == 0)).map (fun i => mdEscape i.text)) ::
          groupsOf ((rest0.map (finalInfo (c0 :: rest0) elements)).dropWhile
            (fun j => j.row == 0)) := by
      unfold groupsOf
      rw [chunkRows_cons (rest0.map (finalInfo (c0 :: rest0) elements))
        (finalInfo (c0 :: rest0) elements c0), hi0row]
      simp
    rw [hgroups]
    rfl
  · -- the separator condition
    intro g0 gs hgg
    constructor
    · exact fun h => h.1
    · intro hgs
      unfold groupsOf at hgg
      rcases hch : chunkRows ((ocOf box.table_cells).map
          (finalInfo (ocOf box.table_cells) elements)) with _ | ⟨ch0, chrest⟩
      · rw [hch] at hgg
        simp at hgg
      · rw [hch, List.map_cons] at hgg
        obtain ⟨hg0, hgs2⟩ := List.cons_eq_cons.mp hgg
        have heq0 : (ocOf box.table_cells).map
            (finalInfo (ocOf box.table_cells) elements) =
            finalInfo (ocOf box.table_cells) elements c0 ::
              rest0.map (finalInfo (ocOf box.table_cells) elements) := by
          rw [hx, List.map_cons]
        have hhd := hchunk5 _ _ heq0
        rw [hch] at hhd
        simp only [List.map_cons, List.head?_cons] at hhd
        have hch0fst : ch0.1 = 0 := by
          have h1 := Option.some.inj hhd
          rw [finalInfo_row, hc0row] at h1
          exact h1
        refine ⟨hgs, ?_, ?_⟩
        · rw [← hg0]
          exact hch0fst
        · rcases hchr : chrest with _ | ⟨ch1, ch2s⟩
          · rw [hchr] at hgs2
            simp only [List.map_nil] at hgs2
            exact absurd hgs2.symm hgs
          · have hch1mem : ch1 ∈ chunkRows ((ocOf box.table_cells).map
                (finalInfo (ocOf box.table_cells) elements)) := by
              rw [hch, hchr]
              exact List.mem_cons_of_mem _ (List.mem_cons_self _ _)
            have hlt : ch0.1 < ch1.1 := by
              have h1 := hchunk1
              rw [hch, hchr] at h1
              simp only [List.map_cons] at h1
              exact (List.pairwise_cons.mp h1).1 ch1.1 (by simp)
            have hne := hchunk4 ch1 hch1mem
            rcases hx2 : ch1.2 with _ | ⟨x, xs⟩
            · exact absurd hx2 hne
            · have hxmem : x ∈ ch1.2 := by
                rw [hx2]
                exact List.mem_cons_self _ _
              have hxrow := hchunk2 ch1 hch1mem x hxmem
              have hxinf := hchunk3 ch1 hch1mem x hxmem
              obtain ⟨c, hcmem, hcx⟩ := List.mem_map.mp hxinf
              have hcrow : c.row = x.row := by
                rw [← hcx, finalInfo_row]
              have hcincells : c ∈ box.table_cells := hp.mem_iff.mp hcmem
              have hcrowmem : c.row ∈ box.table_cells.map (fun c => c.row) :=
                List.mem_map_of_mem _ hcincells
              have hler := foldl_max_ge (box.table_cells.map (fun c => c.row))
                0 c.row hcrowmem
              omega

/-- A concrete 2-by-2 row-major grid for the C7 witness. -/
def wcells7 : List TableCell :=
  [⟨0, 0, 0, (0, 0, 10, 10)⟩, ⟨1, 0, 1, (10, 0, 20, 10)⟩,
   ⟨2, 1, 0, (0, 10, 10, 20)⟩, ⟨3, 1, 1, (10, 10, 20, 20)⟩]

/-- A table box over that grid. -/
def wbox7 : Box := ⟨some "table", some [0, 0, 20, 20], some 0, some "table", wcells7⟩

/-- Witness for C7: the 2-by-2 grid satisfies every hypothesis, and the
rendering equality follows by applying the theorem. -/
theorem C7_render_table_witness :
    wbox7.table_cells ≠ [] ∧
    (wbox7.table_cells.map (fun c => c.cell_id)).Nodup ∧
    List.Pairwise (fun a b : TableCell => a.row ≤ b.row)
      (ocOf wbox7.table_cells) ∧
    (ocOf wbox7.table_cells).head?.map (fun c => c.row) = some 0 ∧
    extract_table_text_from_elements [] wbox7 =
      String.intercalate "\n"
        (renderRows ((wbox7.table_cells.map (fun c => c.row)).foldl max 0)
          ((wbox7.table_cells.map (fun c => c.col)).foldl max 0)
          (groupsOf ((ocOf wbox7.table_cells).map
            (finalInfo (ocOf wbox7.table_cells) [])))) :=
  ⟨by decide, by decide, by decide, by decide,
    (C7_render_table wbox7 [] (by decide) (by decide) (by decide)
      (by decide)).1⟩

/-! ## Claim C3: fuzzy similarity (difflib SequenceMatcher)

Embedding of `difflib.SequenceMatcher(None, a, b).ratio()` as used by
`calculate_fuzzy_similarity`.  `isjunk` is `None`, so the junk set
`bjunk` is empty (`noJunk`); `autojunk` is on, so characters occurring
more than `len(b) // 100 + 1` times are dropped from the index `b2j`
when `len(b) >= 200`.  Loops are embedded with explicit fuel large
enough for every reachable iteration count; `i-k+1` is written
`i+1-k` (equal on the reachable states, where `k ≤ i+1`), and the
Python `j2len.get(j-1, 0)` at `j = 0` reads index `-1`, hence 0. -/

section Difflib

/-- Default character for out-of-range reads (never reached on the
in-range indices the algorithm uses). -/
def dChar : Char := Char.ofNat 0

/-- Ascending list of the positions of `c` in `b` (the `b2j` entry built
by `__chain_b` before autojunk filtering). -/
def positionsOf (b : List Char) (c : Char) : List ℕ :=
  (List.range b.length).filter (fun j => b.get? j = some c)

/-- Autojunk popularity test: `len(b) >= 200` and the character occurs
more than `len(b) // 100 + 1` times. -/
def isPopular (b : List Char) (c : Char) : Bool :=
  decide (200 ≤ b.length) && decide (b.length / 100 + 1 < b.count c)

/-- The `b2j` index after autojunk deletion of popular entries; a
character that never occurs in `b` gets `[]` (`b2j.get(elt, nothing)`). -/
def b2j (b : List Char) (c : Char) : List ℕ :=
  if isPopular b c then [] else positionsOf b c

/-- `dict.get(key, 0)` on the `j2len` dictionaries. -/
def nlookup : List (ℕ × ℕ) → ℕ → ℕ
  | [], _ => 0
  | p :: r, k => if p.1 = k then p.2 else nlookup r k

/-- `dict[key] = value` on the `j2len` dictionaries. -/
def nupdate : List (ℕ × ℕ) → ℕ → ℕ → List (ℕ × ℕ)
  | [], k, v => [(k, v)]
  | p :: r, k, v => if p.1 = k then (k, v) :: r else p :: nupdate r k v

/-- Inner loop of `find_longest_match` over the candidate positions `js`
of `a[i]` in `b`: `continue` below `blo`, `break` at `bhi`, otherwise
record the extended chain length and update the running best when it is
strictly larger. -/
def innerLoop (j2lenPrev : List (ℕ × ℕ)) (blo bhi i : ℕ) :
    List ℕ → List (ℕ × ℕ) → ℕ × ℕ × ℕ → List (ℕ × ℕ) × (ℕ × ℕ × ℕ)
  | [], newj2len, best => (newj2len, best)
  | j :: js, newj2len, best =>
    if j < blo then innerLoop j2lenPrev blo bhi i js newj2len best
    else if bhi ≤ j then (newj2len, best)
    else
      let k := (if j = 0 then 0 else nlookup j2lenPrev (j - 1)) + 1
      let newj2len2 := nupdate newj2len j k
      let best2 := if best.2.2 < k then (i + 1 - k, j + 1 - k, k) else best
      innerLoop j2lenPrev blo bhi i js newj2len2 best2

/-- Outer loop of `find_longest_match` over the rows `alo..ahi-1`,
threading the previous row's `j2len` dictionary and the running best. -/
def rowsLoop (a b : List Char) (blo bhi : ℕ) :
    List ℕ → List (ℕ × ℕ) → ℕ × ℕ × ℕ → ℕ × ℕ × ℕ
  | [], _, best => best
  | i :: is, j2len, best =>
    let r := innerLoop j2len blo bhi i (b2j b (a.getD i dChar)) [] best
    rowsLoop a b blo bhi is r.1 r.2

/-- The junk predicate: `isjunk` is `None`, so `bjunk` is empty. -/
def noJunk : Char → Bool := fun _ => false

/-- First extension loop: extend backwards over equal non-junk
characters. -/
def extBack (a b : List Char) (alo blo : ℕ) (junk : Char → Bool) :
    ℕ → ℕ × ℕ × ℕ → ℕ × ℕ × ℕ
  | 0, s => s
  | fuel + 1, (bi, bj, bs) =>
    if alo < bi ∧ blo < bj ∧ junk (b.getD (bj - 1) dChar) = false ∧
        a.getD (bi - 1) dChar = b.getD (bj - 1) dChar then
      extBack a b alo blo junk fuel (bi - 1, bj - 1, bs + 1)
    else (bi, bj, bs)

/-- Second extension loop: extend forwards over equal non-junk
characters. -/
def extFwd (a b : List Char) (ahi bhi : ℕ) (junk : Char → Bool) :
    ℕ → ℕ × ℕ × ℕ → ℕ × ℕ × ℕ
  | 0, s => s
  | fuel + 1, (bi, bj, bs) =>
    if bi + bs < ahi ∧ bj + bs < bhi ∧ junk (b.getD (bj + bs) dChar) = false ∧
        a.getD (bi + bs) dChar = b.getD (bj + bs) dChar then
      extFwd a b ahi bhi junk fuel (bi, bj, bs + 1)
    else (bi, bj, bs)

/-- Third extension loop: extend backwards over equal junk characters
(dead with `noJunk`). -/
def extBackJunk (a b : List Char) (alo blo : ℕ) (junk : Char → Bool) :
    ℕ → ℕ × ℕ × ℕ → ℕ × ℕ × ℕ
  | 0, s => s
  | fuel + 1, (bi, bj, bs) =>
    if alo < bi ∧ blo < bj ∧ junk (b.getD (bj - 1) dChar) = true ∧
        a.getD (bi - 1) dChar = b.getD (bj - 1) dChar then
      extBackJunk a b alo blo junk fuel (bi - 1, bj - 1, bs + 1)
    else (bi, bj, bs)

/-- Fourth extension loop: extend forwards over equal junk characters
(dead with `noJunk`). -/
def extFwdJunk (a b : List Char) (ahi bhi : ℕ) (junk : Char → Bool) :
    ℕ → ℕ × ℕ × ℕ → ℕ × ℕ × ℕ
  | 0, s => s
  | fuel + 1, (bi, bj, bs) =>
    if bi + bs < ahi ∧ bj + bs < bhi ∧ junk (b.getD (bj + bs) dChar) = true ∧
        a.getD (bi + bs) dChar = b.getD (bj + bs) dChar then
      extFwdJunk a b ahi bhi junk fuel (bi, bj, bs + 1)
    else (bi, bj, bs)

/-- `SequenceMatcher.find_longest_match(alo, ahi, blo, bhi)`. -/
def find_longest_match (a b : List Char) (alo ahi blo bhi : ℕ) :
    ℕ × ℕ × ℕ :=
  let fuel := a.length + b.length + alo + ahi + blo + bhi + 1
  let best0 := rowsLoop a b blo bhi (List.range' alo (ahi - alo)) []
    (alo, blo, 0)
  let best1 := extBack a b alo blo noJunk fuel best0
  let best2 := extFwd a b ahi bhi noJunk fuel best1
  let best3 := extBackJunk a b alo blo noJunk fuel best2
  extFwdJunk a b ahi bhi noJunk fuel best3

/-- Total size of the matching blocks produced by
`get_matching_blocks`'s queue recursion on a range (the sort, adjacent
merge and zero-length sentinel do not change the total). -/
def matchTotal (a b : List Char) : ℕ → ℕ → ℕ → ℕ → ℕ → ℕ
  | 0, _, _, _, _ => 0
  | fuel + 1, alo, ahi, blo, bhi =>
    let m := find_longest_match a b alo ahi blo bhi
    if m.2.2 = 0 then 0
    else
      m.2.2 +
        (if alo < m.1 ∧ blo < m.2.1 then
          matchTotal a b fuel alo m.1 blo m.2.1 else 0) +
        (if m.1 + m.2.2 < ahi ∧ m.2.1 + m.2.2 < bhi then
          matchTotal a b fuel (m.1 + m.2.2) ahi (m.2.1 + m.2.2) bhi else 0)

/-- `SequenceMatcher.ratio()`: `2*M / T`, or `1.0` when both sequences
are empty. -/
def smRatio (a b : List Char) : ℚ :=
  let m := matchTotal a b (a.length + b.length + 1) 0 a.length 0 b.length
  if 0 < a.length + b.length then
    2 * (m : ℚ) / ((a.length : ℚ) + (b.length : ℚ))
  else 1

/-- `TemplateMatcher.calculate_fuzzy_similarity`: 0.0 when either raw
string is falsy, otherwise the difflib ratio of the two normalized
strings. -/
def calculate_fuzzy_similarity (template_phrase pdf_text : List Char) : ℚ :=
  if template_phrase = [] ∨ pdf_text = [] then 0
  else smRatio (normalize_text template_phrase) (normalize_text pdf_text)

end Difflib

section DifflibBounds

/-- Range invariant of a candidate match `(i, j, k)` for
`find_longest_match` on the window `[alo,ahi) × [blo,bhi)`. -/
def Pbnd (alo ahi blo bhi : ℕ) (s : ℕ × ℕ × ℕ) : Prop :=
  alo ≤ s.1 ∧ blo ≤ s.2.1 ∧ s.1 + s.2.2 ≤ ahi ∧ s.2.1 + s.2.2 ≤ bhi

theorem nlookup_nupdate (m : List (ℕ × ℕ)) (k v : ℕ) :
    ∀ x, nlookup (nupdate m k v) x = if k = x then v else nlookup m x := by
  induction m with
  | nil =>
    intro x
    simp [nupdate, nlookup]
  | cons p r ih =>
    intro x
    by_cases hpk : p.1 = k
    · simp only [nupdate, if_pos hpk]
      by_cases hkx : k = x
      · simp [nlookup, hkx]
      · simp [nlookup, hkx, hpk ▸ hkx, ih]
    · simp only [nupdate, if_neg hpk]
      by_cases hpx : p.1 = x
      · have hkx : ¬ k = x := fun hc => hpk (hc ▸ hpx)
        simp [nlookup, hpx, hkx]
      · simp [nlookup, hpx, ih]

theorem innerLoop_bounds (prev : List (ℕ × ℕ)) (blo bhi i alo ahi rbp : ℕ)
    (Hp1 : ∀ x, nlookup prev x ≤ rbp)
    (Hp2 : ∀ x, nlookup prev x = 0 ∨ nlookup prev x + blo ≤ x + 1)
    (Hi1 : alo ≤ i) (Hi2 : i < ahi) (Hrb : rbp + alo ≤ i) :
    ∀ (js : List ℕ) (acc : List (ℕ × ℕ)) (best : ℕ × ℕ × ℕ),
      (∀ x, nlookup acc x ≤ rbp + 1) →
      (∀ x, nlookup acc x = 0 ∨ nlookup acc x + blo ≤ x + 1) →
      Pbnd alo ahi blo bhi best →
      Pbnd alo ahi blo bhi (innerLoop prev blo bhi i js acc best).2 ∧
      (∀ x, nlookup (innerLoop prev blo bhi i js acc best).1 x ≤ rbp + 1) ∧
      (∀ x, nlookup (innerLoop prev blo bhi i js acc best).1 x = 0 ∨
        nlookup (innerLoop prev blo bhi i js acc best).1 x + blo ≤ x + 1) := by
  intro js
  induction js with
  | nil =>
    intro acc best ha1 ha2 hb
    exact ⟨hb, ha1, ha2⟩
  | cons j js ih =>
    intro acc best ha1 ha2 hb
    simp only [innerLoop]
    by_cases h1 : j < blo
    · rw [if_pos h1]
      exact ih acc best ha1 ha2 hb
    · rw [if_neg h1]
      by_cases h2 : bhi ≤ j
      · rw [if_pos h2]
        exact ⟨hb, ha1, ha2⟩
      · rw [if_neg h2]
        show Pbnd alo ahi blo bhi (innerLoop prev blo bhi i js
            (nupdate acc j ((if j = 0 then 0 else nlookup prev (j - 1)) + 1))
            (if best.2.2 < (if j = 0 then 0 else nlookup prev (j - 1)) + 1 then
              (i + 1 - ((if j = 0 then 0 else nlookup prev (j - 1)) + 1),
                j + 1 - ((if j = 0 then 0 else nlookup prev (j - 1)) + 1),
                (if j = 0 then 0 else nlookup prev (j - 1)) + 1)
            else best)).2 ∧ _ ∧ _
        have hk1 : (if j = 0 then 0 else nlookup prev (j - 1)) + 1 ≤ rbp + 1 := by
          by_cases hj0 : j = 0
          · simp [hj0]
          · rw [if_neg hj0]
            exact Nat.add_le_add_right (Hp1 (j - 1)) 1
        have hk2 : (if j = 0 then 0 else nlookup prev (j - 1)) + 1 + blo ≤
            j + 1 := by
          by_cases hj0 : j = 0
          · rw [if_pos hj0]
            omega
          · rw [if_neg hj0]
            rcases Hp2 (j - 1) with h | h
            · rw [h]
              omega
            · omega
        have ha1' : ∀ x, nlookup (nupdate acc j
            ((if j = 0 then 0 else nlookup prev (j - 1)) + 1)) x ≤ rbp + 1 := by
          intro x
          rw [nlookup_nupdate]
          by_cases hjx : j = x
          · rw [if_pos hjx]
            exact hk1
          · rw [if_neg hjx]
            exact ha1 x
        have ha2' : ∀ x, nlookup (nupdate acc j
            ((if j = 0 then 0 else nlookup prev (j - 1)) + 1)) x = 0 ∨
            nlookup (nupdate acc j
              ((if j = 0 then 0 else nlookup prev (j - 1)) + 1)) x + blo ≤
              x + 1 := by
          intro x
          rw [nlookup_nupdate]
          by_cases hjx : j = x
          · rw [if_pos hjx]
            right
            rw [← hjx]
            exact hk2
          · rw [if_neg hjx]
            exact ha2 x
        have hbest' : Pbnd alo ahi blo bhi
            (if best.2.2 < (if j = 0 then 0 else nlookup prev (j - 1)) + 1 then
              (i + 1 - ((if j = 0 then 0 else nlookup prev (j - 1)) + 1),
                j + 1 - ((if j = 0 then 0 else nlookup prev (j - 1)) + 1),
                (if j = 0 then 0 else nlookup prev (j - 1)) + 1)
            else best) := by
          by_cases hup : best.2.2 <
              (if j = 0 then 0 else nlookup prev (j - 1)) + 1
          · rw [if_pos hup]
            unfold Pbnd
            dsimp only
            omega
          · rw [if_neg hup]
            exact hb
        exact ih _ _ ha1' ha2' hbest'

end DifflibBounds

section DifflibBounds2

theorem rowsLoop_bounds (a b : List Char) (blo bhi alo ahi : ℕ) :
    ∀ (rows : List ℕ) (j2len : List (ℕ × ℕ)) (best : ℕ × ℕ × ℕ) (rbp : ℕ),
      (∀ r ∈ rows, alo ≤ r ∧ r < ahi) →
      List.Pairwise (· < ·) rows →
      (∀ r ∈ rows, rbp + alo ≤ r) →
      (∀ x, nlookup j2len x ≤ rbp) →
      (∀ x, nlookup j2len x = 0 ∨ nlookup j2len x + blo ≤ x + 1) →
      Pbnd alo ahi blo bhi best →
      Pbnd alo ahi blo bhi (rowsLoop a b blo bhi rows j2len best) := by
  intro rows
  induction rows with
  | nil =>
    intro j2len best rbp _ _ _ _ _ hb
    exact hb
  | cons r rows ih =>
    intro j2len best rbp hrange hpw hrb hj1 hj2 hb
    have hr := hrange r (List.mem_cons_self _ _)
    have hrbr := hrb r (List.mem_cons_self _ _)
    have hinner := innerLoop_bounds j2len blo bhi r alo ahi rbp hj1 hj2
      hr.1 hr.2 hrbr (b2j b (a.getD r dChar)) [] best
      (by intro x; simp [nlookup])
      (by intro x; left; simp [nlookup])
      hb
    show Pbnd alo ahi blo bhi (rowsLoop a b blo bhi rows
      (innerLoop j2len blo bhi r (b2j b (a.getD r dChar)) [] best).1
      (innerLoop j2len blo bhi r (b2j b (a.getD r dChar)) [] best).2)
    apply ih _ _ (r + 1 - alo)
    · intro r2 h
      exact hrange r2 (List.mem_cons_of_mem _ h)
    · exact (List.pairwise_cons.mp hpw).2
    · intro r2 h
      have := (List.pairwise_cons.mp hpw).1 r2 h
      omega
    · intro x
      have := hinner.2.1 x
      omega
    · exact hinner.2.2
    · exact hinner.1

theorem extBack_bounds (a b : List Char) (alo blo : ℕ) (junk : Char → Bool)
    (ahi bhi : ℕ) :
    ∀ (fuel : ℕ) (s : ℕ × ℕ × ℕ), Pbnd alo ahi blo bhi s →
      Pbnd alo ahi blo bhi (extBack a b alo blo junk fuel s) := by
  intro fuel
  induction fuel with
  | zero => intro s hs; exact hs
  | succ n ih =>
    intro s hs
    obtain ⟨bi, bj, bs⟩ := s
    simp only [extBack]
    by_cases hc : alo < bi ∧ blo < bj ∧ junk (b.getD (bj - 1) dChar) = false ∧
        a.getD (bi - 1) dChar = b.getD (bj - 1) dChar
    · rw [if_pos hc]
      apply ih
      unfold Pbnd at hs ⊢
      dsimp only at hs ⊢
      omega
    · rw [if_neg hc]
      exact hs

theorem extFwd_bounds (a b : List Char) (ahi bhi : ℕ) (junk : Char → Bool)
    (alo blo : ℕ) :
    ∀ (fuel : ℕ) (s : ℕ × ℕ × ℕ), Pbnd alo ahi blo bhi s →
      Pbnd alo ahi blo bhi (extFwd a b ahi bhi junk fuel s) := by
  intro fuel
  induction fuel with
  | zero => intro s hs; exact hs
  | succ n ih =>
    intro s hs
    obtain ⟨bi, bj, bs⟩ := s
    simp only [extFwd]
    by_cases hc : bi + bs < ahi ∧ bj + bs < bhi ∧
        junk (b.getD (bj + bs) dChar) = false ∧
        a.getD (bi + bs) dChar = b.getD (bj + bs) dChar
    · rw [if_pos hc]
      apply ih
      unfold Pbnd at hs ⊢
      dsimp only at hs ⊢
      omega
    · rw [if_neg hc]
      exact hs

theorem extBackJunk_noJunk (a b : List Char) (alo blo : ℕ) :
    ∀ (fuel : ℕ) (s : ℕ × ℕ × ℕ),
      extBackJunk a b alo blo noJunk fuel s = s := by
  intro fuel
  cases fuel with
  | zero => intro s; rfl
  | succ n =>
    intro s
    obtain ⟨bi, bj, bs⟩ := s
    simp only [extBackJunk]
    rw [if_neg]
    intro hc
    simp [noJunk] at hc

theorem extFwdJunk_noJunk (a b : List Char) (ahi bhi : ℕ) :
    ∀ (fuel : ℕ) (s : ℕ × ℕ × ℕ),
      extFwdJunk a b ahi bhi noJunk fuel s = s := by
  intro fuel
  cases fuel with
  | zero => intro s; rfl
  | succ n =>
    intro s
    obtain ⟨bi, bj, bs⟩ := s
    simp only [extFwdJunk]
    rw [if_neg]
    intro hc
    simp [noJunk] at hc

theorem flm_bounds (a b : List Char) (alo ahi blo bhi : ℕ)
    (h1 : alo ≤ ahi) (h2 : blo ≤ bhi) :
    Pbnd alo ahi blo bhi (find_longest_match a b alo ahi blo bhi) := by
  unfold find_longest_match
  rw [extFwdJunk_noJunk, extBackJunk_noJunk]
  apply extFwd_bounds
  apply extBack_bounds
  apply rowsLoop_bounds a b blo bhi alo ahi _ _ _ 0
  · intro r hr
    rw [List.mem_range'_1] at hr
    omega
  · exact List.pairwise_lt_range' _ _
  · intro r hr
    rw [List.mem_range'_1] at hr
    omega
  · intro x
    simp [nlookup]
  · intro x
    left
    simp [nlookup]
  · exact ⟨le_refl alo, le_refl blo, by simpa using h1, by simpa using h2⟩

theorem matchTotal_le (a b : List Char) :
    ∀ (fuel alo ahi blo bhi : ℕ), alo ≤ ahi → blo ≤ bhi →
      matchTotal a b fuel alo ahi blo bhi ≤ ahi - alo ∧
      matchTotal a b fuel alo ahi blo bhi ≤ bhi - blo := by
  intro fuel
  induction fuel with
  | zero =>
    intro alo ahi blo bhi _ _
    simp [matchTotal]
  | succ n ih =>
    intro alo ahi blo bhi h1 h2
    have hb := flm_bounds a b alo ahi blo bhi h1 h2
    unfold Pbnd at hb
    simp only [matchTotal]
    by_cases hk : (find_longest_match a b alo ahi blo bhi).2.2 = 0
    · rw [if_pos hk]
      omega
    · rw [if_neg hk]
      have hleft : (if alo < (find_longest_match a b alo ahi blo bhi).1 ∧
          blo < (find_longest_match a b alo ahi blo bhi).2.1 then
          matchTotal a b n alo (find_longest_match a b alo ahi blo bhi).1
            blo (find_longest_match a b alo ahi blo bhi).2.1 else 0) ≤
          ((find_longest_match a b alo ahi blo bhi).1 - alo) ∧
          (if alo < (find_longest_match a b alo ahi blo bhi).1 ∧
          blo < (find_longest_match a b alo ahi blo bhi).2.1 then
          matchTotal a b n alo (find_longest_match a b alo ahi blo bhi).1
            blo (find_longest_match a b alo ahi blo bhi).2.1 else 0) ≤
          ((find_longest_match a b alo ahi blo bhi).2.1 - blo) := by
        by_cases hg : alo < (find_longest_match a b alo ahi blo bhi).1 ∧
            blo < (find_longest_match a b alo ahi blo bhi).2.1
        · rw [if_pos hg]
          exact ih alo _ blo _ (le_of_lt hg.1) (le_of_lt hg.2)
        · rw [if_neg hg]
          omega
      have hright : (if (find_longest_match a b alo ahi blo bhi).1 +
            (find_longest_match a b alo ahi blo bhi).2.2 < ahi ∧
            (find_longest_match a b alo ahi blo bhi).2.1 +
            (find_longest_match a b alo ahi blo bhi).2.2 < bhi then
          matchTotal a b n
            ((find_longest_match a b alo ahi blo bhi).1 +
              (find_longest_match a b alo ahi blo bhi).2.2) ahi
            ((find_longest_match a b alo ahi blo bhi).2.1 +
              (find_longest_match a b alo ahi blo bhi).2.2) bhi else 0) ≤
          (ahi - ((find_longest_match a b alo ahi blo bhi).1 +
            (find_longest_match a b alo ahi blo bhi).2.2)) ∧
          (if (find_longest_match a b alo ahi blo bhi).1 +
            (find_longest_match a b alo ahi blo bhi).2.2 < ahi ∧
            (find_longest_match a b alo ahi blo bhi).2.1 +
            (find_longest_match a b alo ahi blo bhi).2.2 < bhi then
          matchTotal a b n
            ((find_longest_match a b alo ahi blo bhi).1 +
              (find_longest_match a b alo ahi blo bhi).2.2) ahi
            ((find_longest_match a b alo ahi blo bhi).2.1 +
              (find_longest_match a b alo ahi blo bhi).2.2) bhi else 0) ≤
          (bhi - ((find_longest_match a b alo ahi blo bhi).2.1 +
            (find_longest_match a b alo ahi blo bhi).2.2)) := by
        by_cases hg : (find_longest_match a b alo ahi blo bhi).1 +
            (find_longest_match a b alo ahi blo bhi).2.2 < ahi ∧
            (find_longest_match a b alo ahi blo bhi).2.1 +
            (find_longest_match a b alo ahi blo bhi).2.2 < bhi
        · rw [if_pos hg]
          exact ih _ ahi _ bhi (le_of_lt hg.1) (le_of_lt hg.2)
        · rw [if_neg hg]
          omega
      omega

end DifflibBounds2

section DifflibRatio

theorem smRatio_bounds (a b : List Char) :
    0 ≤ smRatio a b ∧ smRatio a b ≤ 1 := by
  unfold smRatio
  by_cases hl : 0 < a.length + b.length
  · rw [if_pos hl]
    have hm := matchTotal_le a b (a.length + b.length + 1) 0 a.length 0
      b.length (Nat.zero_le _) (Nat.zero_le _)
    simp only [Nat.sub_zero] at hm
    have hden : (0 : ℚ) < (a.length : ℚ) + (b.length : ℚ) := by
      have : (0 : ℚ) < ((a.length + b.length : ℕ) : ℚ) := by
        exact_mod_cast hl
      push_cast at this
      exact this
    constructor
    · apply div_nonneg
      · positivity
      · exact le_of_lt hden
    · rw [div_le_one hden]
      have h2 : 2 * matchTotal a b (a.length + b.length + 1) 0 a.length 0
          b.length ≤ a.length + b.length := by
        omega
      calc 2 * ((matchTotal a b (a.length + b.length + 1) 0 a.length 0
            b.length : ℕ) : ℚ)
          = ((2 * matchTotal a b (a.length + b.length + 1) 0 a.length 0
            b.length : ℕ) : ℚ) := by push_cast; ring
        _ ≤ ((a.length + b.length : ℕ) : ℚ) := by exact_mod_cast h2
        _ = (a.length : ℚ) + (b.length : ℚ) := by push_cast; ring
  · rw [if_neg hl]
    constructor
    · exact zero_le_one
    · exact le_refl 1

end DifflibRatio

section DifflibDiag

/-- Gate of the `j2len` dynamic programming: position pair `(i, j)` is
chained when both indices are inside the window and `j` is a surviving
`b2j` candidate for `a[i]`. -/
def gateB (a b : List Char) (alo ahi blo bhi i j : ℕ) : Bool :=
  decide (alo ≤ i) && decide (i < ahi) && decide (blo ≤ j) &&
    decide (j < bhi) && decide (j ∈ b2j b (a.getD i dChar))

/-- Chain value of the dynamic programming: length of the gated common
suffix ending at `(i, j)` (the value `find_longest_match` stores in
`j2len[j]` while processing row `i`). -/
def cv (a b : List Char) (alo ahi blo bhi : ℕ) : ℕ → ℕ → ℕ
  | 0, j => if gateB a b alo ahi blo bhi 0 j then 1 else 0
  | i + 1, j =>
    if gateB a b alo ahi blo bhi (i + 1) j then
      (match j with
        | 0 => 0
        | j' + 1 => cv a b alo ahi blo bhi i j') + 1
    else 0

theorem gateB_iff (a b : List Char) (alo ahi blo bhi i j : ℕ) :
    gateB a b alo ahi blo bhi i j = true ↔
      alo ≤ i ∧ i < ahi ∧ blo ≤ j ∧ j < bhi ∧
        j ∈ b2j b (a.getD i dChar) := by
  simp [gateB, and_assoc]

theorem positionsOf_mem (b : List Char) (c : Char) (j : ℕ) :
    j ∈ positionsOf b c ↔ j < b.length ∧ b.get? j = some c := by
  simp [positionsOf, List.mem_filter, List.mem_range]

theorem b2j_mem (b : List Char) (c : Char) (j : ℕ) (h : j ∈ b2j b c) :
    isPopular b c = false ∧ j < b.length ∧ b.get? j = some c := by
  unfold b2j at h
  by_cases hp : isPopular b c
  · rw [if_pos hp] at h
    simp at h
  · rw [if_neg hp] at h
    rw [positionsOf_mem] at h
    exact ⟨by simpa using hp, h.1, h.2⟩

theorem b2j_mem_of (b : List Char) (c : Char) (j : ℕ)
    (h1 : isPopular b c = false) (h2 : j < b.length)
    (h3 : b.get? j = some c) : j ∈ b2j b c := by
  unfold b2j
  rw [if_neg (by simp [h1])]
  rw [positionsOf_mem]
  exact ⟨h2, h3⟩

theorem get?_eq_getD (b : List Char) (j : ℕ) (h : j < b.length) :
    b.get? j = some (b.getD j dChar) := by
  rw [List.getD_eq_get?]
  cases hg : b.get? j with
  | none =>
    rw [List.get?_eq_none] at hg
    omega
  | some x => rfl

theorem b2j_sorted (b : List Char) (c : Char) :
    List.Pairwise (· < ·) (b2j b c) := by
  unfold b2j
  by_cases hp : isPopular b c
  · rw [if_pos hp]
    exact List.Pairwise.nil
  · rw [if_neg hp]
    exact (List.pairwise_lt_range _).sublist (List.filter_sublist _)

theorem gate_swap (s : List Char) (alo ahi : ℕ) (hlen : ahi ≤ s.length)
    (i j : ℕ) (h : gateB s s alo ahi alo ahi i j = true) :
    gateB s s alo ahi alo ahi j i = true := by
  rw [gateB_iff] at h ⊢
  obtain ⟨h1, h2, h3, h4, h5⟩ := h
  obtain ⟨hpop, hjl, hjc⟩ := b2j_mem s _ j h5
  have hil : i < s.length := lt_of_lt_of_le h2 hlen
  have hjeq : s.getD j dChar = s.getD i dChar := by
    have := get?_eq_getD s j hjl
    rw [this] at hjc
    exact Option.some.inj hjc
  refine ⟨h3, h4, h1, h2, ?_⟩
  apply b2j_mem_of
  · rw [hjeq]
    exact hpop
  · exact hil
  · rw [hjeq]
    exact get?_eq_getD s i hil

theorem gateB_symm (s : List Char) (alo ahi : ℕ) (hlen : ahi ≤ s.length)
    (i j : ℕ) :
    gateB s s alo ahi alo ahi i j = gateB s s alo ahi alo ahi j i := by
  cases h1 : gateB s s alo ahi alo ahi i j with
  | true => exact (gate_swap s alo ahi hlen i j h1).symm
  | false =>
    cases h2 : gateB s s alo ahi alo ahi j i with
    | true =>
      have := gate_swap s alo ahi hlen j i h2
      rw [h1] at this
      exact this
    | false => rfl

theorem cv_symm (s : List Char) (alo ahi : ℕ) (hlen : ahi ≤ s.length) :
    ∀ i j, cv s s alo ahi alo ahi i j = cv s s alo ahi alo ahi j i := by
  intro i
  induction i with
  | zero =>
    intro j
    cases j with
    | zero => rfl
    | succ j' =>
      show (if gateB s s alo ahi alo ahi 0 (j' + 1) then 1 else 0) = _
      rw [gateB_symm s alo ahi hlen 0 (j' + 1)]
      rfl
  | succ i' ih =>
    intro j
    cases j with
    | zero =>
      show _ = (if gateB s s alo ahi alo ahi 0 (i' + 1) then 1 else 0)
      rw [← gateB_symm s alo ahi hlen (i' + 1) 0]
      rfl
    | succ j' =>
      show (if gateB s s alo ahi alo ahi (i' + 1) (j' + 1) then
          cv s s alo ahi alo ahi i' j' + 1 else 0) =
        (if gateB s s alo ahi alo ahi (j' + 1) (i' + 1) then
          cv s s alo ahi alo ahi j' i' + 1 else 0)
      rw [gateB_symm s alo ahi hlen (i' + 1) (j' + 1), ih j']

theorem gate_diag (s : List Char) (alo ahi : ℕ) (hlen : ahi ≤ s.length)
    (i j : ℕ) (h : gateB s s alo ahi alo ahi i j = true) :
    gateB s s alo ahi alo ahi i i = true := by
  rw [gateB_iff] at h ⊢
  obtain ⟨h1, h2, _, _, h5⟩ := h
  obtain ⟨hpop, _, _⟩ := b2j_mem s _ j h5
  have hil : i < s.length := lt_of_lt_of_le h2 hlen
  refine ⟨h1, h2, h1, h2, ?_⟩
  exact b2j_mem_of s _ i hpop hil (get?_eq_getD s i hil)

theorem cv_diag_dom (s : List Char) (alo ahi : ℕ) (hlen : ahi ≤ s.length) :
    ∀ i j, cv s s alo ahi alo ahi i j ≤ cv s s alo ahi alo ahi i i := by
  intro i
  induction i with
  | zero =>
    intro j
    show (if gateB s s alo ahi alo ahi 0 j then 1 else 0) ≤ _
    by_cases h : gateB s s alo ahi alo ahi 0 j = true
    · rw [if_pos h]
      have hd := gate_diag s alo ahi hlen 0 j h
      show 1 ≤ (if gateB s s alo ahi alo ahi 0 0 then 1 else 0)
      rw [if_pos hd]
    · rw [if_neg h]
      exact Nat.zero_le _
  | succ i' ih =>
    intro j
    cases j with
    | zero =>
      show (if gateB s s alo ahi alo ahi (i' + 1) 0 then 0 + 1 else 0) ≤ _
      by_cases h : gateB s s alo ahi alo ahi (i' + 1) 0 = true
      · rw [if_pos h]
        have hd := gate_diag s alo ahi hlen (i' + 1) 0 h
        show 0 + 1 ≤ (if gateB s s alo ahi alo ahi (i' + 1) (i' + 1) then
          cv s s alo ahi alo ahi i' i' + 1 else 0)
        rw [if_pos hd]
        omega
      · rw [if_neg h]
        exact Nat.zero_le _
    | succ j' =>
      show (if gateB s s alo ahi alo ahi (i' + 1) (j' + 1) then
          cv s s alo ahi alo ahi i' j' + 1 else 0) ≤ _
      by_cases h : gateB s s alo ahi alo ahi (i' + 1) (j' + 1) = true
      · rw [if_pos h]
        have hd := gate_diag s alo ahi hlen (i' + 1) (j' + 1) h
        show _ ≤ (if gateB s s alo ahi alo ahi (i' + 1) (i' + 1) then
          cv s s alo ahi alo ahi i' i' + 1 else 0)
        rw [if_pos hd]
        have := ih j'
        omega
      · rw [if_neg h]
        exact Nat.zero_le _

theorem cv_ne_zero_gate (a b : List Char) (alo ahi blo bhi i j : ℕ)
    (h : cv a b alo ahi blo bhi i j ≠ 0) :
    gateB a b alo ahi blo bhi i j = true := by
  cases i with
  | zero =>
    by_cases hg : gateB a b alo ahi blo bhi 0 j = true
    · exact hg
    · exact absurd (by show (if gateB a b alo ahi blo bhi 0 j then 1 else 0) = 0; rw [if_neg hg]) h
  | succ i' =>
    by_cases hg : gateB a b alo ahi blo bhi (i' + 1) j = true
    · exact hg
    · refine absurd ?_ h
      show (if gateB a b alo ahi blo bhi (i' + 1) j then _ + 1 else 0) = 0
      rw [if_neg hg]

theorem cv_row_lt (a b : List Char) (alo ahi blo bhi i j : ℕ)
    (h : i < alo) : cv a b alo ahi blo bhi i j = 0 := by
  have hg : ¬ gateB a b alo ahi blo bhi i j = true := by
    rw [gateB_iff]
    intro hc
    omega
  cases i with
  | zero =>
    show (if gateB a b alo ahi blo bhi 0 j then 1 else 0) = 0
    rw [if_neg hg]
  | succ i' =>
    show (if gateB a b alo ahi blo bhi (i' + 1) j then _ + 1 else 0) = 0
    rw [if_neg hg]

end DifflibDiag

section DifflibChar

theorem innerLoop_lookup (prev : List (ℕ × ℕ)) (blo bhi i : ℕ) :
    ∀ (js : List ℕ) (acc : List (ℕ × ℕ)) (best : ℕ × ℕ × ℕ),
      List.Pairwise (· < ·) js →
      ∀ x, nlookup (innerLoop prev blo bhi i js acc best).1 x =
        if x ∈ js ∧ blo ≤ x ∧ x < bhi then
          (if x = 0 then 0 else nlookup prev (x - 1)) + 1
        else nlookup acc x := by
  intro js
  induction js with
  | nil =>
    intro acc best _ x
    rw [if_neg (by simp)]
    rfl
  | cons j js ih =>
    intro acc best hpw x
    have hpw2 := List.pairwise_cons.mp hpw
    simp only [innerLoop]
    by_cases h1 : j < blo
    · rw [if_pos h1]
      rw [ih acc best hpw2.2 x]
      have hc : (x ∈ js ∧ blo ≤ x ∧ x < bhi) ↔
          (x ∈ j :: js ∧ blo ≤ x ∧ x < bhi) := by
        constructor
        · intro h
          exact ⟨List.mem_cons_of_mem _ h.1, h.2⟩
        · intro h
          rcases List.mem_cons.mp h.1 with hx | hx
          · omega
          · exact ⟨hx, h.2⟩
      rw [if_congr hc rfl rfl]
    · rw [if_neg h1]
      by_cases h2 : bhi ≤ j
      · rw [if_pos h2]
        rw [if_neg (show ¬(x ∈ j :: js ∧ blo ≤ x ∧ x < bhi) by
          intro hc
          rcases List.mem_cons.mp hc.1 with hx | hx
          · omega
          · have := hpw2.1 x hx
            omega)]
      · rw [if_neg h2]
        show nlookup (innerLoop prev blo bhi i js
            (nupdate acc j ((if j = 0 then 0 else nlookup prev (j - 1)) + 1))
            (if best.2.2 < (if j = 0 then 0 else nlookup prev (j - 1)) + 1 then
              (i + 1 - ((if j = 0 then 0 else nlookup prev (j - 1)) + 1),
                j + 1 - ((if j = 0 then 0 else nlookup prev (j - 1)) + 1),
                (if j = 0 then 0 else nlookup prev (j - 1)) + 1)
            else best)).1 x = _
        rw [ih _ _ hpw2.2 x, nlookup_nupdate]
        by_cases hxj : x = j
        · rw [if_neg (show ¬(x ∈ js ∧ blo ≤ x ∧ x < bhi) from fun hc => by
            have := hpw2.1 x hc.1
            omega)]
          rw [if_pos (show j = x from hxj.symm)]
          rw [if_pos (show x ∈ j :: js ∧ blo ≤ x ∧ x < bhi from
            ⟨by rw [hxj]; exact List.mem_cons_self _ _, by omega, by omega⟩)]
          rw [hxj]
        · have hc : (x ∈ js ∧ blo ≤ x ∧ x < bhi) ↔
              (x ∈ j :: js ∧ blo ≤ x ∧ x < bhi) := by
            constructor
            · intro h
              exact ⟨List.mem_cons_of_mem _ h.1, h.2⟩
            · intro h
              rcases List.mem_cons.mp h.1 with hx | hx
              · exact absurd hx hxj
              · exact ⟨hx, h.2⟩
          rw [if_neg (show ¬ j = x from fun hc2 => hxj hc2.symm)]
          rw [if_congr hc rfl rfl]

end DifflibChar

section DifflibDiag2

theorem innerLoop_diag (s : List Char) (alo ahi i : ℕ)
    (prev : List (ℕ × ℕ)) (hlen : ahi ≤ s.length)
    (Hk : ∀ j, alo ≤ j → j < ahi → j ∈ b2j s (s.getD i dChar) →
      (if j = 0 then 0 else nlookup prev (j - 1)) + 1 =
        cv s s alo ahi alo ahi i j) :
    ∀ (js : List ℕ) (acc : List (ℕ × ℕ)) (best : ℕ × ℕ × ℕ),
      List.Pairwise (· < ·) js →
      (∀ j ∈ js, j ∈ b2j s (s.getD i dChar)) →
      (∀ j, cv s s alo ahi alo ahi i j ≠ 0 →
        j ∈ js ∨ cv s s alo ahi alo ahi i j ≤ best.2.2) →
      (∀ r j, r < i → cv s s alo ahi alo ahi r j ≤ best.2.2) →
      best.1 = best.2.1 →
      (best.2.2 = 0 → best = (alo, alo, 0)) →
      (innerLoop prev alo ahi i js acc best).2.1 =
        (innerLoop prev alo ahi i js acc best).2.2.1 ∧
      ((innerLoop prev alo ahi i js acc best).2.2.2 = 0 →
        (innerLoop prev alo ahi i js acc best).2 = (alo, alo, 0)) ∧
      (∀ j, cv s s alo ahi alo ahi i j ≤
        (innerLoop prev alo ahi i js acc best).2.2.2) ∧
      (∀ r j, r < i → cv s s alo ahi alo ahi r j ≤
        (innerLoop prev alo ahi i js acc best).2.2.2) ∧
      best.2.2 ≤ (innerLoop prev alo ahi i js acc best).2.2.2 := by
  intro js
  induction js with
  | nil =>
    intro acc best _ _ Hpend Hrows hdiag hzero
    refine ⟨hdiag, hzero, ?_, Hrows, le_refl _⟩
    intro j
    by_cases hcv : cv s s alo ahi alo ahi i j = 0
    · rw [hcv]
      exact Nat.zero_le _
    · rcases Hpend j hcv with h | h
      · simp at h
      · exact h
  | cons j js ih =>
    intro acc best hpw hmem Hpend Hrows hdiag hzero
    have hpw2 := List.pairwise_cons.mp hpw
    simp only [innerLoop]
    by_cases h1 : j < alo
    · rw [if_pos h1]
      apply ih acc best hpw2.2 (fun j0 h => hmem j0 (List.mem_cons_of_mem _ h))
        _ Hrows hdiag hzero
      intro j0 hcv
      rcases Hpend j0 hcv with h | h
      · rcases List.mem_cons.mp h with hx | hx
        · subst hx
          have hg := cv_ne_zero_gate s s alo ahi alo ahi i j0 hcv
          rw [gateB_iff] at hg
          omega
        · exact Or.inl hx
      · exact Or.inr h
    · rw [if_neg h1]
      by_cases h2 : ahi ≤ j
      · rw [if_pos h2]
        refine ⟨hdiag, hzero, ?_, Hrows, le_refl _⟩
        intro j0
        by_cases hcv : cv s s alo ahi alo ahi i j0 = 0
        · rw [hcv]
          exact Nat.zero_le _
        · rcases Hpend j0 hcv with h | h
          · have hg := cv_ne_zero_gate s s alo ahi alo ahi i j0 hcv
            rw [gateB_iff] at hg
            rcases List.mem_cons.mp h with hx | hx
            · omega
            · have := hpw2.1 j0 hx
              omega
          · exact h
      · rw [if_neg h2]
        show ((innerLoop prev alo ahi i js
            (nupdate acc j ((if j = 0 then 0 else nlookup prev (j - 1)) + 1))
            (if best.2.2 < (if j = 0 then 0 else nlookup prev (j - 1)) + 1 then
              (i + 1 - ((if j = 0 then 0 else nlookup prev (j - 1)) + 1),
                j + 1 - ((if j = 0 then 0 else nlookup prev (j - 1)) + 1),
                (if j = 0 then 0 else nlookup prev (j - 1)) + 1)
            else best)).2.1 = _) ∧ _ ∧ _ ∧ _ ∧ _
        have hjb2j := hmem j (List.mem_cons_self _ _)
        have hk : (if j = 0 then 0 else nlookup prev (j - 1)) + 1 =
            cv s s alo ahi alo ahi i j :=
          Hk j (by omega) (by omega) hjb2j
        by_cases hup : best.2.2 < (if j = 0 then 0 else nlookup prev (j - 1)) + 1
        · rw [if_pos hup]
          have hij : j = i := by
            rcases Nat.lt_trichotomy j i with hlt | heq | hgt
            · exfalso
              have hsymm := cv_symm s alo ahi hlen i j
              have hr := Hrows j i hlt
              omega
            · exact heq
            · exfalso
              have hdom := cv_diag_dom s alo ahi hlen i j
              have hii : cv s s alo ahi alo ahi i i ≠ 0 := by omega
              rcases Hpend i hii with h | h
              · rcases List.mem_cons.mp h with hx | hx
                · omega
                · have := hpw2.1 i hx
                  omega
              · omega
          subst hij
          have hccv := ih
            (nupdate acc j ((if j = 0 then 0 else nlookup prev (j - 1)) + 1))
            (j + 1 - ((if j = 0 then 0 else nlookup prev (j - 1)) + 1),
              j + 1 - ((if j = 0 then 0 else nlookup prev (j - 1)) + 1),
              (if j = 0 then 0 else nlookup prev (j - 1)) + 1)
            hpw2.2 (fun j0 h => hmem j0 (List.mem_cons_of_mem _ h))
            ?_ ?_ rfl ?_
          · exact ⟨hccv.1, hccv.2.1, hccv.2.2.1, hccv.2.2.2.1, by
              have := hccv.2.2.2.2
              dsimp only at this
              omega⟩
          · intro j0 hcv
            by_cases hj0 : j0 = j
            · subst hj0
              right
              dsimp only
              omega
            · rcases Hpend j0 hcv with h | h
              · rcases List.mem_cons.mp h with hx | hx
                · exact absurd hx hj0
                · exact Or.inl hx
              · right
                dsimp only
                omega
          · intro r j0 hr
            have := Hrows r j0 hr
            dsimp only
            omega
          · intro h
            dsimp only at h
            omega
        · rw [if_neg hup]
          apply ih _ best hpw2.2 (fun j0 h => hmem j0 (List.mem_cons_of_mem _ h))
            _ Hrows hdiag hzero
          intro j0 hcv
          by_cases hj0 : j0 = j
          · subst hj0
            right
            omega
          · rcases Hpend j0 hcv with h | h
            · rcases List.mem_cons.mp h with hx | hx
              · exact absurd hx hj0
              · exact Or.inl hx
            · exact Or.inr h

end DifflibDiag2

section DifflibDiag3

theorem rowsLoop_diag (s : List Char) (alo ahi : ℕ) (hlen : ahi ≤ s.length) :
    ∀ (cnt r : ℕ) (j2len : List (ℕ × ℕ)) (best : ℕ × ℕ × ℕ),
      alo ≤ r → r + cnt = ahi →
      (r < ahi → ∀ j, alo ≤ j → j < ahi → j ∈ b2j s (s.getD r dChar) →
        (if j = 0 then 0 else nlookup j2len (j - 1)) + 1 =
          cv s s alo ahi alo ahi r j) →
      (∀ r' j, r' < r → cv s s alo ahi alo ahi r' j ≤ best.2.2) →
      best.1 = best.2.1 →
      (best.2.2 = 0 → best = (alo, alo, 0)) →
      (rowsLoop s s alo ahi (List.range' r cnt) j2len best).1 =
        (rowsLoop s s alo ahi (List.range' r cnt) j2len best).2.1 ∧
      ((rowsLoop s s alo ahi (List.range' r cnt) j2len best).2.2 = 0 →
        rowsLoop s s alo ahi (List.range' r cnt) j2len best = (alo, alo, 0)) ∧
      (∀ r' j, r' < ahi →
        cv s s alo ahi alo ahi r' j ≤
          (rowsLoop s s alo ahi (List.range' r cnt) j2len best).2.2) := by
  intro cnt
  induction cnt with
  | zero =>
    intro r j2len best hr hcnt _ Hrows hdiag hzero
    refine ⟨hdiag, hzero, ?_⟩
    intro r' j hr'
    exact Hrows r' j (by omega)
  | succ cnt ih =>
    intro r j2len best hr hcnt Hchar Hrows hdiag hzero
    have hr_lt : r < ahi := by omega
    rw [List.range'_succ]
    simp only [rowsLoop]
    have hpend0 : ∀ j, cv s s alo ahi alo ahi r j ≠ 0 →
        j ∈ b2j s (s.getD r dChar) ∨
          cv s s alo ahi alo ahi r j ≤ best.2.2 := by
      intro j hcv
      left
      have hg := cv_ne_zero_gate s s alo ahi alo ahi r j hcv
      rw [gateB_iff] at hg
      exact hg.2.2.2.2
    have hinner := innerLoop_diag s alo ahi r j2len hlen (Hchar hr_lt)
      (b2j s (s.getD r dChar)) [] best (b2j_sorted s _) (fun j h => h)
      hpend0 Hrows hdiag hzero
    have hlookup := innerLoop_lookup j2len alo ahi r
      (b2j s (s.getD r dChar)) [] best (b2j_sorted s _)
    apply ih (r + 1) _ _ (by omega) (by omega)
    · intro hr1 j hj1 hj2 hjb
      have hgate : gateB s s alo ahi alo ahi (r + 1) j = true :=
        (gateB_iff s s alo ahi alo ahi (r + 1) j).mpr
          ⟨by omega, hr1, hj1, hj2, hjb⟩
      cases j with
      | zero =>
        show 0 + 1 = cv s s alo ahi alo ahi (r + 1) 0
        show 0 + 1 = (if gateB s s alo ahi alo ahi (r + 1) 0 then 0 + 1 else 0)
        rw [if_pos hgate]
      | succ j' =>
        show nlookup (innerLoop j2len alo ahi r
            (b2j s (s.getD r dChar)) [] best).1 j' + 1 =
          cv s s alo ahi alo ahi (r + 1) (j' + 1)
        show nlookup (innerLoop j2len alo ahi r
            (b2j s (s.getD r dChar)) [] best).1 j' + 1 =
          (if gateB s s alo ahi alo ahi (r + 1) (j' + 1) then
            cv s s alo ahi alo ahi r j' + 1 else 0)
        rw [if_pos hgate]
        rw [hlookup j']
        by_cases hcnd : j' ∈ b2j s (s.getD r dChar) ∧ alo ≤ j' ∧ j' < ahi
        · rw [if_pos hcnd]
          rw [Hchar hr_lt j' hcnd.2.1 hcnd.2.2 hcnd.1]
        · rw [if_neg hcnd]
          by_cases hcv : cv s s alo ahi alo ahi r j' = 0
          · rw [hcv]
            rfl
          · exfalso
            have hg := cv_ne_zero_gate s s alo ahi alo ahi r j' hcv
            rw [gateB_iff] at hg
            exact hcnd ⟨hg.2.2.2.2, hg.2.2.1, hg.2.2.2.1⟩
    · intro r' j hr'
      by_cases hc : r' < r
      · exact hinner.2.2.2.1 r' j hc
      · have hc2 : r' = r := by omega
        subst hc2
        exact hinner.2.2.1 j
    · exact hinner.1
    · exact hinner.2.1

end DifflibDiag3

section DifflibExt

theorem extBack_mono (a b : List Char) (alo blo : ℕ) (junk : Char → Bool) :
    ∀ (fuel : ℕ) (st : ℕ × ℕ × ℕ),
      st.2.2 ≤ (extBack a b alo blo junk fuel st).2.2 := by
  intro fuel
  induction fuel with
  | zero => intro st; exact le_refl _
  | succ n ih =>
    intro st
    obtain ⟨bi, bj, bs⟩ := st
    simp only [extBack]
    by_cases hc : alo < bi ∧ blo < bj ∧ junk (b.getD (bj - 1) dChar) = false ∧
        a.getD (bi - 1) dChar = b.getD (bj - 1) dChar
    · rw [if_pos hc]
      have := ih (bi - 1, bj - 1, bs + 1)
      dsimp only at this ⊢
      omega
    · rw [if_neg hc]

theorem extFwd_mono (a b : List Char) (ahi bhi : ℕ) (junk : Char → Bool) :
    ∀ (fuel : ℕ) (st : ℕ × ℕ × ℕ),
      st.2.2 ≤ (extFwd a b ahi bhi junk fuel st).2.2 := by
  intro fuel
  induction fuel with
  | zero => intro st; exact le_refl _
  | succ n ih =>
    intro st
    obtain ⟨bi, bj, bs⟩ := st
    simp only [extFwd]
    by_cases hc : bi + bs < ahi ∧ bj + bs < bhi ∧
        junk (b.getD (bj + bs) dChar) = false ∧
        a.getD (bi + bs) dChar = b.getD (bj + bs) dChar
    · rw [if_pos hc]
      have := ih (bi, bj, bs + 1)
      dsimp only at this ⊢
      omega
    · rw [if_neg hc]

theorem extBack_diag (a b : List Char) (alo blo : ℕ) (junk : Char → Bool) :
    ∀ (fuel : ℕ) (st : ℕ × ℕ × ℕ), st.1 = st.2.1 →
      (extBack a b alo blo junk fuel st).1 =
        (extBack a b alo blo junk fuel st).2.1 := by
  intro fuel
  induction fuel with
  | zero => intro st h; exact h
  | succ n ih =>
    intro st h
    obtain ⟨bi, bj, bs⟩ := st
    simp only [extBack]
    by_cases hc : alo < bi ∧ blo < bj ∧ junk (b.getD (bj - 1) dChar) = false ∧
        a.getD (bi - 1) dChar = b.getD (bj - 1) dChar
    · rw [if_pos hc]
      apply ih
      dsimp only at h ⊢
      omega
    · rw [if_neg hc]
      exact h

theorem extFwd_diag (a b : List Char) (ahi bhi : ℕ) (junk : Char → Bool) :
    ∀ (fuel : ℕ) (st : ℕ × ℕ × ℕ), st.1 = st.2.1 →
      (extFwd a b ahi bhi junk fuel st).1 =
        (extFwd a b ahi bhi junk fuel st).2.1 := by
  intro fuel
  induction fuel with
  | zero => intro st h; exact h
  | succ n ih =>
    intro st h
    obtain ⟨bi, bj, bs⟩ := st
    simp only [extFwd]
    by_cases hc : bi + bs < ahi ∧ bj + bs < bhi ∧
        junk (b.getD (bj + bs) dChar) = false ∧
        a.getD (bi + bs) dChar = b.getD (bj + bs) dChar
    · rw [if_pos hc]
      apply ih
      exact h
    · rw [if_neg hc]
      exact h

theorem extBack_zero (a b : List Char) (alo blo : ℕ) (junk : Char → Bool) :
    ∀ (fuel : ℕ) (st : ℕ × ℕ × ℕ),
      (st.2.2 = 0 → st = (alo, blo, 0)) →
      ((extBack a b alo blo junk fuel st).2.2 = 0 →
        extBack a b alo blo junk fuel st = (alo, blo, 0)) := by
  intro fuel
  induction fuel with
  | zero => intro st h; exact h
  | succ n ih =>
    intro st h
    obtain ⟨bi, bj, bs⟩ := st
    simp only [extBack]
    by_cases hc : alo < bi ∧ blo < bj ∧ junk (b.getD (bj - 1) dChar) = false ∧
        a.getD (bi - 1) dChar = b.getD (bj - 1) dChar
    · rw [if_pos hc]
      intro hz
      have hm := extBack_mono a b alo blo junk n (bi - 1, bj - 1, bs + 1)
      dsimp only at hm
      omega
    · rw [if_neg hc]
      exact h

theorem extFwd_step_ge (a b : List Char) (ahi bhi : ℕ) (junk : Char → Bool)
    (fuel : ℕ) (bi bj bs : ℕ)
    (hc : bi + bs < ahi ∧ bj + bs < bhi ∧
      junk (b.getD (bj + bs) dChar) = false ∧
      a.getD (bi + bs) dChar = b.getD (bj + bs) dChar) :
    bs + 1 ≤ (extFwd a b ahi bhi junk (fuel + 1) (bi, bj, bs)).2.2 := by
  simp only [extFwd]
  rw [if_pos hc]
  have := extFwd_mono a b ahi bhi junk fuel (bi, bj, bs + 1)
  dsimp only at this
  omega

end DifflibExt

section DifflibSym

theorem cv_first_row (s : List Char) (alo ahi j : ℕ)
    (hgate : gateB s s alo ahi alo ahi alo j = true) :
    cv s s alo ahi alo ahi alo j = 1 := by
  cases alo with
  | zero =>
    show (if gateB s s 0 ahi 0 ahi 0 j then 1 else 0) = 1
    rw [if_pos hgate]
  | succ a' =>
    cases j with
    | zero =>
      show (if gateB s s (a' + 1) ahi (a' + 1) ahi (a' + 1) 0 then
        0 + 1 else 0) = 1
      rw [if_pos hgate]
    | succ j' =>
      show (if gateB s s (a' + 1) ahi (a' + 1) ahi (a' + 1) (j' + 1) then
        cv s s (a' + 1) ahi (a' + 1) ahi a' j' + 1 else 0) = 1
      rw [if_pos hgate]
      rw [cv_row_lt s s (a' + 1) ahi (a' + 1) ahi a' j' (by omega)]

theorem flm_sym (s : List Char) (alo ahi : ℕ) (hle : alo ≤ ahi)
    (hlen : ahi ≤ s.length) :
    (find_longest_match s s alo ahi alo ahi).1 =
      (find_longest_match s s alo ahi alo ahi).2.1 ∧
    (alo < ahi → 1 ≤ (find_longest_match s s alo ahi alo ahi).2.2) := by
  have hchar0 : alo < ahi → ∀ j, alo ≤ j → j < ahi →
      j ∈ b2j s (s.getD alo dChar) →
      (if j = 0 then 0 else nlookup [] (j - 1)) + 1 =
        cv s s alo ahi alo ahi alo j := by
    intro halo j hj1 hj2 hjb
    have hgate : gateB s s alo ahi alo ahi alo j = true :=
      (gateB_iff s s alo ahi alo ahi alo j).mpr
        ⟨le_refl alo, halo, hj1, hj2, hjb⟩
    rw [cv_first_row s alo ahi j hgate]
    by_cases hj0 : j = 0
    · rw [if_pos hj0]
    · rw [if_neg hj0]
      rfl
  have hrows := rowsLoop_diag s alo ahi hlen (ahi - alo) alo [] (alo, alo, 0)
    (le_refl alo) (by omega) hchar0
    (fun r' j h => by
      rw [cv_row_lt s s alo ahi alo ahi r' j h]) rfl (fun _ => rfl)
  unfold find_longest_match
  rw [extFwdJunk_noJunk, extBackJunk_noJunk]
  constructor
  · apply extFwd_diag
    apply extBack_diag
    exact hrows.1
  · intro hlt
    by_contra hcon
    have hz2 : (extFwd s s ahi ahi noJunk
        (s.length + s.length + alo + ahi + alo + ahi + 1)
        (extBack s s alo alo noJunk
          (s.length + s.length + alo + ahi + alo + ahi + 1)
          (rowsLoop s s alo ahi (List.range' alo (ahi - alo)) []
            (alo, alo, 0)))).2.2 = 0 := by
      omega
    have hm := extFwd_mono s s ahi ahi noJunk
      (s.length + s.length + alo + ahi + alo + ahi + 1)
      (extBack s s alo alo noJunk
        (s.length + s.length + alo + ahi + alo + ahi + 1)
        (rowsLoop s s alo ahi (List.range' alo (ahi - alo)) []
          (alo, alo, 0)))
    have hz1 : (extBack s s alo alo noJunk
        (s.length + s.length + alo + ahi + alo + ahi + 1)
        (rowsLoop s s alo ahi (List.range' alo (ahi - alo)) []
          (alo, alo, 0))).2.2 = 0 := by
      omega
    have hB1 := extBack_zero s s alo alo noJunk
      (s.length + s.length + alo + ahi + alo + ahi + 1)
      (rowsLoop s s alo ahi (List.range' alo (ahi - alo)) []
        (alo, alo, 0)) hrows.2.1 hz1
    rw [hB1] at hz2
    have hstep := extFwd_step_ge s s ahi ahi noJunk
      (s.length + s.length + alo + ahi + alo + ahi) alo alo 0
      ⟨by omega, by omega, rfl, rfl⟩
    omega

end DifflibSym

section DifflibSelf

theorem matchTotal_sym (s : List Char) :
    ∀ (fuel alo ahi : ℕ), ahi ≤ s.length → alo ≤ ahi → ahi - alo < fuel →
      matchTotal s s fuel alo ahi alo ahi = ahi - alo := by
  intro fuel
  induction fuel with
  | zero =>
    intro alo ahi _ _ hf
    exact absurd hf (by omega)
  | succ n ih =>
    intro alo ahi hlen hle hf
    have hb := flm_bounds s s alo ahi alo ahi hle hle
    unfold Pbnd at hb
    by_cases heq : alo = ahi
    · subst heq
      simp only [matchTotal]
      rw [if_pos (by omega)]
      omega
    · have hlt : alo < ahi := by omega
      have hsym := flm_sym s alo ahi hle hlen
      have hk1 := hsym.2 hlt
      simp only [matchTotal]
      rw [if_neg (by omega)]
      rw [← hsym.1]
      have hleft : (if alo < (find_longest_match s s alo ahi alo ahi).1 ∧
          alo < (find_longest_match s s alo ahi alo ahi).1 then
          matchTotal s s n alo (find_longest_match s s alo ahi alo ahi).1
            alo (find_longest_match s s alo ahi alo ahi).1 else 0) =
          (find_longest_match s s alo ahi alo ahi).1 - alo := by
        by_cases hg : alo < (find_longest_match s s alo ahi alo ahi).1
        · rw [if_pos ⟨hg, hg⟩]
          exact ih alo _ (by omega) (by omega) (by omega)
        · rw [if_neg (fun hc => hg hc.1)]
          omega
      have hright : (if (find_longest_match s s alo ahi alo ahi).1 +
            (find_longest_match s s alo ahi alo ahi).2.2 < ahi ∧
            (find_longest_match s s alo ahi alo ahi).1 +
            (find_longest_match s s alo ahi alo ahi).2.2 < ahi then
          matchTotal s s n
            ((find_longest_match s s alo ahi alo ahi).1 +
              (find_longest_match s s alo ahi alo ahi).2.2) ahi
            ((find_longest_match s s alo ahi alo ahi).1 +
              (find_longest_match s s alo ahi alo ahi).2.2) ahi else 0) =
          ahi - ((find_longest_match s s alo ahi alo ahi).1 +
            (find_longest_match s s alo ahi alo ahi).2.2) := by
        by_cases hg : (find_longest_match s s alo ahi alo ahi).1 +
            (find_longest_match s s alo ahi alo ahi).2.2 < ahi
        · rw [if_pos ⟨hg, hg⟩]
          exact ih _ ahi hlen (by omega) (by omega)
        · rw [if_neg (fun hc => hg hc.1)]
          omega
      rw [hleft, hright]
      omega

theorem smRatio_self (s : List Char) : smRatio s s = 1 := by
  unfold smRatio
  by_cases h : 0 < s.length + s.length
  · rw [if_pos h]
    rw [matchTotal_sym s (s.length + s.length + 1) 0 s.length (le_refl _)
      (Nat.zero_le _) (by omega)]
    simp only [Nat.sub_zero]
    have hlen : (0 : ℚ) < (s.length : ℚ) + (s.length : ℚ) := by
      have : (0 : ℚ) < ((s.length + s.length : ℕ) : ℚ) := by exact_mod_cast h
      push_cast at this
      exact this
    rw [div_eq_one_iff_eq (ne_of_gt hlen)]
    push_cast
    ring
  · rw [if_neg h]

end DifflibSelf

section DifflibDisjoint

theorem b2j_of_not_mem (b : List Char) (c : Char) (h : c ∉ b) :
    b2j b c = [] := by
  unfold b2j
  by_cases hp : isPopular b c
  · rw [if_pos hp]
  · rw [if_neg hp]
    rw [List.eq_nil_iff_forall_not_mem]
    intro j hj
    rw [positionsOf_mem] at hj
    exact h (List.get?_mem hj.2)

theorem rowsLoop_const (a b : List Char) (blo bhi : ℕ) :
    ∀ (rows : List ℕ) (j2len : List (ℕ × ℕ)) (best : ℕ × ℕ × ℕ),
      (∀ i ∈ rows, b2j b (a.getD i dChar) = []) →
      rowsLoop a b blo bhi rows j2len best = best := by
  intro rows
  induction rows with
  | nil => intro j2len best _; rfl
  | cons r rows ih =>
    intro j2len best hall
    simp only [rowsLoop]
    rw [hall r (List.mem_cons_self _ _)]
    exact ih _ _ (fun i h => hall i (List.mem_cons_of_mem _ h))

theorem extBack_noStep (a b : List Char) (alo blo : ℕ) (junk : Char → Bool)
    (fuel : ℕ) (st : ℕ × ℕ × ℕ)
    (h : ¬(alo < st.1 ∧ blo < st.2.1 ∧
      junk (b.getD (st.2.1 - 1) dChar) = false ∧
      a.getD (st.1 - 1) dChar = b.getD (st.2.1 - 1) dChar)) :
    extBack a b alo blo junk fuel st = st := by
  cases fuel with
  | zero => rfl
  | succ n =>
    obtain ⟨bi, bj, bs⟩ := st
    simp only [extBack]
    rw [if_neg h]

theorem extFwd_noStep (a b : List Char) (ahi bhi : ℕ) (junk : Char → Bool)
    (fuel : ℕ) (st : ℕ × ℕ × ℕ)
    (h : ¬(st.1 + st.2.2 < ahi ∧ st.2.1 + st.2.2 < bhi ∧
      junk (b.getD (st.2.1 + st.2.2) dChar) = false ∧
      a.getD (st.1 + st.2.2) dChar = b.getD (st.2.1 + st.2.2) dChar)) :
    extFwd a b ahi bhi junk fuel st = st := by
  cases fuel with
  | zero => rfl
  | succ n =>
    obtain ⟨bi, bj, bs⟩ := st
    simp only [extFwd]
    rw [if_neg h]

theorem flm_disjoint (a b : List Char) (hdis : ∀ c ∈ a, c ∉ b) :
    find_longest_match a b 0 a.length 0 b.length = (0, 0, 0) := by
  unfold find_longest_match
  rw [extFwdJunk_noJunk, extBackJunk_noJunk]
  rw [rowsLoop_const a b 0 b.length _ [] (0, 0, 0) ?_]
  · rw [extBack_noStep a b 0 0 noJunk _ (0, 0, 0) (by
      intro hc
      exact absurd hc.1 (lt_irrefl 0))]
    apply extFwd_noStep
    intro hc
    obtain ⟨h1, h2, _, h4⟩ := hc
    dsimp only at h1 h2 h4
    have ha : a.getD 0 dChar ∈ a := by
      have := get?_eq_getD a 0 (by omega)
      exact List.get?_mem this
    have hb : b.getD 0 dChar ∈ b := by
      have := get?_eq_getD b 0 (by omega)
      exact List.get?_mem this
    rw [h4] at ha
    exact hdis _ ha (by simpa using hb)
  · intro i hi
    rw [List.mem_range'_1] at hi
    apply b2j_of_not_mem
    have : a.getD i dChar ∈ a := by
      have := get?_eq_getD a i (by omega)
      exact List.get?_mem this
    exact hdis _ this

theorem smRatio_disjoint (a b : List Char) (hdis : ∀ c ∈ a, c ∉ b)
    (hl : 0 < a.length + b.length) : smRatio a b = 0 := by
  unfold smRatio
  rw [if_pos hl]
  have hm : matchTotal a b (a.length + b.length + 1) 0 a.length 0
      b.length = 0 := by
    simp only [matchTotal]
    rw [flm_disjoint a b hdis]
    rw [if_pos rfl]
  rw [hm]
  simp

end DifflibDisjoint

/-- Claim C3 (corrected).  The similarity score always lies in [0,1]; for
nonempty raw inputs whose normalizations coincide the score is 1; an
empty raw input forces 0 regardless of normalization; for nonempty raw
inputs whose normalizations share no character and are not both empty
the score is 0; and for nonempty raw inputs the score factors through
the two normalized strings (the difflib ratio).  The original claim
fails at the raw-falsy guard and at the both-normalized-empty case (see
the counterexample). -/
theorem C3_fuzzy_similarity :
    (∀ s1 s2 : List Char, 0 ≤ calculate_fuzzy_similarity s1 s2 ∧
      calculate_fuzzy_similarity s1 s2 ≤ 1) ∧
    (∀ s1 s2 : List Char, s1 ≠ [] → s2 ≠ [] →
      normalize_text s1 = normalize_text s2 →
      calculate_fuzzy_similarity s1 s2 = 1) ∧
    (∀ s1 s2 : List Char, s1 = [] ∨ s2 = [] →
      calculate_fuzzy_similarity s1 s2 = 0) ∧
    (∀ s1 s2 : List Char, s1 ≠ [] → s2 ≠ [] →
      (∀ c ∈ normalize_text s1, c ∉ normalize_text s2) →
      normalize_text s1 ≠ [] ∨ normalize_text s2 ≠ [] →
      calculate_fuzzy_similarity s1 s2 = 0) ∧
    (∀ s1 s2 : List Char, s1 ≠ [] → s2 ≠ [] →
      calculate_fuzzy_similarity s1 s2 =
        smRatio (normalize_text s1) (normalize_text s2)) := by
  refine ⟨?_, ?_, ?_, ?_, ?_⟩
  · intro s1 s2
    unfold calculate_fuzzy_similarity
    by_cases hf : s1 = [] ∨ s2 = []
    · rw [if_pos hf]
      exact ⟨le_refl 0, zero_le_one⟩
    · rw [if_neg hf]
      exact smRatio_bounds _ _
  · intro s1 s2 h1 h2 hn
    unfold calculate_fuzzy_similarity
    rw [if_neg (fun hc => hc.elim h1 h2)]
    rw [hn]
    exact smRatio_self _
  · intro s1 s2 hf
    unfold calculate_fuzzy_similarity
    rw [if_pos hf]
  · intro s1 s2 h1 h2 hdis hne
    unfold calculate_fuzzy_similarity
    rw [if_neg (fun hc => hc.elim h1 h2)]
    apply smRatio_disjoint _ _ hdis
    rcases hne with h | h
    · have := List.length_pos.mpr h
      omega
    · have := List.length_pos.mpr h
      omega
  · intro s1 s2 h1 h2
    unfold calculate_fuzzy_similarity
    rw [if_neg (fun hc => hc.elim h1 h2)]

/-- Witness for C3 at raw inputs "bol" and " bol ", which normalize to
the same string: the score is exactly 1. -/
theorem C3_fuzzy_similarity_witness :
    ("bol".data ≠ []) ∧ (" bol ".data ≠ []) ∧
    normalize_text "bol".data = normalize_text " bol ".data ∧
    calculate_fuzzy_similarity "bol".data " bol ".data = 1 :=
  ⟨by decide, by decide, by decide,
    C3_fuzzy_similarity.2.1 "bol".data " bol ".data (by decide) (by decide)
      (by decide)⟩

/-- Counterexample to the original C3: "!!!" and "???" share no
character at all, yet the score is 1 (both normalize to the empty
string, and difflib returns 1.0 for two empty sequences); moreover
("", "") and ("!", "?") have identical normalized pairs ("", "") but
scores 0 and 1, so the score is not a function of the two normalized
strings, and normalized-identical inputs need not score 1. -/
theorem C3_counterexample :
    (∀ c ∈ "!!!".data, c ∉ "???".data) ∧
    calculate_fuzzy_similarity "!!!".data "???".data = 1 ∧
    normalize_text "".data = normalize_text "!".data ∧
    normalize_text "".data = normalize_text "?".data ∧
    calculate_fuzzy_similarity "".data "".data = 0 ∧
    calculate_fuzzy_similarity "!".data "?".data = 1 := by
  decide

/-- Witness for C2: with no best match (`None`) the threshold test holds
and the result is the descriptive failure string, independent of the
extraction body. -/
theorem C2_extract_bol_text_errors_witness :
    belowThreshold none (1 / 2 : ℚ) = true ∧
    extract_bol_text (.ok none) (1 / 2) (.ok "TEXT") = noTemplateMsg none ∧
    extract_bol_text (.ok none) (1 / 2) (.ok "TEXT") =
      extract_bol_text (.ok none) (1 / 2) (.error "boom") ∧
    (∃ t, noTemplateMsg none = "ERROR:" ++ t) :=
  have h := C2_extract_bol_text_errors.2.1 none (1 / 2) (.ok "TEXT")
    (.error "boom") (by decide)
  ⟨by decide, h.1, h.2.1, h.2.2⟩

/-! ## Claim C10: default of `include_unboxed_content` -/

/-- One content block of the per-page assembly of
`_extract_with_template` (the `label` entry, present only on box blocks
and read by no later step, is omitted). -/
structure ContentBlock where
  content : String
  y_pos : ℚ
  x_pos : ℚ
  btype : String
deriving DecidableEq

/-- `box.get('coordinates', [0,0,0,0])[1] if len >= 2 else 0`. -/
def boxYPos (b : Box) : ℚ := (b.coordinates.getD [0, 0, 0, 0]).getD 1 0

/-- `box.get('coordinates', [0,0,0,0])[0] if len >= 1 else 0`. -/
def boxXPos (b : Box) : ℚ := (b.coordinates.getD [0, 0, 0, 0]).getD 0 0

/-- `_process_box_elements`: dispatch on `box_type` (default
`'general'`). -/
def process_box_elements (elements : List TextElement) (box : Box) :
    String :=
  if elements = [] then ""
  else
    match box.box_type.getD "general" with
    | "table" => extract_table_text_from_elements elements box
    | "paragraph" => extract_paragraph_from_words (elements.map toWord)
    | _ => extract_with_layout_detection (elements.map toWord)

/-- The box content blocks, in box order: one block per box whose bucket
is nonempty. -/
def boxBlocks (boxes : List Box) (asg : String → List TextElement) :
    List ContentBlock :=
  boxes.filterMap (fun box =>
    if asg (boxLabel box) = [] then none
    else some
      { content := postProcessS (process_box_elements (asg (boxLabel box)) box),
        y_pos := boxYPos box,
        x_pos := boxXPos box,
        btype := "box" })

/-- `min(e.y0 for e in els)` (els nonempty in every use). -/
def blockMinY : List TextElement → ℚ
  | [] => 0
  | e :: rest => rest.foldl (fun m x => min m x.y0) e.y0

/-- `min(e.x0 for e in els)`. -/
def blockMinX : List TextElement → ℚ
  | [] => 0
  | e :: rest => rest.foldl (fun m x => min m x.x0) e.x0

/-- `_process_unboxed_block`: general layout detection over the block's
words. -/
def processUnboxedBlock (els : List TextElement) : String :=
  if els = [] then "" else extract_with_layout_detection (els.map toWord)

/-- `(e.y0, e.x0)` lexicographic sort key of the unboxed elements. -/
def elemLe (e1 e2 : TextElement) : Prop :=
  e1.y0 < e2.y0 ∨ (e1.y0 = e2.y0 ∧ e1.x0 ≤ e2.x0)

instance elemLeDec : DecidableRel elemLe := fun a b => by
  unfold elemLe
  infer_instance

/-- Emit the current block if its processed content survives `strip()`. -/
def emitBlock (cur : List TextElement) : List (String × ℚ × ℚ) :=
  if cur = [] then []
  else
    let content := processUnboxedBlock cur
    if pyStrip content.data = [] then []
    else [(content, blockMinY cur, blockMinX cur)]

/-- One step of the grouping loop of `_group_unboxed_into_blocks`: start
a new block when the vertical gap to the last element of the current
block exceeds 20. -/
def unboxedStep (acc : List (String × ℚ × ℚ) × List TextElement)
    (e : TextElement) : List (String × ℚ × ℚ) × List TextElement :=
  match acc.2.getLast? with
  | some lastEl =>
    if e.y0 - lastEl.y1 > 20 then (acc.1 ++ emitBlock acc.2, [e])
    else (acc.1, acc.2 ++ [e])
  | none => (acc.1, acc.2 ++ [e])

/-- `_group_unboxed_into_blocks`: sort by `(y0, x0)`, group by vertical
proximity (threshold 20), emit each nonblank block with the minimum
`y0`/`x0` of its elements as its position. -/
def group_unboxed_into_blocks (elements : List TextElement) :
    List (String × ℚ × ℚ) :=
  if elements = [] then []
  else
    let r := (List.insertionSort elemLe elements).foldl unboxedStep ([], [])
    r.1 ++ emitBlock r.2

/-- `template_data.get('include_unboxed_content', True)`. -/
def includeUnboxedContent (td : TemplateData) : Bool :=
  td.include_unboxed_content.getD true

/-- `'_UNBOXED_' in box_assignments`: the key exists when some box is
labelled `_UNBOXED_` (initialization) or unassigned elements were stored
under it. -/
def hasUnboxedKey (boxes : List Box) (elements : List TextElement) : Bool :=
  decide ("_UNBOXED_" ∈ boxes.map boxLabel) ||
    decide ((assignTextToBoxes boxes elements).2 ≠ [])

/-- Reading-order comparison of content blocks
(`key=lambda block: (block['y_pos'], block['x_pos'])`). -/
def blockLe (b1 b2 : ContentBlock) : Prop :=
  b1.y_pos < b2.y_pos ∨ (b1.y_pos = b2.y_pos ∧ b1.x_pos ≤ b2.x_pos)

instance blockLeDec : DecidableRel blockLe := fun a b => by
  unfold blockLe
  infer_instance

/-- The sorted per-page content blocks of `_extract_with_template`
(steps 3 and 4): box blocks, then — when the template allows it and the
`_UNBOXED_` entry is a nonempty list — the unboxed blocks, sorted by
reading order. -/
def pageContentBlocks (td : TemplateData) (boxes : List Box)
    (elements : List TextElement) : List ContentBlock :=
  let asg := boxAssignments boxes elements
  let blocks := boxBlocks boxes asg ++
    (if includeUnboxedContent td && hasUnboxedKey boxes elements &&
        decide (asg "_UNBOXED_" ≠ []) then
      (group_unboxed_into_blocks (asg "_UNBOXED_")).map (fun t =>
        { content := t.1, y_pos := t.2.1, x_pos := t.2.2,
          btype := "unboxed" })
    else [])
  List.insertionSort blockLe blocks

/-- Claim C10.  When the template record has no `include_unboxed_content`
entry the `dict.get` default makes the flag true; page assembly is then
identical to a template with the flag explicitly true; every grouped
unboxed block appears in the page output; and an explicit `false` (not
the default) is what suppresses the unboxed blocks. -/
theorem C10_include_unboxed_default :
    (∀ td : TemplateData, td.include_unboxed_content = none →
      includeUnboxedContent td = true) ∧
    (∀ (td : TemplateData) (boxes : List Box) (elements : List TextElement),
      td.include_unboxed_content = none →
      pageContentBlocks td boxes elements =
        pageContentBlocks
          { td with include_unboxed_content := some true } boxes elements) ∧
    (∀ (td : TemplateData) (boxes : List Box) (elements : List TextElement),
      td.include_unboxed_content = none →
      (assignTextToBoxes boxes elements).2 ≠ [] →
      ∀ blk ∈ group_unboxed_into_blocks
          (boxAssignments boxes elements "_UNBOXED_"),
        ({ content := blk.1, y_pos := blk.2.1, x_pos := blk.2.2,
            btype := "unboxed" } : ContentBlock) ∈
          pageContentBlocks td boxes elements) ∧
    (∀ (td : TemplateData) (boxes : List Box) (elements : List TextElement),
      td.include_unboxed_content = some false →
      pageContentBlocks td boxes elements =
        List.insertionSort blockLe
          (boxBlocks boxes (boxAssignments boxes elements))) := by
  refine ⟨?_, ?_, ?_, ?_⟩
  · intro td h
    unfold includeUnboxedContent
    rw [h]
    rfl
  · intro td boxes elements h
    unfold pageContentBlocks includeUnboxedContent
    rw [h]
    rfl
  · intro td boxes elements h hne blk hblk
    have hflag : includeUnboxedContent td = true := by
      unfold includeUnboxedContent
      rw [h]
      rfl
    have hkey : hasUnboxedKey boxes elements = true := by
      unfold hasUnboxedKey
      rw [Bool.or_eq_true]
      right
      exact decide_eq_true hne
    have hbucket : boxAssignments boxes elements "_UNBOXED_" ≠ [] := by
      unfold boxAssignments
      rw [if_neg hne]
      simpa using hne
    unfold pageContentBlocks
    rw [List.mem_insertionSort]
    apply List.mem_append_right
    rw [hflag, hkey, if_pos (by simp [hbucket])]
    exact List.mem_map_of_mem _ hblk
  · intro td boxes elements h
    have hflag : includeUnboxedContent td = false := by
      unfold includeUnboxedContent
      rw [h]
      rfl
    unfold pageContentBlocks
    rw [hflag]
    simp

/-- A token far outside the witness zone (center (100,100)). -/
def tokFar : TextElement := ⟨"far", 99, 99, 101, 101, 100, 100⟩

/-- Template record with no `include_unboxed_content` entry. -/
def wtd10 : TemplateData := ⟨some "t", some "raw", none, none, some [zoneA]⟩

/-- Witness for C10: a template with no flag, one zone, one token inside
it and one far outside; the outside token is unassigned, and every
grouped unboxed block reaches the page output. -/
theorem C10_include_unboxed_default_witness :
    wtd10.include_unboxed_content = none ∧
    (assignTextToBoxes [zoneA] [tok77, tokFar]).2 ≠ [] ∧
    ∀ blk ∈ group_unboxed_into_blocks
        (boxAssignments [zoneA] [tok77, tokFar] "_UNBOXED_"),
      ({ content := blk.1, y_pos := blk.2.1, x_pos := blk.2.2,
          btype := "unboxed" } : ContentBlock) ∈
        pageContentBlocks wtd10 [zoneA] [tok77, tokFar] :=
  ⟨by decide, by decide,
    C10_include_unboxed_default.2.2.1 wtd10 [zoneA] [tok77, tokFar]
      (by decide) (by decide)⟩

end BOLExtract
